import Mathlib

/-!
# Content directory registry and resolution cache (util/VFS/Content.cpp)

Shallow embedding of `SemVer` (util/SemVer.hpp), `VFS::Content::Dir`
(util/VFS/ContentDir.hpp) and of `DirPathCache` / `DirSet`
(util/VFS/Content.cpp), followed by the properties proved about them.

Conventions of the embedding:
* `std::string` is a Lean string. A `boost::filesystem::path` is the sequence
  of the elements its iterators yield (`a`, `b.txt` for `a/b.txt`, with `/`
  as the element of the root directory): Boost compares paths element by
  element, so equality of paths, the keys of `std::map<path, ...>` and the
  members of `std::set<path>` are equality of these sequences. The empty path
  `EMPTY_PATH` is the empty sequence.
* `std::size_t` depths are natural numbers (a depth is bounded by the number
  of registered directories, so wrap-around plays no role).
* `boost::multi_index_container` `m_dirs` is the list of its elements in the
  iteration order of the depth index (`get<tag::depth>()`); the label index
  is a lookup by label in that list, and the uniqueness of the label index is
  the check made by `AddDir`.
* The mutators `SetEnabled` / `SetDepth` act on the element in place, as in
  the source: the container is not told about the change, so the iteration
  order of the depth index is left as it is.
* The file system enters through two functions, `PathsInDir` and
  `PathPortionFrom` (util/VFS/Node.cpp), taken as parameters; the file system
  of the fixtures is the one the embedding of util/VFS/Node.cpp computes.
-/

set_option autoImplicit false

/-! ## util/SemVer.hpp -/

/-- Semantic version record `SemVer`: major, minor, patch and free-form errata. -/
structure SemVer where
  major : Int
  minor : Int
  patch : Int
  errata : String
deriving DecidableEq, Repr

namespace SemVer

/-- Member `operator<`: `std::tie(major, minor, patch, errata) <
std::tie(rhs.major, rhs.minor, rhs.patch, errata)`. The fourth component of
the right-hand tuple is the errata of the left operand, as in the source. -/
def lt (a rhs : SemVer) : Bool :=
  if a.major < rhs.major then true
  else if rhs.major < a.major then false
  else if a.minor < rhs.minor then true
  else if rhs.minor < a.minor then false
  else if a.patch < rhs.patch then true
  else if rhs.patch < a.patch then false
  else decide (a.errata < a.errata)

/-- Member `operator>`: `rhs < *this`. -/
def gt (a rhs : SemVer) : Bool := lt rhs a

/-- Member `operator<=`: `!(*this > rhs)`. -/
def le (a rhs : SemVer) : Bool := !(gt a rhs)

/-- Member `operator>=`: `!(*this < rhs)`. -/
def ge (a rhs : SemVer) : Bool := !(lt a rhs)

/-- Member `operator==`: the four fields compared pairwise. -/
def eq (a rhs : SemVer) : Bool :=
  a.major == rhs.major && a.minor == rhs.minor && a.patch == rhs.patch && a.errata == rhs.errata

/-- Member `operator!=`: `!(*this == rhs)`. -/
def ne (a rhs : SemVer) : Bool := !(eq a rhs)

end SemVer

/-- The characters `std::isspace` accepts in the C locale. -/
def isSpaceChar (c : Char) : Bool :=
  c.toNat == 32 || (9 ≤ c.toNat && c.toNat ≤ 13)

/-- Value of a run of decimal digits, most significant digit first. -/
def digitsValue (ds : List Char) : Int :=
  ds.foldl (fun acc c => acc * 10 + ((c.toNat : Int) - 48)) 0

/-- Helper `StrToInt`: `std::stoi(str)`, with `boost::none` when `std::stoi`
throws `invalid_argument` (no digits after optional blanks and sign) or
`out_of_range` (the value does not fit a 32-bit `int`). The conversion reads
the C string, so it stops at the first NUL character. -/
def StrToInt (str : String) : Option Int :=
  let cs := ((str.toList.takeWhile (fun c => c.toNat != 0)).dropWhile isSpaceChar)
  let neg : Bool := match cs with
    | c :: _ => c.toNat == 45
    | [] => false
  let rest : List Char := match cs with
    | c :: r => if c.toNat == 45 || c.toNat == 43 then r else cs
    | [] => []
  let ds := rest.takeWhile Char.isDigit
  if ds.isEmpty then none
  else
    let v : Int := if neg then - digitsValue ds else digitsValue ds
    if v < -2147483648 ∨ 2147483647 < v then none else some v

/-- Member `std::string::find(char ch, size_type pos)`: index of the first
character with code `ch` at index `pos` or later; `none` is `npos`. -/
def stringFind (source : List Char) (ch : Nat) (pos : Nat) : Option Nat :=
  match (source.drop pos).findIdx? (fun c => c.toNat == ch) with
  | some i => some (pos + i)
  | none => none

/-- Member `std::string::substr(pos, count)` for `pos` within the string
(`count = none` is the default `npos`). -/
def stringSubstr (source : List Char) (pos : Nat) (count : Option Nat) : String :=
  match count with
  | none => String.mk (source.drop pos)
  | some n => String.mk ((source.drop pos).take n)

/-- Helper `NextToken(source, token, pos)`; the position is passed by
reference in the source and returned here, `none` standing for `npos`.
The call `source.find(prev_pos, token)` resolves to
`find(char ch, size_type pos)` with `ch = char(prev_pos)` and
`pos = size_type(token)`: the two arguments are converted as written. -/
def NextToken (source : String) (token : Char) (pos : Option Nat) : String × Option Nat :=
  match pos with
  | none => ("", none)
  | some prev_pos =>
    match stringFind source.toList (prev_pos % 256) token.toNat with
    | none => (stringSubstr source.toList prev_pos none, none)
    | some p => (stringSubstr source.toList prev_pos (some p), some p)

/-- Function `SemVerFromString`. The result is `none` where the source
throws: the final `str.substr(next_pos)` with `next_pos == npos`. -/
def SemVerFromString (str : String) : Option SemVer :=
  let retval : SemVer := { major := 0, minor := 0, patch := 1, errata := "" }
  let t1 := NextToken str (Char.ofNat 46) (some 0)
  match StrToInt t1.1 with
  | none => some { retval with errata := t1.1 }
  | some v1 =>
    let retval := { retval with major := v1 }
    let t2 := NextToken str (Char.ofNat 46) t1.2
    match StrToInt t2.1 with
    | none => some { retval with errata := t2.1 }
    | some v2 =>
      let retval := { retval with minor := v2 }
      let t3 := NextToken str (Char.ofNat 46) t2.2
      match StrToInt t3.1 with
      | none => some { retval with errata := t3.1 }
      | some v3 =>
        let retval := { retval with patch := v3 }
        match t3.2 with
        | none => none
        | some next_pos => some { retval with errata := stringSubstr str.toList next_pos none }

namespace VFS

/-- Type `VFS::path_type` (`boost::filesystem::path`), by the sequence of its
elements. -/
abbrev path_type := List String

/-- Constant `VFS::EMPTY_PATH`: the default-constructed path. -/
def EMPTY_PATH : path_type := []

namespace Content

/-! ## util/VFS/ContentDir.hpp -/

/-- Class `VFS::Content::Dir`, one content directory descriptor. -/
structure Dir where
  m_path : path_type
  m_label_key : String
  m_desc_key : String
  m_version : SemVer
  m_required_dirs : List (String × String)
  m_explicit_paths : List path_type
  m_enabled : Bool
  m_depth : Nat
deriving DecidableEq, Repr

namespace Dir

/-- Six-argument constructor of `Dir`: the version string goes through
`SemVerFromString`, `m_enabled` starts `false` and `m_depth` starts `0`.
The result is `none` where `SemVerFromString` throws. -/
def ctor (path : path_type) (label description version : String)
    (required_dirs : List (String × String)) (explicit_paths : List path_type) : Option Dir :=
  match SemVerFromString version with
  | none => none
  | some v => some
    { m_path := path, m_label_key := label, m_desc_key := description, m_version := v,
      m_required_dirs := required_dirs, m_explicit_paths := explicit_paths,
      m_enabled := false, m_depth := 0 }

/-- Accessor `Dir::Path`. -/
def Path (d : Dir) : path_type := d.m_path

/-- Accessor `Dir::LabelKey`. -/
def LabelKey (d : Dir) : String := d.m_label_key

/-- Accessor `Dir::Version`. -/
def Version (d : Dir) : SemVer := d.m_version

/-- Accessor `Dir::Requires`: the label to minimum-version map, in its
iteration order. -/
def Requires (d : Dir) : List (String × String) := d.m_required_dirs

/-- Member `Dir::IsExplicit`: membership in `m_explicit_paths`. -/
def IsExplicit (d : Dir) (path : path_type) : Bool := d.m_explicit_paths.contains path

/-- Accessor `Dir::Enabled`. -/
def Enabled (d : Dir) : Bool := d.m_enabled

/-- Accessor `Dir::ReqDepth`. -/
def ReqDepth (d : Dir) : Nat := d.m_depth

/-- Member `Dir::SetEnabled(enabled)`: returns whether the flag changed,
together with the descriptor afterwards. -/
def SetEnabled (d : Dir) (enabled : Bool) : Bool × Dir :=
  if d.m_enabled == enabled then (false, d)
  else (true, { d with m_enabled := enabled })

/-- Member `Dir::SetDepth`. -/
def SetDepth (d : Dir) (depth : Nat) : Dir := { d with m_depth := depth }

end Dir

/-! ## util/VFS/Content.cpp: DirPathCache -/

/-- Class `DirPathCache`: the `std::map` `m_paths` as an association list
(at most one entry per key). -/
abbrev DirPathCache := List (path_type × path_type)

namespace DirPathCache

/-- Lookup `m_paths.find(relative_path)`. -/
def find (c : DirPathCache) (relative_path : path_type) : Option path_type :=
  match c with
  | [] => none
  | (k, v) :: rest => if k = relative_path then some v else find rest relative_path

/-- Member `DirPathCache::GetPath`. -/
def GetPath (c : DirPathCache) (relative_path : path_type) : path_type :=
  match find c relative_path with
  | some v => v
  | none => EMPTY_PATH

/-- Replace the value stored under an existing key (`it->second = value`). -/
def assign (c : DirPathCache) (relative_path absolute_path : path_type) : DirPathCache :=
  match c with
  | [] => []
  | (k, v) :: rest =>
    if k = relative_path then (k, absolute_path) :: rest
    else (k, v) :: assign rest relative_path absolute_path

/-- Member `DirPathCache::InsertPath`: insert unless the key is present;
returns whether the entry was inserted. -/
def InsertPath (c : DirPathCache) (relative_path absolute_path : path_type) :
    Bool × DirPathCache :=
  match find c relative_path with
  | some _ => (false, c)
  | none => (true, c ++ [(relative_path, absolute_path)])

/-- Member `DirPathCache::InsertOrAssignPath`. -/
def InsertOrAssignPath (c : DirPathCache) (relative_path absolute_path : path_type) :
    DirPathCache :=
  match find c relative_path with
  | some _ => assign c relative_path absolute_path
  | none => c ++ [(relative_path, absolute_path)]

/-- Member `DirPathCache::Clear`. -/
def Clear (_c : DirPathCache) : DirPathCache := []

end DirPathCache

/-! ## util/VFS/Content.cpp: DirSet -/

/-- The two file-system functions of util/VFS/Node.cpp that `RefreshCache`
calls, for a fixed file system: `PathsInDir(dir)` (recursive enumeration of
the absolute paths beneath `dir`) and `PathPortionFrom(path, base_dir)`. -/
structure FileSystem where
  PathsInDir : path_type → List path_type
  PathPortionFrom : path_type → path_type → path_type

/-- Class `DirSet`: `m_dirs` in the iteration order of its depth index, the
dirty flag `m_requires_refresh` and the cache `m_cache`. -/
structure DirSet where
  m_dirs : List Dir
  m_requires_refresh : Bool
  m_cache : DirPathCache
deriving DecidableEq, Repr

/-- Lookup `dirs_by_label.find(label)`: the descriptor under a label. -/
def findByLabel (dirs : List Dir) (label : String) : Option Dir :=
  match dirs with
  | [] => none
  | d :: ds => if d.m_label_key = label then some d else findByLabel ds label

/-- In-place mutation of the descriptor that `dirs_by_label.find(label)`
points to; the position in the depth index is kept. -/
def updateByLabel (f : Dir → Dir) (label : String) : List Dir → List Dir
  | [] => []
  | d :: ds => if d.m_label_key = label then f d :: ds else d :: updateByLabel f label ds

/-- In-place mutation of the descriptor at position `i` of the depth index. -/
def updateAt (f : Dir → Dir) : Nat → List Dir → List Dir
  | _, [] => []
  | 0, d :: ds => f d :: ds
  | i + 1, d :: ds => d :: updateAt f i ds

/-- Insertion point of `ordered_non_unique`: behind every element whose key
is not greater than the new key (the upper bound), found by comparing the new
key with the keys the elements have at the time of the insertion. This is the
position the index picks while its keys are in order, as they are when every
`AddDir` precedes the first `EnableDir`; once `SetDepth` has changed keys in
place the descent of the tree may end elsewhere, which is why `Reachable`
below leaves the position of an added descriptor open. -/
def insertByDepth (d : Dir) : List Dir → List Dir
  | [] => [d]
  | x :: xs => if d.m_depth < x.m_depth then d :: x :: xs else x :: insertByDepth d xs

namespace DirSet

/-- Constructor `DirSet::DirSet`: no directories, clean flag, empty cache. -/
def empty : DirSet := { m_dirs := [], m_requires_refresh := false, m_cache := [] }

/-- Member `DirSet::AllDirs`. -/
def AllDirs (s : DirSet) : List String := s.m_dirs.map Dir.LabelKey

/-- Member `DirSet::AddDir`: `m_dirs.insert(dir)`. The unique label index
refuses a descriptor whose label is taken; otherwise the descriptor enters
the depth index at the upper bound of its depth. -/
def AddDir (s : DirSet) (dir : Dir) : DirSet :=
  match findByLabel s.m_dirs dir.m_label_key with
  | some _ => s
  | none => { s with m_dirs := insertByDepth dir s.m_dirs }

/-- Loop over `Requires()` in `DirSet::ValidateDir`, carrying `depth`;
returns the result of `ValidateDir` and the directories afterwards. -/
def ValidateDir.loop (dirs : List Dir) (dir_label : String) :
    List (String × String) → Nat → Bool × List Dir
  | [], depth => (true, updateByLabel (fun d => d.SetDepth depth) dir_label dirs)
  | req :: reqs, depth =>
    match findByLabel dirs req.1 with
    | none => (false, dirs)
    | some r =>
      if !r.Enabled then
        (false, updateByLabel (fun d => (d.SetEnabled false).2) dir_label dirs)
      else ValidateDir.loop dirs dir_label reqs (max depth (r.ReqDepth + 1))

/-- Member `DirSet::ValidateDir`. -/
def ValidateDir (dirs : List Dir) (dir_label : String) : Bool × List Dir :=
  match findByLabel dirs dir_label with
  | none => (false, dirs)
  | some d => ValidateDir.loop dirs dir_label d.Requires 0

/-- Inner loop of `DirSet::ValidateDirs` for the descriptor at position `i`:
the first requirement that is missing or disabled disables the descriptor. -/
def ValidateDirs.reqLoop (dirs : List Dir) (i : Nat) : List (String × String) → List Dir
  | [] => dirs
  | req :: reqs =>
    match findByLabel dirs req.1 with
    | some r =>
      if r.Enabled then ValidateDirs.reqLoop dirs i reqs
      else updateAt (fun d => (d.SetEnabled false).2) i dirs
    | none => updateAt (fun d => (d.SetEnabled false).2) i dirs

/-- Body of the outer loop of `DirSet::ValidateDirs` at position `i`. -/
def ValidateDirs.step (dirs : List Dir) (i : Nat) : List Dir :=
  match dirs.get? i with
  | none => dirs
  | some d => if !d.Enabled then dirs else ValidateDirs.reqLoop dirs i d.Requires

/-- Outer loop of `DirSet::ValidateDirs`, from `rbegin()` to `rend()`:
`walk n` visits the positions `n - 1, ..., 0` in that order. -/
def ValidateDirs.walk : Nat → List Dir → List Dir
  | 0, dirs => dirs
  | n + 1, dirs => ValidateDirs.walk n (ValidateDirs.step dirs n)

/-- Member `DirSet::ValidateDirs`. -/
def ValidateDirs (dirs : List Dir) : List Dir :=
  ValidateDirs.walk dirs.length dirs

/-- Member `DirSet::GetDirs(enabled)`: validation, then the labels of the
descriptors whose flag equals `enabled`, in depth-index order. -/
def GetDirs (s : DirSet) (enabled : Bool) : List String × DirSet :=
  let dirs := ValidateDirs s.m_dirs
  (((dirs.filter (fun d => d.Enabled == enabled)).map Dir.LabelKey), { s with m_dirs := dirs })

/-- Member `DirSet::EnableDir`. -/
def EnableDir (s : DirSet) (dir_label : String) : DirSet :=
  match findByLabel s.m_dirs dir_label with
  | none => s
  | some it =>
    let r := ValidateDir s.m_dirs it.LabelKey
    if !r.1 then { s with m_dirs := r.2 }
    else
      match findByLabel r.2 dir_label with
      | none => { s with m_dirs := r.2 }
      | some d =>
        if (d.SetEnabled true).1 then
          { s with m_dirs := updateByLabel (fun x => (x.SetEnabled true).2) dir_label r.2,
                   m_requires_refresh := true }
        else { s with m_dirs := r.2 }

/-- Member `DirSet::DisableDir`. -/
def DisableDir (s : DirSet) (dir_label : String) : DirSet :=
  match findByLabel s.m_dirs dir_label with
  | none => s
  | some d =>
    if (d.SetEnabled false).1 then
      { s with m_dirs := updateByLabel (fun x => (x.SetEnabled false).2) dir_label s.m_dirs,
               m_requires_refresh := true }
    else s

/-- Inner loop of `DirSet::RefreshCache` over the paths of one directory. -/
def RefreshCache.pathLoop (fs : FileSystem) (d : Dir) :
    List path_type → DirPathCache → DirPathCache
  | [], c => c
  | path :: rest, c =>
    let relative_path := fs.PathPortionFrom path d.Path
    if d.IsExplicit relative_path then
      RefreshCache.pathLoop fs d rest (DirPathCache.InsertOrAssignPath c relative_path path)
    else
      RefreshCache.pathLoop fs d rest (DirPathCache.InsertPath c relative_path path).2

/-- Outer loop of `DirSet::RefreshCache`, from `rbegin()` to `rend()` of the
depth index: `walk n` visits the positions `n - 1, ..., 0` in that order. -/
def RefreshCache.walk (fs : FileSystem) (dirs : List Dir) : Nat → DirPathCache → DirPathCache
  | 0, c => c
  | n + 1, c =>
    match dirs.get? n with
    | none => RefreshCache.walk fs dirs n c
    | some d =>
      if !d.Enabled then RefreshCache.walk fs dirs n c
      else RefreshCache.walk fs dirs n (RefreshCache.pathLoop fs d (fs.PathsInDir d.Path) c)

/-- Member `DirSet::RefreshCache`. -/
def RefreshCache (fs : FileSystem) (s : DirSet) : DirSet :=
  if !s.m_requires_refresh then s
  else
    let dirs := ValidateDirs s.m_dirs
    { m_dirs := dirs, m_requires_refresh := false,
      m_cache := RefreshCache.walk fs dirs dirs.length (DirPathCache.Clear s.m_cache) }

/-- Member `DirSet::GetPath`: the returned path and the registry afterwards. -/
def GetPath (fs : FileSystem) (s : DirSet) (relative_path : path_type) : path_type × DirSet :=
  if s.m_dirs.isEmpty then (EMPTY_PATH, s)
  else
    let s1 := RefreshCache fs s
    (DirPathCache.GetPath s1.m_cache relative_path, s1)

end DirSet

/-! ## Specification vocabulary -/

/-- The directory registered under `label` exists and is enabled. -/
def reqEnabled (dirs : List Dir) (label : String) : Bool :=
  match findByLabel dirs label with
  | some p => p.Enabled
  | none => false

/-- Every label of `d.Requires` is registered and its directory is enabled. -/
def RequirementsMet (dirs : List Dir) (d : Dir) : Prop :=
  ∀ r ∈ d.Requires, reqEnabled dirs r.1 = true

instance (dirs : List Dir) (d : Dir) : Decidable (RequirementsMet dirs d) := by
  unfold RequirementsMet; infer_instance

/-- The value `ValidateDir` computes for `depth` when every requirement is
registered: the running maximum of `ReqDepth() + 1` over the requirements. -/
def reqDepth (dirs : List Dir) : List (String × String) → Nat → Nat
  | [], depth => depth
  | req :: reqs, depth =>
    match findByLabel dirs req.1 with
    | none => reqDepth dirs reqs depth
    | some r => reqDepth dirs reqs (max depth (r.ReqDepth + 1))

/-! ## Fixtures: three directories and a small file system -/

/-- The descriptor the six-argument constructor builds from an empty
description (disabled, depth 0); version strings on which the constructor
throws are not used below. -/
def fixtureDir (path : path_type) (label version : String)
    (required_dirs : List (String × String)) (explicit_paths : List path_type) : Dir :=
  match Dir.ctor path label "" version required_dirs explicit_paths with
  | some d => d
  | none =>
    { m_path := path, m_label_key := label, m_desc_key := "", m_version := ⟨0, 0, 1, ""⟩,
      m_required_dirs := required_dirs, m_explicit_paths := explicit_paths,
      m_enabled := false, m_depth := 0 }

/-- Directory `base` at `/content/base`: no prerequisites, no explicit paths. -/
def fixtureBase : Dir := fixtureDir ["/", "content", "base"] "base" "1.0.0" [] []

/-- Directory `mod` at `/content/mod`: requires `base` (any version), no
explicit paths. -/
def fixtureMod : Dir := fixtureDir ["/", "content", "mod"] "mod" "1.0.0" [("base", "")] []

/-- Directory `top` at `/content/top`: requires `mod` (any version), no
explicit paths. -/
def fixtureTop : Dir := fixtureDir ["/", "content", "top"] "top" "1.0.0" [("mod", "")] []

/-- Directory `mod` recording the minimum version "2.0.0" for `base`. -/
def fixtureModVersioned : Dir := fixtureDir ["/", "content", "mod"] "mod" "1.0.0" [("base", "2.0.0")] []

/-- Registry after `add(base)`, `add(mod)`, `add(top)`, `enable(base)`,
`enable(mod)`, `enable(top)`. -/
def fixtureChain : DirSet :=
  (((((DirSet.empty.AddDir fixtureBase).AddDir fixtureMod).AddDir fixtureTop).EnableDir
    "base").EnableDir "mod").EnableDir "top"

/-- Registry after `add(base)`, `add(mod)`, `add(top)`, `enable(base)`. -/
def fixtureBaseOnly : DirSet :=
  (((DirSet.empty.AddDir fixtureBase).AddDir fixtureMod).AddDir fixtureTop).EnableDir "base"

/-- One descriptor is another with, at most, its enabled flag cleared. -/
def DirWeaker (x' x : Dir) : Prop := x' = x ∨ x' = { x with m_enabled := false }

/-- A registry is another with some enabled flags cleared, position by
position; what `DisableDir` and `ValidateDirs` do to `m_dirs`. -/
def Weaker (dirs' dirs : List Dir) : Prop := List.Forall₂ DirWeaker dirs' dirs

/-- Registry after `add(base)` (version "1.0.0"), `add(mod)` where `mod`
records the minimum version "2.0.0" for `base`, and `enable(base)`. -/
def fixtureVersioned : DirSet :=
  ((DirSet.empty.AddDir fixtureBase).AddDir fixtureModVersioned).EnableDir "base"

/-- Registry after `add(mod)`, `add(base)`, `enable(base)`, `enable(mod)`:
the definition of `mod` was registered before the one of `base`. -/
def fixtureModFirst : DirSet :=
  (((DirSet.empty.AddDir fixtureMod).AddDir fixtureBase).EnableDir "base").EnableDir "mod"

/-- The directory `d` holds the relative path `k` through the enumerated
absolute path `abs`. -/
def HoldsAs (fs : FileSystem) (d : Dir) (k abs : path_type) : Prop :=
  abs ∈ fs.PathsInDir d.Path ∧ fs.PathPortionFrom abs d.Path = k

/-- The directory `d` holds the relative path `k`: some path enumerated under
`d.Path` has `k` as its portion from `d.Path`. -/
def Holds (fs : FileSystem) (d : Dir) (k : path_type) : Prop :=
  ∃ abs, HoldsAs fs d k abs

/-- Registries reachable from the empty one by `add`, `enable`, `disable`,
`get_labels` and `get_path`, for a fixed file system. A descriptor enters as
its constructor leaves it (disabled, depth 0) under a label that is not yet
registered; its position in the depth index is left open, which covers the
upper bound `AddDir` computes and any other position the ordered index may
pick once keys were changed in place. -/
inductive Reachable (fs : FileSystem) : DirSet → Prop
  | empty : Reachable fs DirSet.empty
  | add (s : DirSet) (dir : Dir) (pre post : List Dir) :
      Reachable fs s → dir.m_enabled = false → dir.m_depth = 0 →
      findByLabel s.m_dirs dir.m_label_key = none → s.m_dirs = pre ++ post →
      Reachable fs { s with m_dirs := pre ++ dir :: post }
  | enable (s : DirSet) (label : String) : Reachable fs s → Reachable fs (s.EnableDir label)
  | disable (s : DirSet) (label : String) : Reachable fs s → Reachable fs (s.DisableDir label)
  | getDirs (s : DirSet) (enabled : Bool) : Reachable fs s → Reachable fs (s.GetDirs enabled).2
  | getPath (s : DirSet) (k : path_type) : Reachable fs s → Reachable fs (DirSet.GetPath fs s k).2

/-- A descriptor whose depth has its final value: it has no requirements, or
it is enabled, or its depth was set to a non-zero value. -/
def Stable (d : Dir) : Prop := d.Requires = [] ∨ d.Enabled = true ∨ d.m_depth ≠ 0

/-- The depth of `x` is the one `ValidateDir` computes from the current depths
of its requirements, all of which are registered with a final depth. -/
def GoodIn (dirs : List Dir) (x : Dir) : Prop :=
  x.m_depth = reqDepth dirs x.Requires 0 ∧
  ∀ r ∈ x.Requires, ∃ p, findByLabel dirs r.1 = some p ∧ Stable p

/-- Invariant of the reachable registries: labels are unique and every
descriptor with a final depth is consistent with its requirements. -/
structure Inv (dirs : List Dir) : Prop where
  nodup : (dirs.map Dir.LabelKey).Nodup
  good : ∀ x ∈ dirs, Stable x → GoodIn dirs x

/-- Origin of a cache entry `k -> v` in the registry `dirs`: an enabled
directory holds `k` through `v` and either lists `k` as explicit or no
enabled directory behind it in the depth index (visited before it by
`RefreshCache`) holds `k`. -/
def EntryOrigin (fs : FileSystem) (dirs : List Dir) (k v : path_type) : Prop :=
  ∃ i d, dirs.get? i = some d ∧ d.Enabled = true ∧ HoldsAs fs d k v ∧
    (d.IsExplicit k = true ∨
      ∀ j e, i < j → dirs.get? j = some e → e.Enabled = true → ¬ Holds fs e k)

/-- Registry after `add(base)`, `add(mod)`, `enable(base)`, `enable(mod)`:
the registration order agrees with the depths. -/
def fixtureBaseFirst : DirSet :=
  (((DirSet.empty.AddDir fixtureBase).AddDir fixtureMod).EnableDir "base").EnableDir "mod"

/-! ## Sequences of registry operations -/

/-- One call on the registry: `AddDir`, `EnableDir` or `DisableDir`. -/
inductive RegistryOp where
  | add (dir : Dir)
  | enable (label : String)
  | disable (label : String)

/-- The registry after one call. -/
def DirSet.apply (s : DirSet) : RegistryOp → DirSet
  | RegistryOp.add dir => s.AddDir dir
  | RegistryOp.enable label => s.EnableDir label
  | RegistryOp.disable label => s.DisableDir label

/-- The registry after a sequence of calls, first call first. -/
def DirSet.run (s : DirSet) (ops : List RegistryOp) : DirSet :=
  ops.foldl DirSet.apply s

/-! ## parse/ContentDirParser.cpp and `Manager::Impl` (util/VFS/Content.cpp) -/

/-- Member `Dir::SetPath`. -/
def Dir.SetPath (d : Dir) (path : path_type) : Dir := { d with m_path := path }

/-- One `ContentDefinition` block of a definition file, as the grammar hands
it to `insert_definition`: label, description, version, prerequisites and
explicit paths. -/
structure Definition where
  label : String
  description : String
  version : String
  required_dirs : List (String × String)
  explicit_paths : List path_type
deriving DecidableEq, Repr

/-- What `AddSearchDir` and the parser ask of their environment: the recursive
enumeration `IterateDirectory` behind `PathsInDir`, the helpers
`IsRegularFile` and `path::filename()`, and `detail::parse_file`
(parse/ParseImpl.h) by the blocks it recognises in a file, in order. -/
structure SearchEnv where
  IterateDirectory : path_type → List path_type
  IsRegularFile : path_type → Bool
  filename : path_type → path_type
  parse_file : path_type → List Definition

/-- Constant `Dir::DEFINITION_FILENAME`. -/
def Dir.DEFINITION_FILENAME : path_type := ["Content.inf"]

/-- Function `insert_definition`: the descriptor the pointer is reset to,
built with the empty path `VFS::path_type()`; `none` where the constructor
throws. -/
def insert_definition (d : Definition) : Option Dir :=
  Dir.ctor EMPTY_PATH d.label d.description d.version d.required_dirs d.explicit_paths

/-- Rule `start = *dir_definition(_r1)`: every block resets the pointer. The
outer `none` is a thrown exception, the inner `none` the null pointer. -/
def content_dir.blocks : List Definition → Option Dir → Option (Option Dir)
  | [], dir => some dir
  | d :: rest, _ =>
    match insert_definition d with
    | none => none
    | some x => content_dir.blocks rest (some x)

/-- Function `parse::content_dir`: the parsed descriptor after
`dir->SetPath(definition_path)`; `none` where the call throws or dereferences
the null pointer of a file without a block. -/
def content_dir (env : SearchEnv) (definition_path : path_type) : Option Dir :=
  match content_dir.blocks (env.parse_file definition_path) none with
  | none => none
  | some none => none
  | some (some dir) => some (dir.SetPath definition_path)

/-- Function `PathsInDir(abs_dir_path, pred, recursive_search)` of
util/VFS/Node.cpp. -/
def PathsInDirPred (env : SearchEnv) (abs_dir_path : path_type) (pred : path_type → Bool) :
    List path_type :=
  (env.IterateDirectory abs_dir_path).filter pred

/-- Class `Manager::Impl` of util/VFS/Content.cpp: the pointer `m_dir_set`
(`none` is the null `unique_ptr`) and the set `m_search_paths`. -/
structure Manager.Impl where
  m_dir_set : Option DirSet
  m_search_paths : List path_type
deriving DecidableEq, Repr

namespace Manager.Impl

/-- The members as their default initialisers leave them, before the body of
the constructor runs: no member initialiser sets `m_dir_set`. -/
def initial : Manager.Impl := { m_dir_set := none, m_search_paths := [] }

/-- Loop of `AddSearchDir` over the definition files: `m_dir_set->AddDir(
parse::content_dir(def_file))`; `none` where `content_dir` fails or
`m_dir_set` is null. -/
def AddSearchDir.loop (env : SearchEnv) : List path_type → Option DirSet → Option (Option DirSet)
  | [], dir_set => some dir_set
  | def_file :: rest, dir_set =>
    match content_dir env def_file with
    | none => none
    | some dir =>
      match dir_set with
      | none => none
      | some s => AddSearchDir.loop env rest (some (s.AddDir dir))

/-- Member `Manager::Impl::AddSearchDir`; `none` where the loop fails. -/
def AddSearchDir (env : SearchEnv) (m : Manager.Impl) (path : path_type) : Option Manager.Impl :=
  if m.m_search_paths.contains path then some m
  else
    match AddSearchDir.loop env
      (PathsInDirPred env path
        (fun file => env.IsRegularFile file && env.filename file == Dir.DEFINITION_FILENAME))
      m.m_dir_set with
    | none => none
    | some dir_set => some { m_dir_set := dir_set, m_search_paths := m.m_search_paths ++ [path] }

/-- Constructor `Manager::Impl::Impl(search_dir)`. -/
def ctor (env : SearchEnv) (search_dir : path_type) : Option Manager.Impl :=
  AddSearchDir env initial search_dir

end Manager.Impl

/-! ## Cycles of the prerequisite relation -/

/-- The directory `a` requires the directory `b`: some label of `a.Requires`
is the label under which `b` is registered. -/
def RequiresDir (dirs : List Dir) (a b : Dir) : Prop :=
  ∃ r ∈ a.Requires, findByLabel dirs r.1 = some b

/-- The directory `d` lies on a cycle of the prerequisite relation: a chain
of one or more requirements leads from `d` back to `d`. -/
def OnCycle (dirs : List Dir) (d : Dir) : Prop :=
  Relation.TransGen (RequiresDir dirs) d d

/-- A directory that requires itself. -/
def fixtureSelf : Dir := fixtureDir ["/", "content", "self"] "self" "1.0.0" [("self", "")] []

/-- Registry after `add(self)`, `enable(self)`. -/
def fixtureSelfEnabled : DirSet := (DirSet.empty.AddDir fixtureSelf).EnableDir "self"

end Content

namespace Node

/-! ## Path nodes (util/VFS/Node.cpp) -/

/-!
Conventions of this part.
* A `boost::filesystem::path` is the sequence of the elements its iterators
  yield (`a`, `b`, `c.h` for `a/b/c.h`, with `/` as the element of the root
  directory); Boost compares paths element by element, so equality of paths is
  equality of these sequences, and the empty path is the empty sequence.
* `lhs / rhs` and `lhs /= rhs` append the sequences (the operands met here are
  a path and a relative rest, or an empty path and any path).
* `filename()` is the last element, `parent_path()` is the path without it and
  `has_parent_path()` says that this parent is not empty.
* `PathToString(p) == "tok"` holds exactly for the one-element path `tok`.
* `shared_ptr<PathNode>` objects live in a store; a pointer is an index into
  it and `nullptr` is `none`.
-/

/-- Type `boost::filesystem::path`, by the sequence of its elements: the type
`VFS::path_type`. -/
abbrev boost_path := path_type

/-- Enumeration `ElementType`. -/
inductive ElementType where
  | RELATIVE
  | INVALID
  | DOT
  | DOT_DOT
  | SEPERATOR
  | SINGLE
  | MULTIPLE
deriving DecidableEq, Repr

/-- Member `path::has_parent_path()`. -/
def has_parent_path (p : boost_path) : Bool := !p.dropLast.isEmpty

/-- Member `path::parent_path()`. -/
def parent_path (p : boost_path) : boost_path := p.dropLast

/-- Member `path::filename()`: the last element, or the empty path. -/
def filename (p : boost_path) : boost_path :=
  match p.getLast? with
  | some e => [e]
  | none => []

/-- Operator `operator==(path_type, ElementType)`: the comparison of
`PathToString(lhs)` with the token of the type, and the two tests on the
parent path for `SINGLE` and `MULTIPLE`. -/
def pathIs (lhs : boost_path) : ElementType → Bool
  | ElementType.RELATIVE => lhs == ["*?"]
  | ElementType.INVALID => lhs == ["....."]
  | ElementType.DOT => lhs == ["."]
  | ElementType.DOT_DOT => lhs == [".."]
  | ElementType.SEPERATOR => lhs == ["/"]
  | ElementType.SINGLE => !has_parent_path lhs || parent_path lhs == lhs
  | ElementType.MULTIPLE => parent_path lhs != lhs

/-- Function `PathFrom(ElementType)`. -/
def PathFrom : ElementType → boost_path
  | ElementType.RELATIVE => ["*?"]
  | ElementType.INVALID => ["....."]
  | ElementType.DOT => ["."]
  | ElementType.DOT_DOT => [".."]
  | ElementType.SEPERATOR => ["/"]
  | ElementType.SINGLE => []
  | ElementType.MULTIPLE => []

/-- Loop of `NormalizePathFrom` over the elements from `rbegin()` to
`rend()`: `nodes` are the elements still to visit (last element of the path
first), `prev_dot_dot` the counter and `result` the path built so far. -/
def NormalizePathFrom.loop : List String → Nat → boost_path → boost_path
  | [], _, result => result
  | node :: rest, prev_dot_dot, result =>
    if pathIs (filename [node]) ElementType.DOT_DOT then
      NormalizePathFrom.loop rest (prev_dot_dot + 1) result
    else if pathIs (filename [node]) ElementType.RELATIVE then
      NormalizePathFrom.loop rest prev_dot_dot result
    else if prev_dot_dot > 0 then
      NormalizePathFrom.loop rest (prev_dot_dot - 1) result
    else if !pathIs (filename [node]) ElementType.DOT && filename [node] != [""] then
      NormalizePathFrom.loop rest prev_dot_dot (filename [node] ++ result)
    else
      NormalizePathFrom.loop rest prev_dot_dot result

/-- Function `NormalizePathFrom`. The static table `normalized_cache` only
stores results already computed for the same argument and is left out. An
element that is itself empty (a trailing separator in some Boost versions)
compares equal to `EMPTY_PATH`. -/
def NormalizePathFrom (path : boost_path) : boost_path :=
  if path = [] then path
  else NormalizePathFrom.loop path.reverse 0 []

/-- Function `NormalizedPath`. -/
def NormalizedPath (path : boost_path) : boost_path := NormalizePathFrom path

/-- An ordinary segment: not `.`, `..`, the relative marker `*?` or empty. -/
def Ordinary (s : String) : Prop := s ≠ "." ∧ s ≠ ".." ∧ s ≠ "*?" ∧ s ≠ ""

instance (s : String) : Decidable (Ordinary s) := by unfold Ordinary; infer_instance

/-! ### One node and the chain of its parents -/

/-- Class `PathNode` together with the nodes `m_parent_node` leads to: a
parentless node, or a node with its parent. The methods below only follow
`m_parent_node`, so they are functions of this chain. -/
inductive PathNode where
  | root (m_path_element : boost_path) (m_allow_writes : Bool)
  | child (m_path_element : boost_path) (m_parent_node : PathNode) (m_allow_writes : Bool)
deriving DecidableEq, Repr

namespace PathNode

/-- Field `m_path_element`. -/
def m_path_element : PathNode → boost_path
  | root e _ => e
  | child e _ _ => e

/-- Field `m_allow_writes`. -/
def m_allow_writes : PathNode → Bool
  | root _ a => a
  | child _ _ a => a

/-- Accessor `PathNode::Parent`. -/
def Parent : PathNode → Option PathNode
  | root _ _ => none
  | child _ p _ => some p

/-- Accessor `PathNode::IsRoot`. -/
def IsRoot (n : PathNode) : Bool := n.Parent.isNone

/-- Member `PathNode::Path`: the path of the parent (or the empty path),
followed by `m_path_element` unless that is empty or the relative marker. -/
def Path : PathNode → boost_path
  | root e _ =>
    if e != [] && !pathIs e ElementType.RELATIVE then [] ++ e else []
  | child e p _ =>
    if e != [] && !pathIs e ElementType.RELATIVE then p.Path ++ e else p.Path

/-- Member `PathNode::IsRelative`. -/
def IsRelative : PathNode → Bool
  | root e a => pathIs (root e a).Path ElementType.RELATIVE
  | child _ p _ => p.IsRelative

/-- Member `PathNode::PathPortionFrom`. -/
def PathPortionFrom : PathNode → boost_path → boost_path
  | root e a, path =>
    if (root e a).Path = path then []
    else if pathIs e ElementType.RELATIVE then PathFrom ElementType.DOT_DOT
    else PathFrom ElementType.INVALID
  | child e p a, path =>
    if (child e p a).Path = path then []
    else if pathIs e ElementType.RELATIVE then PathFrom ElementType.DOT_DOT
    else
      let retval := p.PathPortionFrom path
      if pathIs retval ElementType.INVALID then retval
      else retval ++ e

/-- Member `PathNode::Writeable`: the returned value and the node afterwards
(the flag of the node and of the parents the call went through). -/
def Writeable : PathNode → Bool × PathNode
  | root e a => (a, root e a)
  | child e p a =>
    if !a then
      let r := p.Writeable
      if r.1 then (true, child e r.2 true) else (false, child e r.2 false)
    else (a, child e p a)

/-- Member `PathNode::SetWriteable`: the node afterwards. The parent is asked
only when `allow_writes` is false. -/
def SetWriteable : PathNode → Bool → PathNode
  | root e _, allow_writes => root e allow_writes
  | child e p _, allow_writes =>
    if allow_writes then child e p true
    else
      let r := p.Writeable
      child e r.2 r.1

/-- The ancestors of a node, nearest first. -/
def ancestors : PathNode → List PathNode
  | root _ _ => []
  | child _ p _ => p :: p.ancestors

/-- The node followed by its ancestors. -/
def chain (n : PathNode) : List PathNode := n :: n.ancestors

end PathNode

/-! ### The store of node objects and `Manager::Impl` -/

/-- The values of `boost::filesystem::file_type` the code distinguishes;
`status_error` is the type of the default `file_status` (`DEFAULT_STATUS`). -/
inductive file_type where
  | status_error
  | file_not_found
  | regular_file
  | directory_file
  | type_unknown
deriving DecidableEq, Repr

/-- Function `boost::filesystem::exists(file_status)`. -/
def status_exists (t : file_type) : Bool :=
  t != file_type.status_error && t != file_type.file_not_found

/-- Function `boost::filesystem::is_regular_file(file_status)`. -/
def status_is_regular_file (t : file_type) : Bool := t == file_type.regular_file

/-- Function `boost::filesystem::is_directory(file_status)`. -/
def status_is_directory (t : file_type) : Bool := t == file_type.directory_file

/-- The dynamic class of a node object: `DirNode`, `FileNode`, or `RootNode`
with its label. -/
inductive NodeClass where
  | DirNode
  | FileNode
  | RootNode (m_label : String)
deriving DecidableEq, Repr

/-- One `PathNode` object of the store; `m_parent_node` is a pointer into the
store. -/
structure NodeObject where
  m_path_element : boost_path
  m_parent_node : Option Nat
  m_allow_writes : Bool
  m_status_cache : file_type
  cls : NodeClass
deriving DecidableEq, Repr

/-- What the code asks of its environment: `PathToString` (declared outside
the files at hand) and `boost::filesystem::status` on the file system as it
is, `none` standing for a thrown `filesystem_error`. -/
structure Env where
  PathToString : boost_path → String
  status : boost_path → Option file_type

/-- The node at a pointer with the chain of its parents, read off the store
by following `m_parent_node` at most `fuel` times; `none` when the pointer
dangles or the fuel is used up. -/
def nodeAt (store : List NodeObject) : Nat → Nat → Option PathNode
  | 0, _ => none
  | fuel + 1, ptr =>
    match store.get? ptr with
    | none => none
    | some obj =>
      match obj.m_parent_node with
      | none => some (PathNode.root obj.m_path_element obj.m_allow_writes)
      | some parent =>
        match nodeAt store fuel parent with
        | none => none
        | some p => some (PathNode.child obj.m_path_element p obj.m_allow_writes)

/-- Member `PathNode::Writeable` on the store: the returned value and the
store afterwards (the call sets `m_allow_writes` of the objects it caches a
true result in). -/
def storeWriteable (store : List NodeObject) : Nat → Nat → Bool × List NodeObject
  | 0, _ => (false, store)
  | fuel + 1, ptr =>
    match store.get? ptr with
    | none => (false, store)
    | some obj =>
      if !obj.m_allow_writes then
        match obj.m_parent_node with
        | none => (false, store)
        | some parent =>
          let r := storeWriteable store fuel parent
          if r.1 then (true, r.2.set ptr { obj with m_allow_writes := true })
          else (false, r.2)
      else (true, store)

/-- Class `Manager::Impl`: the node objects (`store`, a pointer is an index),
the map `m_root_nodes` from label to `RootNode` and the container
`m_path_nodes` (the pointers it holds, in insertion order). -/
structure Manager.Impl where
  store : List NodeObject
  m_root_nodes : List (String × Nat)
  m_path_nodes : List Nat
deriving DecidableEq, Repr

namespace Manager.Impl

/-- Constructor `Manager::Impl::Impl`. -/
def empty : Manager.Impl := { store := [], m_root_nodes := [], m_path_nodes := [] }

/-- The node a pointer refers to, with its chain. -/
def node (m : Manager.Impl) (ptr : Nat) : Option PathNode :=
  nodeAt m.store m.store.length ptr

/-- Member `PathNode::Path` of the object at a pointer. -/
def PathOf (m : Manager.Impl) (ptr : Nat) : boost_path :=
  match m.node ptr with
  | some n => n.Path
  | none => []

/-- Lookup `m_path_nodes.get<tag::path>().find(key)` in the ordered unique
index keyed by `Path()`: the held node whose `Path()` is the key. The calls
embedded here (`InitRootDir`, `EmplacePath`, `GetPathNode`, `Writeable`,
`Status`) never change the `Path()` of a node once it is in the container, so
the index is sorted by the keys the nodes have and the search meets the node
with the key. `SetRootPath`, which changes the key of a root in place, is not
embedded: after it the outcome of a search is no function of the keys. -/
def findKey (m : Manager.Impl) (key : boost_path) : Option Nat :=
  m.m_path_nodes.find? (fun ptr => m.PathOf ptr == key)

/-- Lookup `m_root_nodes.find(label)`. -/
def findRoot (m : Manager.Impl) (label : String) : Option Nat :=
  match m.m_root_nodes.find? (fun e => e.1 == label) with
  | some e => some e.2
  | none => none

/-- Call `m_path_nodes.emplace(ptr)` for an object of the store: refused when
the pointer is held already (identity index) or when a held node has the same
`Path()` (path index); returns the element the result iterator points to. -/
def containerEmplace (m : Manager.Impl) (ptr : Nat) : Nat × Manager.Impl :=
  if m.m_path_nodes.contains ptr then (ptr, m)
  else
    match m.findKey (m.PathOf ptr) with
    | some existing => (existing, m)
    | none => (ptr, { m with m_path_nodes := m.m_path_nodes ++ [ptr] })

/-- Call `*m_path_nodes.emplace(std::make_shared<DirNode>(element, parent,
allow_writes)).first` (or `FileNode`): the constructor computes
`allow_writes || (parent && parent->Writeable())`; the new object stays in
the store only if the container takes it. -/
def emplaceNew (m : Manager.Impl) (element : boost_path) (parent : Option Nat)
    (allow_writes : Bool) (cls : NodeClass) : Nat × Manager.Impl :=
  let w : Bool × List NodeObject :=
    if allow_writes then (true, m.store)
    else
      match parent with
      | none => (false, m.store)
      | some p => storeWriteable m.store m.store.length p
  let obj : NodeObject :=
    { m_path_element := element, m_parent_node := parent, m_allow_writes := w.1,
      m_status_cache := file_type.status_error, cls := cls }
  let ptr := w.2.length
  let r := containerEmplace { m with store := w.2 ++ [obj] } ptr
  if r.1 = ptr then r else (r.1, { m with store := w.2 })

/-- Member `Manager::Impl::InitRootDir`. -/
def InitRootDir (m : Manager.Impl) (label : String) (path : boost_path) (allow_writes : Bool) :
    Manager.Impl :=
  match m.findRoot label with
  | some root_ptr => (containerEmplace m root_ptr).2
  | none =>
    let obj : NodeObject :=
      { m_path_element := path, m_parent_node := none, m_allow_writes := allow_writes,
        m_status_cache := file_type.status_error, cls := NodeClass.RootNode label }
    let root_ptr := m.store.length
    (containerEmplace { m with store := m.store ++ [obj],
                               m_root_nodes := m.m_root_nodes ++ [(label, root_ptr)] }
      root_ptr).2

/-- Member `Manager::Impl::FindByPath`. -/
def FindByPath (m : Manager.Impl) (path : boost_path) : Option Nat :=
  if path = [] || pathIs path ElementType.DOT || pathIs path ElementType.DOT_DOT then none
  else m.findKey (NormalizePathFrom path)

end Manager.Impl

/-- The path `std::string(prev_sep, '/') + node.string()` that
`ElementsFromPath` stores: one or several leading separators are the root
directory, exactly two start a root name. -/
def separatorsThen (prev_sep : Nat) (node : String) : boost_path :=
  if prev_sep = 2 then ["//" ++ node] else ["/", node]

/-- Loop of `ElementsFromPath`. -/
def ElementsFromPath.loop : List String → Nat → List boost_path → List boost_path
  | [], _, retval => retval
  | node :: rest, prev_sep, retval =>
    if pathIs [node] ElementType.SEPERATOR then
      ElementsFromPath.loop rest (prev_sep + 1) retval
    else if prev_sep > 0 then
      ElementsFromPath.loop rest 0 (retval ++ [separatorsThen prev_sep node])
    else
      ElementsFromPath.loop rest prev_sep (retval ++ [[node]])

/-- Function `ElementsFromPath`. -/
def ElementsFromPath (path : boost_path) : List boost_path :=
  ElementsFromPath.loop path 0 []

namespace Manager.Impl

/-- First loop of `EmplaceParentDir`: the parent found among the root nodes
(looked up under the string of the path walked so far) and the elements
behind it. -/
def EmplaceParentDir.intercept (env : Env) (m : Manager.Impl) :
    List boost_path → boost_path → Option Nat → List boost_path →
    Option Nat × List boost_path
  | [], _, parent_node, pending_elements => (parent_node, pending_elements)
  | element :: rest, current_path, parent_node, pending_elements =>
    if element = [] then
      EmplaceParentDir.intercept env m rest current_path parent_node pending_elements
    else
      match m.findRoot (env.PathToString (current_path ++ element)) with
      | none =>
        EmplaceParentDir.intercept env m rest (current_path ++ element) parent_node
          (pending_elements ++ [element])
      | some root =>
        EmplaceParentDir.intercept env m rest (current_path ++ element) (some root) []

/-- Second loop of `EmplaceParentDir`: one directory node for each pending
element but the last, found under the path walked so far or created. -/
def EmplaceParentDir.create (m : Manager.Impl) :
    List boost_path → boost_path → Option Nat → Option Nat × Manager.Impl
  | [], _, parent_node => (parent_node, m)
  | element :: rest, current_path, parent_node =>
    match m.findKey (current_path ++ element) with
    | none =>
      let r := m.emplaceNew element parent_node false NodeClass.DirNode
      EmplaceParentDir.create r.2 rest (current_path ++ element) (some r.1)
    | some found =>
      EmplaceParentDir.create m rest (current_path ++ element) (some found)

/-- Member `Manager::Impl::EmplaceParentDir`. -/
def EmplaceParentDir (env : Env) (m : Manager.Impl) (path : boost_path) :
    Option Nat × Manager.Impl :=
  if path = [] then (none, m)
  else if !has_parent_path path || parent_path path == path then (none, m)
  else
    let r := EmplaceParentDir.intercept env m (ElementsFromPath path) [] none []
    if !r.2.isEmpty then EmplaceParentDir.create m r.2.dropLast [] r.1
    else (r.1, m)

/-- Member `Manager::Impl::InsertPath`. -/
def InsertPath (env : Env) (m : Manager.Impl) (path : boost_path) (allow_writes : Bool) :
    Option Nat × Manager.Impl :=
  if path = [] then (none, m)
  else
    let normal_path := NormalizePathFrom path
    let r := EmplaceParentDir env m normal_path
    match env.status normal_path with
    | none => (none, r.2)
    | some status =>
      let is_file := status_exists status && status_is_regular_file status
      let e := r.2.emplaceNew (filename normal_path) r.1 allow_writes
        (if is_file then NodeClass.FileNode else NodeClass.DirNode)
      (some e.1, e.2)

/-- Member `Manager::Impl::EmplacePath`. -/
def EmplacePath (env : Env) (m : Manager.Impl) (path : boost_path) :
    Option Nat × Manager.Impl :=
  if path = [] then (none, m)
  else
    match m.FindByPath path with
    | some node => (some node, m)
    | none => m.InsertPath env path false

end Manager.Impl

/-- Function `GetPathNode`. -/
def GetPathNode (env : Env) (m : Manager.Impl) (path : boost_path) :
    Option Nat × Manager.Impl :=
  let normal_path := NormalizePathFrom path
  match m.FindByPath normal_path with
  | some node => (some node, m)
  | none => m.EmplacePath env normal_path

/-! ### Fixtures of the path nodes -/

/-- A `PathToString` that joins the elements with `/` (none after the root
directory or before it). -/
def fixturePathToString : boost_path → String
  | [] => ""
  | [e] => e
  | e :: f :: rest =>
    if e = "/" ∨ f = "/" then e ++ fixturePathToString (f :: rest)
    else e ++ "/" ++ fixturePathToString (f :: rest)

/-- An environment in which no path exists on disk. -/
def fixtureEnv : Env where
  PathToString := fixturePathToString
  status := fun _ => some file_type.file_not_found

/-- The host file system with its state `σ`: `PathToString`,
`boost::filesystem::status`, `remove`, `create_directories`, and the opening
of and writing to a `boost::filesystem::ofstream`. An operation returns its
value, or `none` when it throws `filesystem_error`, and the state afterwards;
`status` only reads. -/
structure Host (σ : Type) where
  PathToString : boost_path → String
  status : σ → boost_path → Option file_type
  remove : σ → boost_path → Option Bool × σ
  create_directories : σ → boost_path → Option Bool × σ
  ofstream_open : σ → boost_path → Nat → Option Bool × σ
  ofstream_write : σ → boost_path → String → σ

/-- The environment of the node manager on the file system in state `s`. -/
def Host.env {σ : Type} (h : Host σ) (s : σ) : Env :=
  { PathToString := h.PathToString, status := h.status s }

/-- The topmost object of the chain of a pointer: what `PathNode::Root`
copies for a node that is not relative. -/
def storeRoot (store : List NodeObject) : Nat → Nat → Option NodeObject
  | 0, _ => none
  | fuel + 1, ptr =>
    match store.get? ptr with
    | none => none
    | some obj =>
      match obj.m_parent_node with
      | none => some obj
      | some parent => storeRoot store fuel parent

namespace Manager.Impl

/-- Member `PathNode::IsRelative` of the object at a pointer. -/
def IsRelativeOf (m : Manager.Impl) (ptr : Nat) : Bool :=
  match m.node ptr with
  | some n => n.IsRelative
  | none => false

/-- Member `PathNode::Writeable` of the object at a pointer. -/
def WriteableOf (m : Manager.Impl) (ptr : Nat) : Bool × Manager.Impl :=
  let w := storeWriteable m.store m.store.length ptr
  (w.1, { m with store := w.2 })

/-- Member `PathNode::Status` of the object at a pointer: the status returned
and the manager afterwards (the status cache of the object). -/
def StatusOf (env : Env) (m : Manager.Impl) (ptr : Nat) : file_type × Manager.Impl :=
  match m.store.get? ptr with
  | none => (file_type.status_error, m)
  | some obj =>
    if m.IsRelativeOf ptr then (obj.m_status_cache, m)
    else
      match env.status (m.PathOf ptr) with
      | some st => (st, { m with store := m.store.set ptr { obj with m_status_cache := st } })
      | none => (obj.m_status_cache, m)

/-- Member `PathNode::Exists` of the object at a pointer. -/
def ExistsOf (env : Env) (m : Manager.Impl) (ptr : Nat) : Bool × Manager.Impl :=
  if m.IsRelativeOf ptr then (false, m)
  else
    let r := m.StatusOf env ptr
    (status_exists r.1, r.2)

/-- Member `PathNode::Root` of the object at a pointer: the fresh copy it
returns, or `none` for the null pointer of a relative node. -/
def RootOf (m : Manager.Impl) (ptr : Nat) : Option NodeObject :=
  if m.IsRelativeOf ptr then none
  else storeRoot m.store m.store.length ptr

end Manager.Impl

/-- Helper `IsRegularFile(node_ptr)` of the anonymous namespace. -/
def IsRegularFileNode (env : Env) (m : Manager.Impl) (node_ptr : Option Nat) :
    Bool × Manager.Impl :=
  match node_ptr with
  | none => (false, m)
  | some ptr =>
    let e := m.ExistsOf env ptr
    if e.1 then
      let r := e.2.StatusOf env ptr
      (status_is_regular_file r.1, r.2)
    else (false, e.2)

/-- Helper `IsDirectory(node_ptr)` of the anonymous namespace, on the copy
that `Root()` returns: a parentless object outside the store. -/
def IsDirectoryRootCopy (env : Env) (copy : NodeObject) : Bool :=
  let node := PathNode.root copy.m_path_element copy.m_allow_writes
  if node.IsRelative then false
  else
    let st := match env.status node.Path with
      | some t => t
      | none => copy.m_status_cache
    status_exists st && status_is_directory st

/-- Function `EraseFile`: the returned value, the manager and the file
system afterwards. -/
def EraseFile {σ : Type} (h : Host σ) (s : σ) (m : Manager.Impl) (abs_path : boost_path) :
    Bool × Manager.Impl × σ :=
  let g := GetPathNode (h.env s) m abs_path
  match g.1 with
  | none => (false, g.2, s)
  | some node_ptr =>
    let r := IsRegularFileNode (h.env s) g.2 (some node_ptr)
    if !r.1 then (false, r.2, s)
    else
      let w := r.2.WriteableOf node_ptr
      if !w.1 then (false, w.2, s)
      else
        let d := h.remove s (w.2.PathOf node_ptr)
        match d.1 with
        | some _ => (true, w.2, d.2)
        | none => (false, w.2, d.2)

/-- Function `WriteTextFile`. -/
def WriteTextFile {σ : Type} (h : Host σ) (s : σ) (m : Manager.Impl) (abs_path : boost_path)
    (contents : String) (mode : Nat) : Bool × Manager.Impl × σ :=
  let g := GetPathNode (h.env s) m abs_path
  match g.1 with
  | none => (false, g.2, s)
  | some node_ptr =>
    let w := g.2.WriteableOf node_ptr
    if !w.1 || w.2.IsRelativeOf node_ptr then (false, w.2, s)
    else
      let o := h.ofstream_open s (w.2.PathOf node_ptr) mode
      match o.1 with
      | none => (false, w.2, o.2)
      | some false => (false, w.2, o.2)
      | some true => (true, w.2, h.ofstream_write o.2 (w.2.PathOf node_ptr) contents)

/-- Function `WriteFile`; `ofs_func` is the functor on the opened stream: its
result and the file system after it ran. -/
def WriteFile {σ : Type} (h : Host σ) (s : σ) (m : Manager.Impl) (abs_path : boost_path)
    (ofs_func : σ → Bool × σ) (mode : Nat) : Bool × Manager.Impl × σ :=
  let g := GetPathNode (h.env s) m abs_path
  match g.1 with
  | none => (false, g.2, s)
  | some node_ptr =>
    let w := g.2.WriteableOf node_ptr
    if !w.1 || w.2.IsRelativeOf node_ptr then (false, w.2, s)
    else
      let o := h.ofstream_open s (w.2.PathOf node_ptr) mode
      match o.1 with
      | none => (false, w.2, o.2)
      | some _ =>
        let f := ofs_func o.2
        (f.1, w.2, f.2)

/-- Function `CreateDirectories`; `none` is the dereference of a null
pointer (`node_ptr` itself, or the null `Root()` of a relative node). -/
def CreateDirectories {σ : Type} (h : Host σ) (s : σ) (m : Manager.Impl)
    (target_path : boost_path) : Option (Bool × Manager.Impl × σ) :=
  let g := GetPathNode (h.env s) m target_path
  match g.1 with
  | none => none
  | some node_ptr =>
    let w := g.2.WriteableOf node_ptr
    if !w.1 then some (false, w.2, s)
    else
      match w.2.RootOf node_ptr with
      | none => none
      | some copy =>
        if !IsDirectoryRootCopy (h.env s) copy then some (false, w.2, s)
        else
          let c := h.create_directories s (w.2.PathOf node_ptr)
          match c.1 with
          | some _ => some (true, w.2, c.2)
          | none => some (false, w.2, c.2)

/-- A host whose state is the list of the regular files on disk, each with
its contents; nothing else exists. -/
def fixtureHost : Host (List (boost_path × String)) where
  PathToString := fixturePathToString
  status := fun s p =>
    if s.any (fun f => f.1 == p) then some file_type.regular_file
    else some file_type.file_not_found
  remove := fun s p => (some (s.any (fun f => f.1 == p)), s.filter (fun f => f.1 != p))
  create_directories := fun s _ => (some true, s)
  ofstream_open := fun s p _ => (some true, (p, "") :: s.filter (fun f => f.1 != p))
  ofstream_write := fun s p contents =>
    s.map (fun f => if f.1 == p then (f.1, f.2 ++ contents) else f)

/-- A disk with the one file `/srv/a.txt`. -/
def fixtureDisk : List (boost_path × String) := [(["/", "srv", "a.txt"], "old")]

/-- Number of `..` fragments of a sequence of fragments. -/
def countDotDot (p : List String) : Nat := p.count ".."

/-- Number of ordinary segments of a sequence of fragments. -/
def countOrdinary (p : List String) : Nat := p.countP (fun e => decide (Ordinary e))

/-- The manager after `InitRootDir("data", "/srv/data", false)` on the empty
manager: the label is not the string of the path. -/
def fixtureRootData : Manager.Impl :=
  Manager.Impl.InitRootDir Manager.Impl.empty "data" ["/", "srv", "data"] false

/-- The manager after `InitRootDir("/srv/data", "/srv/data", false)` on the
empty manager: the label is the string of the path. -/
def fixtureRootPathLabel : Manager.Impl :=
  Manager.Impl.InitRootDir Manager.Impl.empty "/srv/data" ["/", "srv", "data"] false

/-! ### Enumeration of directories and the free functions on paths -/

/-- The read-only file system with `boost::filesystem::recursive_directory_iterator`:
for a directory path the paths of the entries beneath it in the order of the
iteration (each the directory path followed by the names down to the entry),
or `none` where the constructor of the iterator throws. -/
structure DirEnv extends Env where
  recursive_directory_iterator : boost_path → Option (List boost_path)

/-- Loop of `IterateDirectory`: `EmplacePath(node_it->path())` for every
entry. -/
def Manager.Impl.IterateDirectory.loop (env : Env) : List boost_path → Manager.Impl → Manager.Impl
  | [], m => m
  | entry :: rest, m => Manager.Impl.IterateDirectory.loop env rest (m.EmplacePath env entry).2

/-- Member `Manager::Impl::IterateDirectory` with `recursive_search` true: the
entries returned and the manager afterwards; `none` where the iterator
throws. The cast to `DirNode` fails for no node and for a `FileNode`. -/
def Manager.Impl.IterateDirectory (w : DirEnv) (m : Manager.Impl) (dir_path : boost_path) :
    Option (List boost_path × Manager.Impl) :=
  let g := GetPathNode w.toEnv m dir_path
  match g.1 with
  | none => some ([], g.2)
  | some dir_ptr =>
    match g.2.store.get? dir_ptr with
    | none => some ([], g.2)
    | some obj =>
      if obj.cls = NodeClass.FileNode then some ([], g.2)
      else
        match w.recursive_directory_iterator (g.2.PathOf dir_ptr) with
        | none => none
        | some entries =>
          some (entries, Manager.Impl.IterateDirectory.loop w.toEnv entries g.2)

/-- Function `PathsInDir(abs_dir_path, recursive_search)` with the default
`recursive_search`. -/
def PathsInDir (w : DirEnv) (m : Manager.Impl) (abs_dir_path : boost_path) :
    Option (List boost_path × Manager.Impl) :=
  Manager.Impl.IterateDirectory w m abs_dir_path

/-- Function `PathPortionFrom(path, base_dir)`: the returned path and the
manager afterwards. -/
def PathPortionFrom (env : Env) (m : Manager.Impl) (path base_dir : boost_path) :
    boost_path × Manager.Impl :=
  let g := GetPathNode env m path
  match g.1 with
  | none => (EMPTY_PATH, g.2)
  | some node_ptr =>
    match g.2.node node_ptr with
    | none => (EMPTY_PATH, g.2)
    | some n =>
      let retval := n.PathPortionFrom base_dir
      if pathIs retval ElementType.INVALID then (EMPTY_PATH, g.2) else (retval, g.2)

/-- Function `IsRegularFile(abs_path)`: through the node of the path, or by
the status of the normalised path when there is no node. -/
def IsRegularFile (env : Env) (m : Manager.Impl) (abs_path : boost_path) :
    Bool × Manager.Impl :=
  let g := GetPathNode env m abs_path
  match g.1 with
  | some node_ptr => IsRegularFileNode env g.2 (some node_ptr)
  | none =>
    match env.status (NormalizePathFrom abs_path) with
    | some path_stat =>
      (if status_exists path_stat then status_is_regular_file path_stat else false, g.2)
    | none => (false, g.2)

/-! ### Managers built without a change of keys -/

/-- What `Path()` reads of an object: its element and its parent pointer. -/
def NodeObject.shape (o : NodeObject) : boost_path × Option Nat :=
  (o.m_path_element, o.m_parent_node)

/-- Every parent pointer of the store refers to an object created before the
object that holds it. -/
def ParentsBefore (store : List NodeObject) : Prop :=
  ∀ i obj p, store.get? i = some obj → obj.m_parent_node = some p → p < i

/-- Invariant of the managers built by `InitRootDir`, `EmplacePath` and
`GetPathNode`: parents precede their children in the store, the pointers of
`m_path_nodes` and `m_root_nodes` refer to objects of the store, and no two
nodes held by `m_path_nodes` have the same `Path()` (the unique path index). -/
structure Manager.Inv (m : Manager.Impl) : Prop where
  parents : ParentsBefore m.store
  held : ∀ i ∈ m.m_path_nodes, i < m.store.length
  roots : ∀ e ∈ m.m_root_nodes, e.2 < m.store.length
  unique : ∀ i ∈ m.m_path_nodes, ∀ j ∈ m.m_path_nodes, m.PathOf i = m.PathOf j → i = j

/-- Managers reachable from the empty one by `InitRootDir`, `EmplacePath` and
`GetPathNode`, on a fixed file system. None of these calls changes the
`Path()` of a node after its insertion (`SetRootPath`, which does, is not
among them), so the ordered path index stays sorted by the keys its nodes
have and `find` meets the held node with the key. -/
inductive Manager.Reachable (env : Env) : Manager.Impl → Prop
  | empty : Manager.Reachable env Manager.Impl.empty
  | initRootDir (m : Manager.Impl) (label : String) (path : boost_path) (allow_writes : Bool) :
      Manager.Reachable env m → Manager.Reachable env (m.InitRootDir label path allow_writes)
  | emplacePath (m : Manager.Impl) (path : boost_path) :
      Manager.Reachable env m → Manager.Reachable env (m.EmplacePath env path).2
  | getPathNode (m : Manager.Impl) (path : boost_path) :
      Manager.Reachable env m → Manager.Reachable env (GetPathNode env m path).2

end Node

namespace Content

/-! ## The file system of the fixtures -/

/-- The two functions `RefreshCache` calls, as util/VFS/Node.cpp computes them
on the file system `w` with the node manager in the state `m`. The manager
the calls leave behind is dropped: the fixtures use a manager that already
holds every node the calls ask for, which the calls leave as it is. A throwing
directory iterator, which the fixtures do not meet, yields no path. -/
def nodeFileSystem (w : Node.DirEnv) (m : Node.Manager.Impl) : FileSystem where
  PathsInDir abs_dir_path :=
    match Node.PathsInDir w m abs_dir_path with
    | some r => r.1
    | none => []
  PathPortionFrom path base_dir := (Node.PathPortionFrom w.toEnv m path base_dir).1

/-- The directories of the fixture disk. -/
def fixtureDirectories : List path_type :=
  [["/"], ["/", "content"], ["/", "content", "base"], ["/", "content", "base", "a"],
   ["/", "content", "mod"], ["/", "content", "mod", "a"], ["/", "content", "top"]]

/-- The regular files of the fixture disk. -/
def fixtureFiles : List path_type :=
  [["/", "content", "base", "a", "b.txt"], ["/", "content", "mod", "a", "b.txt"],
   ["/", "content", "top", "c.txt"]]

/-- A disk on which `/content/base` and `/content/mod` both hold `a/b.txt` and
`/content/top` holds `c.txt`. -/
def fixtureContentEnv : Node.DirEnv where
  PathToString := Node.fixturePathToString
  status := fun p =>
    if fixtureDirectories.contains p then some Node.file_type.directory_file
    else if fixtureFiles.contains p then some Node.file_type.regular_file
    else some Node.file_type.file_not_found
  recursive_directory_iterator := fun p =>
    if p = ["/", "content", "base"] then
      some [["/", "content", "base", "a"], ["/", "content", "base", "a", "b.txt"]]
    else if p = ["/", "content", "mod"] then
      some [["/", "content", "mod", "a"], ["/", "content", "mod", "a", "b.txt"]]
    else if p = ["/", "content", "top"] then some [["/", "content", "top", "c.txt"]]
    else if p = ["/", "content", "base", "a"] then some [["/", "content", "base", "a", "b.txt"]]
    else if p = ["/", "content", "mod", "a"] then some [["/", "content", "mod", "a", "b.txt"]]
    else none

/-- The node manager after the three content directories were enumerated
once, starting from the empty manager. -/
def fixtureNodes : Node.Manager.Impl :=
  match Node.PathsInDir fixtureContentEnv Node.Manager.Impl.empty ["/", "content", "base"] with
  | none => Node.Manager.Impl.empty
  | some r1 =>
    match Node.PathsInDir fixtureContentEnv r1.2 ["/", "content", "mod"] with
    | none => r1.2
    | some r2 =>
      match Node.PathsInDir fixtureContentEnv r2.2 ["/", "content", "top"] with
      | none => r2.2
      | some r3 => r3.2

/-- The file system of the fixtures: what util/VFS/Node.cpp computes on the
fixture disk. -/
def fixtureFS : FileSystem := nodeFileSystem fixtureContentEnv fixtureNodes

/-- The registry `base`, `mod`, `top` (all enabled) after `disable(base)`
and a first `get_path("c.txt")`. -/
def fixtureAfterFirstGetPath : DirSet :=
  (DirSet.GetPath fixtureFS (fixtureChain.DisableDir "base") ["c.txt"]).2

/-- The same registry after a following `get_labels(true)`. -/
def fixtureAfterGetDirs : DirSet :=
  (fixtureAfterFirstGetPath.GetDirs true).2

/-- A disk with the search directory `/srv/content`, which holds the one
content directory `/srv/content/mod` with its definition file and the file
`a.txt`. -/
def fixtureSearchDisk : Node.DirEnv where
  PathToString := Node.fixturePathToString
  status := fun p =>
    if p = ["/"] ∨ p = ["/", "srv"] ∨ p = ["/", "srv", "content"] ∨
        p = ["/", "srv", "content", "mod"] then some Node.file_type.directory_file
    else if p = ["/", "srv", "content", "mod", "Content.inf"] ∨
        p = ["/", "srv", "content", "mod", "a.txt"] then some Node.file_type.regular_file
    else some Node.file_type.file_not_found
  recursive_directory_iterator := fun p =>
    if p = ["/", "srv", "content"] then
      some [["/", "srv", "content", "mod"], ["/", "srv", "content", "mod", "Content.inf"],
        ["/", "srv", "content", "mod", "a.txt"]]
    else if p = ["/", "srv", "content", "mod"] then
      some [["/", "srv", "content", "mod", "Content.inf"],
        ["/", "srv", "content", "mod", "a.txt"]]
    else none

/-- The node manager after the search directory was enumerated once,
starting from the empty manager. -/
def fixtureSearchNodes : Node.Manager.Impl :=
  match Node.PathsInDir fixtureSearchDisk Node.Manager.Impl.empty ["/", "srv", "content"] with
  | none => Node.Manager.Impl.empty
  | some r => r.2

/-- The search environment on that disk, as util/VFS/Node.cpp computes it:
the enumeration starts from the empty manager, the tests of the predicate
run on the manager the enumeration leaves; the definition file holds one
block. -/
def fixtureSearchEnv : SearchEnv where
  IterateDirectory := fun p =>
    match Node.PathsInDir fixtureSearchDisk Node.Manager.Impl.empty p with
    | some r => r.1
    | none => []
  IsRegularFile := fun p => (Node.IsRegularFile fixtureSearchDisk.toEnv fixtureSearchNodes p).1
  filename := Node.filename
  parse_file := fun p =>
    if p = ["/", "srv", "content", "mod", "Content.inf"] then
      [{ label := "mod", description := "", version := "1.0.0", required_dirs := [],
         explicit_paths := [] }]
    else []

end Content

namespace Content

/-! # Properties -/

/-! ## Lookup and in-place update -/

theorem findByLabel_label {dirs : List Dir} {label : String} {d : Dir}
    (h : findByLabel dirs label = some d) : d.m_label_key = label := by
  induction dirs with
  | nil => simp [findByLabel] at h
  | cons x xs ih =>
    unfold findByLabel at h
    split at h
    · cases h; assumption
    · exact ih h

theorem findByLabel_mem {dirs : List Dir} {label : String} {d : Dir}
    (h : findByLabel dirs label = some d) : d ∈ dirs := by
  induction dirs with
  | nil => simp [findByLabel] at h
  | cons x xs ih =>
    unfold findByLabel at h
    split at h
    · cases h; simp
    · exact List.mem_cons_of_mem _ (ih h)

theorem updateByLabel_length (f : Dir → Dir) (label : String) (dirs : List Dir) :
    (updateByLabel f label dirs).length = dirs.length := by
  induction dirs with
  | nil => rfl
  | cons x xs ih =>
    unfold updateByLabel
    split <;> simp [ih]

theorem updateByLabel_none {f : Dir → Dir} {label : String} {dirs : List Dir}
    (h : findByLabel dirs label = none) : updateByLabel f label dirs = dirs := by
  induction dirs with
  | nil => rfl
  | cons x xs ih =>
    unfold findByLabel at h
    unfold updateByLabel
    split at h
    · cases h
    · rename_i hx; simp [hx, ih h]

theorem updateByLabel_id {f : Dir → Dir} {label : String} {dirs : List Dir} {d : Dir}
    (h : findByLabel dirs label = some d) (hf : f d = d) : updateByLabel f label dirs = dirs := by
  induction dirs with
  | nil => rfl
  | cons x xs ih =>
    unfold findByLabel at h
    unfold updateByLabel
    split at h
    · rename_i hx; cases h; simp [hx, hf]
    · rename_i hx; simp [hx, ih h]

theorem findByLabel_update_self {f : Dir → Dir} (hf : ∀ d, (f d).m_label_key = d.m_label_key)
    (label : String) (dirs : List Dir) :
    findByLabel (updateByLabel f label dirs) label = (findByLabel dirs label).map f := by
  induction dirs with
  | nil => rfl
  | cons x xs ih =>
    unfold updateByLabel
    by_cases hx : x.m_label_key = label
    · simp [hx, findByLabel, hf]
    · simp [hx, findByLabel, ih]

theorem findByLabel_update_ne {f : Dir → Dir} (hf : ∀ d, (f d).m_label_key = d.m_label_key)
    {label other : String} (hne : other ≠ label) (dirs : List Dir) :
    findByLabel (updateByLabel f label dirs) other = findByLabel dirs other := by
  induction dirs with
  | nil => rfl
  | cons x xs ih =>
    unfold updateByLabel
    by_cases hx : x.m_label_key = label
    · have : ¬ x.m_label_key = other := fun h => hne (h ▸ hx ▸ rfl)
      simp [hx, findByLabel, hf, hne.symm]
    · by_cases ho : x.m_label_key = other
      · subst ho; simp [hx, findByLabel]
      · simp [hx, findByLabel, ho, ih]

theorem get?_updateByLabel_ne (f : Dir → Dir) (label : String) (dirs : List Dir) (i : Nat)
    (x : Dir) (hx : dirs.get? i = some x) (hne : x.m_label_key ≠ label) :
    (updateByLabel f label dirs).get? i = some x := by
  induction dirs generalizing i with
  | nil => simp at hx
  | cons y ys ih =>
    unfold updateByLabel
    by_cases hy : y.m_label_key = label
    · cases i with
      | zero => simp at hx; subst hx; exact absurd hy hne
      | succ j => simpa [hy] using hx
    · cases i with
      | zero => simpa [hy] using hx
      | succ j =>
        simp only [hy, if_false, List.get?_cons_succ] at hx ⊢
        exact ih j hx

/-! ## `ValidateDir`, `EnableDir`, `DisableDir` -/

theorem Dir.SetEnabled_label (d : Dir) (b : Bool) : (d.SetEnabled b).2.m_label_key = d.m_label_key := by
  unfold Dir.SetEnabled; split <;> rfl

theorem Dir.SetEnabled_enabled (d : Dir) (b : Bool) : (d.SetEnabled b).2.m_enabled = b := by
  unfold Dir.SetEnabled
  split
  · rename_i h; simpa using h
  · rfl

theorem Dir.SetEnabled_depth (d : Dir) (b : Bool) : (d.SetEnabled b).2.m_depth = d.m_depth := by
  unfold Dir.SetEnabled; split <;> rfl

theorem Dir.SetEnabled_requires (d : Dir) (b : Bool) :
    (d.SetEnabled b).2.m_required_dirs = d.m_required_dirs := by
  unfold Dir.SetEnabled; split <;> rfl

theorem Dir.SetEnabled_same (d : Dir) : (d.SetEnabled d.m_enabled).2 = d := by
  simp [Dir.SetEnabled]

theorem DirSet.ValidateDir.loop_ok (dirs : List Dir) (label : String) (reqs : List (String × String))
    (depth : Nat) (h : ∀ r ∈ reqs, reqEnabled dirs r.1 = true) :
    ValidateDir.loop dirs label reqs depth =
      (true, updateByLabel (fun d => d.SetDepth (reqDepth dirs reqs depth)) label dirs) := by
  induction reqs generalizing depth with
  | nil => rfl
  | cons req reqs ih =>
    have h1 := h req (List.mem_cons_self _ _)
    have h2 : ∀ r ∈ reqs, reqEnabled dirs r.1 = true :=
      fun r hr => h r (List.mem_cons_of_mem _ hr)
    unfold reqEnabled at h1
    unfold ValidateDir.loop reqDepth
    split at h1
    · rename_i p hp
      simp only [hp]
      simp [h1, ih _ h2]
    · cases h1

theorem DirSet.ValidateDir.loop_fail (dirs : List Dir) (label : String) (reqs : List (String × String))
    (depth : Nat) (h : ¬ ∀ r ∈ reqs, reqEnabled dirs r.1 = true) :
    (ValidateDir.loop dirs label reqs depth).1 = false ∧
      ((ValidateDir.loop dirs label reqs depth).2 = dirs ∨
       (ValidateDir.loop dirs label reqs depth).2 =
          updateByLabel (fun d => (d.SetEnabled false).2) label dirs) := by
  induction reqs generalizing depth with
  | nil => exact absurd (fun r hr => by cases hr) h
  | cons req reqs ih =>
    unfold ValidateDir.loop
    cases hp : findByLabel dirs req.1 with
    | none => simp
    | some p =>
      by_cases he : p.Enabled = true
      · simp only [he, Bool.not_true, Bool.false_eq_true, if_false]
        apply ih
        intro hall
        apply h
        intro r hr
        rcases List.mem_cons.1 hr with rfl | hr
        · simp [reqEnabled, hp, he]
        · exact hall r hr
      · simp [he]

/-- Effect of `EnableDir` on a registered label whose requirements are all
registered and enabled. -/
theorem DirSet.EnableDir_met (s : DirSet) (label : String) (d : Dir)
    (hd : findByLabel s.m_dirs label = some d) (hmet : RequirementsMet s.m_dirs d) :
    DirSet.EnableDir s label =
      if d.m_enabled = true then
        { s with m_dirs := updateByLabel (fun x => x.SetDepth (reqDepth s.m_dirs d.Requires 0))
                              label s.m_dirs }
      else
        { s with m_dirs := updateByLabel (fun x => (x.SetEnabled true).2) label
                    (updateByLabel (fun x => x.SetDepth (reqDepth s.m_dirs d.Requires 0))
                              label s.m_dirs),
                 m_requires_refresh := true } := by
  have hl : d.LabelKey = label := findByLabel_label hd
  have hv : DirSet.ValidateDir s.m_dirs label =
      (true, updateByLabel (fun x => x.SetDepth (reqDepth s.m_dirs d.Requires 0)) label s.m_dirs) := by
    unfold DirSet.ValidateDir
    simp only [hd]
    exact DirSet.ValidateDir.loop_ok _ _ _ _ hmet
  have hf : findByLabel (updateByLabel (fun x => x.SetDepth (reqDepth s.m_dirs d.Requires 0))
      label s.m_dirs) label = some (d.SetDepth (reqDepth s.m_dirs d.Requires 0)) := by
    rw [findByLabel_update_self (f := fun x => x.SetDepth (reqDepth s.m_dirs d.Requires 0)) (fun _ => rfl), hd]; rfl
  unfold DirSet.EnableDir
  simp only [hd, hl, hv, hf, Bool.not_true, Bool.false_eq_true, if_false]
  by_cases he : d.m_enabled = true
  · simp [Dir.SetEnabled, Dir.SetDepth, he]
  · simp [Dir.SetEnabled, Dir.SetDepth, he]

/-- Effect of `EnableDir` on a registered, disabled label with a requirement
that is missing or disabled: nothing changes. -/
theorem DirSet.EnableDir_unmet (s : DirSet) (label : String) (d : Dir)
    (hd : findByLabel s.m_dirs label = some d) (hdis : d.m_enabled = false)
    (hmet : ¬ RequirementsMet s.m_dirs d) :
    DirSet.EnableDir s label = s := by
  have hl : d.LabelKey = label := findByLabel_label hd
  have hfail := DirSet.ValidateDir.loop_fail s.m_dirs label d.Requires 0 hmet
  have hv : DirSet.ValidateDir s.m_dirs label = ValidateDir.loop s.m_dirs label d.Requires 0 := by
    unfold DirSet.ValidateDir; simp only [hd]
  have hsame : updateByLabel (fun x => (x.SetEnabled false).2) label s.m_dirs = s.m_dirs := by
    apply updateByLabel_id hd
    have := Dir.SetEnabled_same d
    rw [hdis] at this
    exact this
  unfold DirSet.EnableDir
  simp only [hd, hl, hv, hfail.1, Bool.not_false, if_true]
  rcases hfail.2 with h | h
  · rw [h]
  · rw [h, hsame]

/-- C5: for a registered, disabled directory `label`, `EnableDir` enables it
and marks the cache dirty when every label of its requires map is registered
and enabled, and otherwise leaves the whole registry (flags and dirty flag)
as it was; in both cases the registry keeps its size and every descriptor
with another label stays as it was; `EnableDir` of an unregistered label
changes nothing. -/
theorem C5_enable_disabled_dir (s : DirSet) (label : String) :
    (findByLabel s.m_dirs label = none → s.EnableDir label = s) ∧
    (∀ d, findByLabel s.m_dirs label = some d → d.Enabled = false →
      (if RequirementsMet s.m_dirs d then
          (∃ e, findByLabel (s.EnableDir label).m_dirs label = some e ∧ e.Enabled = true) ∧
          (s.EnableDir label).m_requires_refresh = true
        else s.EnableDir label = s) ∧
      (s.EnableDir label).m_dirs.length = s.m_dirs.length ∧
      (∀ i x, s.m_dirs.get? i = some x → x.LabelKey ≠ label →
        (s.EnableDir label).m_dirs.get? i = some x)) := by
  refine ⟨?_, ?_⟩
  · intro h
    unfold DirSet.EnableDir
    simp only [h]
  · intro d hd hdis
    by_cases hmet : RequirementsMet s.m_dirs d
    · have he := DirSet.EnableDir_met s label d hd hmet
      have hdis' : ¬ d.m_enabled = true := by
        have : d.m_enabled = false := hdis
        simp [this]
      rw [if_neg hdis'] at he
      rw [if_pos hmet, he]
      refine ⟨⟨?_, rfl⟩, ?_, ?_⟩
      · refine ⟨((d.SetDepth (reqDepth s.m_dirs d.Requires 0)).SetEnabled true).2, ?_, ?_⟩
        · show findByLabel (updateByLabel _ label (updateByLabel _ label s.m_dirs)) label = _
          rw [findByLabel_update_self (fun x => Dir.SetEnabled_label x true),
            findByLabel_update_self (f := fun x => x.SetDepth (reqDepth s.m_dirs d.Requires 0))
              (fun _ => rfl), hd]
          rfl
        · exact Dir.SetEnabled_enabled _ _
      · show (updateByLabel _ label (updateByLabel _ label s.m_dirs)).length = _
        rw [updateByLabel_length, updateByLabel_length]
      · intro i x hx hne
        show (updateByLabel _ label (updateByLabel _ label s.m_dirs)).get? i = _
        exact get?_updateByLabel_ne _ _ _ _ _ (get?_updateByLabel_ne _ _ _ _ _ hx hne) hne
    · have he := DirSet.EnableDir_unmet s label d hd hdis hmet
      rw [if_neg hmet, he]
      exact ⟨rfl, rfl, fun i x hx _ => hx⟩

/-- C5 at the registry `base` (enabled), `mod`, `top` (disabled):
`enable(mod)` enables `mod` and marks the cache dirty, `enable(top)` is
refused since `mod` is disabled, and `enable` of an unregistered label
changes nothing. -/
theorem C5_enable_disabled_dir_witness :
    ((∃ e, findByLabel (fixtureBaseOnly.EnableDir "mod").m_dirs "mod" = some e ∧
        e.Enabled = true) ∧
      (fixtureBaseOnly.EnableDir "mod").m_requires_refresh = true) ∧
    fixtureBaseOnly.EnableDir "top" = fixtureBaseOnly ∧
    fixtureBaseOnly.EnableDir "nothing" = fixtureBaseOnly := by
  have h2 := ((C5_enable_disabled_dir fixtureBaseOnly "mod").2 fixtureMod
    (by decide) (by decide)).1
  rw [if_pos (by decide)] at h2
  have h3 := ((C5_enable_disabled_dir fixtureBaseOnly "top").2 fixtureTop
    (by decide) (by decide)).1
  rw [if_neg (by decide)] at h3
  exact ⟨h2, h3, (C5_enable_disabled_dir fixtureBaseOnly "nothing").1 (by decide)⟩

/-- C7: `DisableDir` of an enabled directory clears its enabled flag (its
other fields, the depth included, stay), marks the cache dirty, keeps the
size of the registry and leaves every descriptor with another label as it
was; on a disabled or unregistered label the registry and the dirty flag are
unchanged. -/
theorem C7_disable_dir (s : DirSet) (label : String) :
    (findByLabel s.m_dirs label = none → s.DisableDir label = s) ∧
    (∀ d, findByLabel s.m_dirs label = some d → d.Enabled = false → s.DisableDir label = s) ∧
    (∀ d, findByLabel s.m_dirs label = some d → d.Enabled = true →
      findByLabel (s.DisableDir label).m_dirs label = some { d with m_enabled := false } ∧
      (s.DisableDir label).m_requires_refresh = true ∧
      (s.DisableDir label).m_cache = s.m_cache ∧
      (s.DisableDir label).m_dirs.length = s.m_dirs.length ∧
      (∀ i x, s.m_dirs.get? i = some x → x.LabelKey ≠ label →
        (s.DisableDir label).m_dirs.get? i = some x)) := by
  refine ⟨?_, ?_, ?_⟩
  · intro h
    unfold DirSet.DisableDir
    simp only [h]
  · intro d hd hdis
    have hdis' : d.m_enabled = false := hdis
    unfold DirSet.DisableDir
    simp [hd, Dir.SetEnabled, hdis']
  · intro d hd hen
    have hen' : d.m_enabled = true := hen
    have he : s.DisableDir label =
        { s with m_dirs := updateByLabel (fun x => (x.SetEnabled false).2) label s.m_dirs,
                 m_requires_refresh := true } := by
      unfold DirSet.DisableDir
      simp [hd, Dir.SetEnabled, hen']
    rw [he]
    refine ⟨?_, rfl, rfl, ?_, ?_⟩
    · show findByLabel (updateByLabel _ label s.m_dirs) label = _
      rw [findByLabel_update_self (fun x => Dir.SetEnabled_label x false), hd]
      simp [Dir.SetEnabled, hen']
    · exact updateByLabel_length _ _ _
    · intro i x hx hne
      exact get?_updateByLabel_ne _ _ _ _ _ hx hne

/-- C7 at the registry `base`, `mod`, `top` (all enabled): `disable(base)`
clears the flag of `base` only and marks the cache dirty. -/
theorem C7_disable_dir_witness :
    findByLabel (fixtureChain.DisableDir "base").m_dirs "base" =
        some { fixtureBase with m_enabled := false } ∧
    (fixtureChain.DisableDir "base").m_requires_refresh = true ∧
    (fixtureChain.DisableDir "base").m_dirs.get? 1 = fixtureChain.m_dirs.get? 1 ∧
    fixtureChain.DisableDir "nothing" = fixtureChain := by
  have h := C7_disable_dir fixtureChain "base"
  have h3 := h.2.2 { fixtureBase with m_enabled := true } (by decide) (by decide)
  refine ⟨h3.1, h3.2.1, ?_, (C7_disable_dir fixtureChain "nothing").1 (by decide)⟩
  exact h3.2.2.2.2 1 _ (by decide) (by decide)

/-! ## Clearing enabled flags -/

theorem DirWeaker.same (x : Dir) : DirWeaker x x := Or.inl rfl

theorem DirWeaker.compose {a b c : Dir} (h1 : DirWeaker a b) (h2 : DirWeaker b c) : DirWeaker a c := by
  rcases h1 with rfl | rfl
  · exact h2
  · rcases h2 with rfl | rfl
    · exact Or.inr rfl
    · exact Or.inr rfl

theorem DirWeaker.label {a b : Dir} (h : DirWeaker a b) : a.m_label_key = b.m_label_key := by
  rcases h with rfl | rfl <;> rfl

theorem DirWeaker.requires {a b : Dir} (h : DirWeaker a b) : a.Requires = b.Requires := by
  rcases h with rfl | rfl <;> rfl

theorem DirWeaker.depth {a b : Dir} (h : DirWeaker a b) : a.m_depth = b.m_depth := by
  rcases h with rfl | rfl <;> rfl

theorem DirWeaker.enabled {a b : Dir} (h : DirWeaker a b) (ha : a.Enabled = true) :
    b.Enabled = true ∧ a = b := by
  rcases h with rfl | rfl
  · exact ⟨ha, rfl⟩
  · cases ha

theorem DirWeaker.setEnabled_false (x : Dir) : DirWeaker (x.SetEnabled false).2 x := by
  unfold Dir.SetEnabled
  split
  · exact Or.inl rfl
  · exact Or.inr rfl

theorem Weaker.refl (dirs : List Dir) : Weaker dirs dirs :=
  List.forall₂_same.2 (fun x _ => DirWeaker.same x)

theorem Weaker.trans {a b c : List Dir} (h1 : Weaker a b) (h2 : Weaker b c) : Weaker a c := by
  induction h1 generalizing c with
  | nil => cases h2; exact List.Forall₂.nil
  | cons hx _ ih =>
    cases h2 with
    | cons hy hys => exact List.Forall₂.cons (hx.compose hy) (ih hys)

theorem Weaker.length {a b : List Dir} (h : Weaker a b) : a.length = b.length :=
  List.Forall₂.length_eq h

theorem Weaker.labels {a b : List Dir} (h : Weaker a b) :
    a.map Dir.LabelKey = b.map Dir.LabelKey := by
  induction h with
  | nil => rfl
  | cons hx _ ih => simp [Dir.LabelKey, hx.label, ih]

theorem Weaker.get? {a b : List Dir} (h : Weaker a b) (i : Nat) (x : Dir)
    (hx : a.get? i = some x) : ∃ y, b.get? i = some y ∧ DirWeaker x y := by
  induction h generalizing i with
  | nil => simp at hx
  | cons hxy _ ih =>
    cases i with
    | zero => simp at hx; subst hx; exact ⟨_, by simp, hxy⟩
    | succ j => simpa using ih j (by simpa using hx)

theorem Weaker.findByLabel {a b : List Dir} (h : Weaker a b) (label : String) :
    (findByLabel b label = none → findByLabel a label = none) ∧
    (∀ y, findByLabel b label = some y →
      ∃ x, findByLabel a label = some x ∧ DirWeaker x y) := by
  induction h with
  | nil => simp [Content.findByLabel]
  | @cons x y xs ys hxy _ ih =>
    unfold Content.findByLabel
    rw [hxy.label]
    by_cases hl : y.m_label_key = label
    · simp only [hl, if_true]
      refine ⟨fun h => (by cases h), fun z hz => ?_⟩
      cases hz
      exact ⟨x, rfl, hxy⟩
    · simp only [hl, if_false]
      exact ih

theorem Weaker.reqEnabled {a b : List Dir} (h : Weaker a b) (label : String)
    (ha : reqEnabled a label = true) : reqEnabled b label = true := by
  unfold Content.reqEnabled at ha ⊢
  cases hb : Content.findByLabel b label with
  | none => rw [(h.findByLabel label).1 hb] at ha; cases ha
  | some y =>
    obtain ⟨x, hx, hxy⟩ := (h.findByLabel label).2 y hb
    rw [hx] at ha
    exact (hxy.enabled ha).1

theorem updateAt_weaker (i : Nat) (dirs : List Dir) :
    Weaker (updateAt (fun d => (d.SetEnabled false).2) i dirs) dirs := by
  induction dirs generalizing i with
  | nil => cases i <;> exact List.Forall₂.nil
  | cons x xs ih =>
    cases i with
    | zero => exact List.Forall₂.cons (DirWeaker.setEnabled_false x) (Weaker.refl xs)
    | succ j => exact List.Forall₂.cons (DirWeaker.same x) (ih j)

theorem updateByLabel_weaker (label : String) (dirs : List Dir) :
    Weaker (updateByLabel (fun d => (d.SetEnabled false).2) label dirs) dirs := by
  induction dirs with
  | nil => exact List.Forall₂.nil
  | cons x xs ih =>
    unfold updateByLabel
    split
    · exact List.Forall₂.cons (DirWeaker.setEnabled_false x) (Weaker.refl xs)
    · exact List.Forall₂.cons (DirWeaker.same x) ih

theorem updateAt_get?_self (f : Dir → Dir) (i : Nat) (dirs : List Dir) :
    (updateAt f i dirs).get? i = (dirs.get? i).map f := by
  induction dirs generalizing i with
  | nil => cases i <;> rfl
  | cons x xs ih =>
    cases i with
    | zero => rfl
    | succ j => simpa [updateAt] using ih j

theorem findByLabel_of_mem_nodup {dirs : List Dir} (hn : (dirs.map Dir.LabelKey).Nodup)
    {x : Dir} (hx : x ∈ dirs) : findByLabel dirs x.m_label_key = some x := by
  induction dirs with
  | nil => cases hx
  | cons y ys ih =>
    rw [List.map_cons, List.nodup_cons] at hn
    unfold findByLabel
    rcases List.mem_cons.1 hx with rfl | hmem
    · simp
    · have hne : y.m_label_key ≠ x.m_label_key := by
        intro h
        apply hn.1
        exact List.mem_map.2 ⟨x, hmem, h.symm⟩
      simp only [hne, if_false]
      exact ih hn.2 hmem

/-! ## `ValidateDirs` -/

theorem DirSet.ValidateDirs.reqLoop_eq (dirs : List Dir) (i : Nat) (reqs : List (String × String)) :
    ValidateDirs.reqLoop dirs i reqs =
      if ∀ r ∈ reqs, reqEnabled dirs r.1 = true then dirs
      else updateAt (fun d => (d.SetEnabled false).2) i dirs := by
  induction reqs with
  | nil => simp [ValidateDirs.reqLoop]
  | cons req reqs ih =>
    unfold ValidateDirs.reqLoop
    cases hp : findByLabel dirs req.1 with
    | none => simp [reqEnabled, hp]
    | some p =>
      by_cases he : p.Enabled = true
      · have hhead : reqEnabled dirs req.1 = true := by simp [reqEnabled, hp, he]
        simp only [he, if_true, ih, List.forall_mem_cons, hhead, true_and]
      · have hhead : ¬ reqEnabled dirs req.1 = true := by simp [reqEnabled, hp, he]
        simp [he, hhead]

theorem DirSet.ValidateDirs.step_weaker (dirs : List Dir) (i : Nat) :
    Weaker (ValidateDirs.step dirs i) dirs := by
  unfold ValidateDirs.step
  split
  · exact Weaker.refl _
  · split
    · exact Weaker.refl _
    · rw [ValidateDirs.reqLoop_eq]
      split
      · exact Weaker.refl _
      · exact updateAt_weaker _ _

/-- A descriptor that is enabled right after its visit by `ValidateDirs` had
every requirement registered and enabled at the time of the visit. -/
theorem DirSet.ValidateDirs.step_enabled (dirs : List Dir) (i : Nat) (x : Dir)
    (hx : (ValidateDirs.step dirs i).get? i = some x) (hen : x.Enabled = true) :
    ∀ r ∈ x.Requires, reqEnabled dirs r.1 = true := by
  unfold ValidateDirs.step at hx
  cases hd : dirs.get? i with
  | none =>
    simp only [hd] at hx
    cases hx
  | some d =>
    simp only [hd] at hx
    by_cases he : d.Enabled = true
    · simp only [he, Bool.not_true, Bool.false_eq_true, if_false] at hx
      rw [ValidateDirs.reqLoop_eq] at hx
      split at hx
      · rename_i hall
        rw [hd] at hx
        cases hx
        exact hall
      · rw [updateAt_get?_self, hd] at hx
        simp only [Option.map_some', Option.some.injEq] at hx
        rw [← hx, Dir.Enabled, Dir.SetEnabled_enabled] at hen
        cases hen
    · simp only [he, Bool.not_false, if_true] at hx
      rw [hd] at hx
      cases hx
      exact absurd hen he

theorem DirSet.ValidateDirs.walk_weaker (n : Nat) (dirs : List Dir) :
    Weaker (ValidateDirs.walk n dirs) dirs := by
  induction n generalizing dirs with
  | zero => exact Weaker.refl _
  | succ n ih => exact (ih _).trans (ValidateDirs.step_weaker dirs n)

/-- A descriptor at a visited position that is still enabled after the walk
had every requirement registered and enabled when the walk began. -/
theorem DirSet.ValidateDirs.walk_enabled (n : Nat) (dirs : List Dir) (i : Nat) (hi : i < n)
    (x : Dir) (hx : (ValidateDirs.walk n dirs).get? i = some x) (hen : x.Enabled = true) :
    ∀ r ∈ x.Requires, reqEnabled dirs r.1 = true := by
  induction n generalizing dirs with
  | zero => cases hi
  | succ n ih =>
    have hw := ValidateDirs.walk_weaker n (ValidateDirs.step dirs n)
    have hs := ValidateDirs.step_weaker dirs n
    rcases Nat.lt_succ_iff_lt_or_eq.1 hi with hlt | rfl
    · intro r hr
      exact hs.reqEnabled _ (ih _ hlt hx r hr)
    · obtain ⟨y, hy, hxy⟩ := hw.get? i x hx
      have := (hxy.enabled hen).2
      subst this
      exact ValidateDirs.step_enabled dirs i x hy hen

theorem DirSet.ValidateDirs_weaker (dirs : List Dir) : Weaker (ValidateDirs dirs) dirs :=
  ValidateDirs.walk_weaker _ _

theorem DirSet.ValidateDirs_enabled (dirs : List Dir) (x : Dir) (hx : x ∈ ValidateDirs dirs)
    (hen : x.Enabled = true) : ∀ r ∈ x.Requires, reqEnabled dirs r.1 = true := by
  obtain ⟨i, hi, hget⟩ := List.mem_iff_getElem.1 hx
  have hlen : (ValidateDirs dirs).length = dirs.length := (ValidateDirs_weaker dirs).length
  refine ValidateDirs.walk_enabled dirs.length dirs i (hlen ▸ hi) x ?_ hen
  show (ValidateDirs dirs).get? i = some x
  rw [List.get?_eq_getElem?, List.getElem?_eq_getElem hi, hget]

theorem DirSet.DisableDir_dirs (s : DirSet) (label : String) :
    (s.DisableDir label).m_dirs =
      updateByLabel (fun x => (x.SetEnabled false).2) label s.m_dirs := by
  unfold DirSet.DisableDir
  cases hd : findByLabel s.m_dirs label with
  | none => simp only [updateByLabel_none hd]
  | some d =>
    by_cases he : d.m_enabled = true
    · simp [Dir.SetEnabled, he]
    · have he' : d.m_enabled = false := by simpa using he
      have hsame : updateByLabel (fun x => (x.SetEnabled false).2) label s.m_dirs = s.m_dirs := by
        apply updateByLabel_id hd
        have := Dir.SetEnabled_same d
        rw [he'] at this
        exact this
      rw [hsame]
      simp [Dir.SetEnabled, he']

/-- After `DisableDir b` and one `ValidateDirs`, no enabled descriptor carries
the label `b` or the label of a directory that lists `b` in its requires map. -/
theorem DirSet.disable_then_validate (s : DirSet) (m b : String) (dm : Dir)
    (hnodup : (s.m_dirs.map Dir.LabelKey).Nodup)
    (hm : findByLabel s.m_dirs m = some dm)
    (hreq : b ∈ dm.Requires.map Prod.fst)
    (hb : (findByLabel s.m_dirs b).isSome = true)
    (x : Dir) (hx : x ∈ ValidateDirs (s.DisableDir b).m_dirs) (hen : x.Enabled = true) :
    x.m_label_key ≠ b ∧ x.m_label_key ≠ m := by
  have hw1 : Weaker (s.DisableDir b).m_dirs s.m_dirs := by
    rw [DirSet.DisableDir_dirs]; exact updateByLabel_weaker _ _
  have hw2 := DirSet.ValidateDirs_weaker (s.DisableDir b).m_dirs
  have hw := hw2.trans hw1
  have hnd : ((ValidateDirs (s.DisableDir b).m_dirs).map Dir.LabelKey).Nodup := by
    rw [hw.labels]; exact hnodup
  have hfx := findByLabel_of_mem_nodup hnd hx
  obtain ⟨db, hdb⟩ := Option.isSome_iff_exists.1 hb
  have hb1 : findByLabel (s.DisableDir b).m_dirs b = some (db.SetEnabled false).2 := by
    rw [DirSet.DisableDir_dirs, findByLabel_update_self (fun x => Dir.SetEnabled_label x false), hdb]
    rfl
  have hbdis : reqEnabled (s.DisableDir b).m_dirs b = false := by
    unfold reqEnabled
    rw [hb1]
    exact Dir.SetEnabled_enabled db false
  have hne_b : x.m_label_key ≠ b := by
    intro hxb
    obtain ⟨x', hx', hxw⟩ := (hw2.findByLabel b).2 _ hb1
    rw [hxb, hx'] at hfx
    cases hfx
    have := (hxw.enabled hen).1
    rw [Dir.Enabled, Dir.SetEnabled_enabled] at this
    cases this
  refine ⟨hne_b, ?_⟩
  intro hxm
  obtain ⟨x', hx', hxw⟩ := (hw.findByLabel m).2 _ hm
  rw [hxm, hx'] at hfx
  have hxx : x' = x := Option.some.inj hfx
  subst hxx
  obtain ⟨r, hr, hrb⟩ := List.mem_map.1 hreq
  have hall := DirSet.ValidateDirs_enabled _ x' hx hen r (hxw.requires ▸ hr)
  rw [hrb, hbdis] at hall
  cases hall

/-- C8: in a registry (labels unique) where `m` lists `b` in its requires map
and both are enabled, `DisableDir b` followed by `GetDirs(true)` returns a
list that contains neither `b` nor `m`, and `m` is disabled afterwards. -/
theorem C8_disabled_prerequisite_cascade (s : DirSet) (m b : String) (dm db : Dir)
    (hnodup : (s.m_dirs.map Dir.LabelKey).Nodup)
    (hm : findByLabel s.m_dirs m = some dm) (hb : findByLabel s.m_dirs b = some db)
    (hreq : b ∈ dm.Requires.map Prod.fst)
    (_hme : dm.Enabled = true) (_hbe : db.Enabled = true) :
    b ∉ ((s.DisableDir b).GetDirs true).1 ∧ m ∉ ((s.DisableDir b).GetDirs true).1 ∧
    ∃ e, findByLabel ((s.DisableDir b).GetDirs true).2.m_dirs m = some e ∧ e.Enabled = false := by
  have key := DirSet.disable_then_validate s m b dm hnodup hm hreq (by rw [hb]; rfl)
  have hlab : ∀ l, l ∈ ((s.DisableDir b).GetDirs true).1 →
      ∃ x ∈ DirSet.ValidateDirs (s.DisableDir b).m_dirs, x.Enabled = true ∧ x.m_label_key = l := by
    intro l hl
    simp only [DirSet.GetDirs, List.mem_map, List.mem_filter] at hl
    obtain ⟨x, ⟨hx, hen⟩, hxl⟩ := hl
    exact ⟨x, hx, by simpa using hen, hxl⟩
  refine ⟨?_, ?_, ?_⟩
  · intro hin
    obtain ⟨x, hx, hen, hxl⟩ := hlab b hin
    exact (key x hx hen).1 hxl
  · intro hin
    obtain ⟨x, hx, hen, hxl⟩ := hlab m hin
    exact (key x hx hen).2 hxl
  · have hw : Weaker (DirSet.ValidateDirs (s.DisableDir b).m_dirs) s.m_dirs := by
      refine (DirSet.ValidateDirs_weaker _).trans ?_
      rw [DirSet.DisableDir_dirs]; exact updateByLabel_weaker _ _
    obtain ⟨e, he, _⟩ := (hw.findByLabel m).2 _ hm
    refine ⟨e, he, ?_⟩
    cases hen : e.Enabled with
    | false => rfl
    | true => exact absurd (findByLabel_label he) (key e (findByLabel_mem he) hen).2

/-- C8 at the registry `base`, `mod`, `top` (all enabled) with `m = mod` and
`b = base`. -/
theorem C8_disabled_prerequisite_cascade_witness :
    "base" ∉ ((fixtureChain.DisableDir "base").GetDirs true).1 ∧
    "mod" ∉ ((fixtureChain.DisableDir "base").GetDirs true).1 ∧
    ∃ e, findByLabel ((fixtureChain.DisableDir "base").GetDirs true).2.m_dirs "mod" = some e ∧
      e.Enabled = false :=
  C8_disabled_prerequisite_cascade fixtureChain "mod" "base"
    { fixtureMod with m_enabled := true, m_depth := 1 } { fixtureBase with m_enabled := true }
    (by decide) (by decide) (by decide) (by decide) (by decide) (by decide)

/-- C6, counterexample: `base` is registered and enabled with a version lower
than the minimum version "2.0.0" that `mod` records for it, and `EnableDir mod`
enables `mod` all the same. -/
theorem C6_version_mismatch_not_refused :
    (∃ p v, findByLabel fixtureVersioned.m_dirs "base" = some p ∧ p.Enabled = true ∧
        ("base", "2.0.0") ∈ fixtureModVersioned.Requires ∧
        SemVerFromString "2.0.0" = some v ∧ SemVer.lt p.Version v = true) ∧
    findByLabel fixtureVersioned.m_dirs "mod" = some fixtureModVersioned ∧
    fixtureModVersioned.Enabled = false ∧
    ∃ e, findByLabel (fixtureVersioned.EnableDir "mod").m_dirs "mod" = some e ∧
      e.Enabled = true := by
  refine ⟨⟨{ fixtureBase with m_enabled := true }, ⟨2, 0, 1, ""⟩, ?_, ?_, ?_, ?_, ?_⟩, ?_, ?_,
    ⟨{ fixtureModVersioned with m_enabled := true, m_depth := 1 }, ?_, ?_⟩⟩ <;> decide

/-- C6, amended: for a registered, disabled directory `label`, `EnableDir`
enables it if and only if every label of its requires map is registered and
enabled; the versions of the prerequisites and the recorded minimum version
strings play no part. -/
theorem C6_enable_ignores_versions (s : DirSet) (label : String) (d : Dir)
    (hd : findByLabel s.m_dirs label = some d) (hdis : d.Enabled = false) :
    (∃ e, findByLabel (s.EnableDir label).m_dirs label = some e ∧ e.Enabled = true) ↔
      ∀ r ∈ d.Requires, ∃ p, findByLabel s.m_dirs r.1 = some p ∧ p.Enabled = true := by
  have hiff : RequirementsMet s.m_dirs d ↔
      ∀ r ∈ d.Requires, ∃ p, findByLabel s.m_dirs r.1 = some p ∧ p.Enabled = true := by
    unfold RequirementsMet reqEnabled
    constructor
    · intro h r hr
      have := h r hr
      split at this
      · rename_i p hp; exact ⟨p, hp, this⟩
      · cases this
    · intro h r hr
      obtain ⟨p, hp, he⟩ := h r hr
      simp [hp, he]
  rw [← hiff]
  have hdis' : d.m_enabled = false := hdis
  constructor
  · rintro ⟨e, he, hen⟩
    by_contra hmet
    rw [DirSet.EnableDir_unmet s label d hd hdis hmet, hd] at he
    cases he
    rw [hdis] at hen
    cases hen
  · intro hmet
    have he := DirSet.EnableDir_met s label d hd hmet
    rw [if_neg (by simp [hdis'])] at he
    rw [he]
    refine ⟨((d.SetDepth (reqDepth s.m_dirs d.Requires 0)).SetEnabled true).2, ?_,
      Dir.SetEnabled_enabled _ _⟩
    show findByLabel (updateByLabel _ label (updateByLabel _ label s.m_dirs)) label = _
    rw [findByLabel_update_self (fun x => Dir.SetEnabled_label x true),
      findByLabel_update_self (f := fun x => x.SetDepth (reqDepth s.m_dirs d.Requires 0))
        (fun _ => rfl), hd]
    rfl

/-- C6 amended, at the registry where `mod` records the minimum version
"2.0.0" for the enabled `base` of version "1.0.0": `mod` gets enabled. -/
theorem C6_enable_ignores_versions_witness :
    ∃ e, findByLabel (fixtureVersioned.EnableDir "mod").m_dirs "mod" = some e ∧
      e.Enabled = true :=
  (C6_enable_ignores_versions fixtureVersioned "mod" fixtureModVersioned
    (by decide) (by decide)).2
    (by
      intro r hr
      have hreqs : fixtureModVersioned.Requires = [("base", "2.0.0")] := by decide
      rw [hreqs] at hr
      have hr' : r = ("base", "2.0.0") := by simpa using hr
      subst hr'
      exact ⟨{ fixtureBase with m_enabled := true }, by decide, by decide⟩)

/-! ## The file system of the fixtures, as util/VFS/Node.cpp computes it -/

/-- Every call that `RefreshCache` makes on the fixture directories returns
the value `fixtureFS` holds and leaves the node manager `fixtureNodes` as it
is: the enumeration of the three content directories, and the portion of each
enumerated path from its directory. -/
theorem fixtureNodes_saturated :
    Node.PathsInDir fixtureContentEnv fixtureNodes ["/", "content", "base"]
      = some ([["/", "content", "base", "a"], ["/", "content", "base", "a", "b.txt"]],
          fixtureNodes) ∧
    Node.PathsInDir fixtureContentEnv fixtureNodes ["/", "content", "mod"]
      = some ([["/", "content", "mod", "a"], ["/", "content", "mod", "a", "b.txt"]],
          fixtureNodes) ∧
    Node.PathsInDir fixtureContentEnv fixtureNodes ["/", "content", "top"]
      = some ([["/", "content", "top", "c.txt"]], fixtureNodes) ∧
    Node.PathPortionFrom fixtureContentEnv.toEnv fixtureNodes
      ["/", "content", "base", "a"] ["/", "content", "base"] = (["a"], fixtureNodes) ∧
    Node.PathPortionFrom fixtureContentEnv.toEnv fixtureNodes
      ["/", "content", "base", "a", "b.txt"] ["/", "content", "base"]
      = (["a", "b.txt"], fixtureNodes) ∧
    Node.PathPortionFrom fixtureContentEnv.toEnv fixtureNodes
      ["/", "content", "mod", "a"] ["/", "content", "mod"] = (["a"], fixtureNodes) ∧
    Node.PathPortionFrom fixtureContentEnv.toEnv fixtureNodes
      ["/", "content", "mod", "a", "b.txt"] ["/", "content", "mod"]
      = (["a", "b.txt"], fixtureNodes) ∧
    Node.PathPortionFrom fixtureContentEnv.toEnv fixtureNodes
      ["/", "content", "top", "c.txt"] ["/", "content", "top"] = (["c.txt"], fixtureNodes) := by
  decide

/-- The same calls on the empty node manager, in the order of a rebuild that
visits `top` alone: the enumeration creates the nodes `/content`, `top` and
`c.txt`, the path of the directory node is `/content/top`, and the portion of
the enumerated path is `c.txt`. -/
theorem fixtureFS_from_empty_manager :
    (Node.PathsInDir fixtureContentEnv Node.Manager.Impl.empty ["/", "content", "top"]).map
      (fun r => (r.1, r.2.m_path_nodes.map r.2.PathOf))
      = some ([["/", "content", "top", "c.txt"]],
          [["/", "content"], ["/", "content", "top"], ["/", "content", "top", "c.txt"]]) ∧
    (Node.PathsInDir fixtureContentEnv Node.Manager.Impl.empty ["/", "content", "top"]).map
      (fun r => (Node.PathPortionFrom fixtureContentEnv.toEnv r.2
        ["/", "content", "top", "c.txt"] ["/", "content", "top"]).1)
      = some ["c.txt"] := by
  decide

/-! ## Evaluations of the registry on the fixtures -/

/-- C1, failing input: after `add` and `enable` of `base`, `mod`, `top`, then
`disable(base)`, `get_path("c.txt")` and `get_labels(true)`, no directory is
enabled and the dirty flag is clear, yet `get_path("c.txt")` still returns the
copy of the disabled directory `top` instead of the empty path. -/
theorem C1_get_path_stale_entry :
    (∀ d ∈ fixtureAfterGetDirs.m_dirs, d.Enabled = false) ∧
    fixtureAfterGetDirs.m_requires_refresh = false ∧
    (DirSet.GetPath fixtureFS fixtureAfterGetDirs ["c.txt"]).1
      = ["/", "content", "top", "c.txt"] ∧
    (DirSet.GetPath fixtureFS fixtureAfterGetDirs ["c.txt"]).1 ≠ EMPTY_PATH := by
  decide

/-- C2, failing input: `mod` registered before `base`, both enabled, `base`
at depth 0 and `mod` at depth 1, both holding `a/b.txt`, no explicit paths:
the depth index is still in registration order and `get_path("a/b.txt")`
rebuilds the cache and returns the copy of `base`. -/
theorem C2_get_path_returns_base_copy :
    fixtureModFirst.m_dirs =
      [{ fixtureMod with m_enabled := true, m_depth := 1 },
       { fixtureBase with m_enabled := true, m_depth := 0 }] ∧
    fixtureModFirst.m_requires_refresh = true ∧
    (DirSet.GetPath fixtureFS fixtureModFirst ["a", "b.txt"]).1
      = ["/", "content", "base", "a", "b.txt"] := by
  decide

/-- C4, failing input: on the registry of C2 the rebuilt cache maps `a/b.txt`
to the copy of `base`, which does not list it as explicit and is not the first
enabled directory in descending depth that holds it (`mod`, at depth 1, is). -/
theorem C4_cache_entry_from_shallower_dir :
    (DirSet.RefreshCache fixtureFS fixtureModFirst).m_cache =
      [(["a"], ["/", "content", "base", "a"]),
       (["a", "b.txt"], ["/", "content", "base", "a", "b.txt"])] ∧
    fixtureBase.IsExplicit ["a", "b.txt"] = false ∧
    (∃ m b, findByLabel (DirSet.RefreshCache fixtureFS fixtureModFirst).m_dirs "mod" = some m ∧
      findByLabel (DirSet.RefreshCache fixtureFS fixtureModFirst).m_dirs "base" = some b ∧
      m.Enabled = true ∧ b.Enabled = true ∧ b.ReqDepth < m.ReqDepth ∧
      ["/", "content", "mod", "a", "b.txt"] ∈ fixtureFS.PathsInDir m.Path ∧
      fixtureFS.PathPortionFrom ["/", "content", "mod", "a", "b.txt"] m.Path
        = ["a", "b.txt"]) := by
  refine ⟨by decide, by decide,
    { fixtureMod with m_enabled := true, m_depth := 1 },
    { fixtureBase with m_enabled := true, m_depth := 0 }, ?_⟩
  decide

/-- C9, failing input: on the chain `base`, `mod`, `top` (all enabled) with
`base` disabled, one run of `ValidateDirs` disables `mod` and leaves `top`
enabled although its requirement `mod` is now disabled. -/
theorem C9_validate_dirs_leaves_broken_chain :
    ∃ t, findByLabel (DirSet.ValidateDirs (fixtureChain.DisableDir "base").m_dirs) "top" = some t ∧
      t.Enabled = true ∧ ("mod", "") ∈ t.Requires ∧
      reqEnabled (DirSet.ValidateDirs (fixtureChain.DisableDir "base").m_dirs) "mod" = false := by
  refine ⟨{ fixtureTop with m_enabled := true, m_depth := 2 }, ?_⟩
  decide

/-! ## `DirPathCache` and `RefreshCache` -/

theorem DirPathCache.find_append (c : DirPathCache) (k v k' : path_type) :
    DirPathCache.find (c ++ [(k, v)]) k' =
      match DirPathCache.find c k' with
      | some x => some x
      | none => if k = k' then some v else none := by
  induction c with
  | nil => simp [DirPathCache.find]
  | cons e rest ih =>
    obtain ⟨a, b⟩ := e
    simp only [List.cons_append, DirPathCache.find]
    split
    · rfl
    · exact ih

theorem DirPathCache.find_assign (c : DirPathCache) (k v k' : path_type) :
    DirPathCache.find (DirPathCache.assign c k v) k' =
      if k = k' then (DirPathCache.find c k).map (fun _ => v) else DirPathCache.find c k' := by
  induction c with
  | nil => simp [DirPathCache.find, DirPathCache.assign]
  | cons e rest ih =>
    obtain ⟨a, b⟩ := e
    simp only [DirPathCache.assign]
    by_cases hak : a = k
    · subst hak
      by_cases hk : a = k'
      · subst hk; simp [DirPathCache.find]
      · simp [DirPathCache.find, hk]
    · by_cases hk : k = k'
      · subst hk
        simp [DirPathCache.find, hak, ih]
      · simp only [hak, if_false, DirPathCache.find, ih, hk]

theorem DirPathCache.find_InsertPath (c : DirPathCache) (k v k' : path_type) :
    DirPathCache.find (DirPathCache.InsertPath c k v).2 k' =
      match DirPathCache.find c k' with
      | some x => some x
      | none => if k = k' then some v else none := by
  unfold DirPathCache.InsertPath
  cases hk : DirPathCache.find c k with
  | some x =>
    simp only
    cases hk' : DirPathCache.find c k' with
    | some y => rfl
    | none =>
      have : k ≠ k' := by rintro rfl; rw [hk] at hk'; cases hk'
      simp [this]
  | none => exact DirPathCache.find_append c k v k'

theorem DirPathCache.find_InsertOrAssignPath (c : DirPathCache) (k v k' : path_type) :
    DirPathCache.find (DirPathCache.InsertOrAssignPath c k v) k' =
      if k = k' then some v else DirPathCache.find c k' := by
  unfold DirPathCache.InsertOrAssignPath
  cases hk : DirPathCache.find c k with
  | some x =>
    simp only [DirPathCache.find_assign, hk, Option.map_some']
  | none =>
    rw [DirPathCache.find_append]
    by_cases h : k = k'
    · subst h; simp [hk]
    · simp only [h, if_false]
      cases DirPathCache.find c k' <;> rfl

theorem reqDepth_congr (dirs dirs' : List Dir) (reqs : List (String × String)) (acc : Nat)
    (h : ∀ r ∈ reqs, (findByLabel dirs' r.1).map Dir.ReqDepth =
      (findByLabel dirs r.1).map Dir.ReqDepth) :
    reqDepth dirs' reqs acc = reqDepth dirs reqs acc := by
  induction reqs generalizing acc with
  | nil => rfl
  | cons req reqs ih =>
    have h1 := h req (List.mem_cons_self _ _)
    have h2 : ∀ r ∈ reqs, (findByLabel dirs' r.1).map Dir.ReqDepth =
        (findByLabel dirs r.1).map Dir.ReqDepth := fun r hr => h r (List.mem_cons_of_mem _ hr)
    unfold reqDepth
    cases hp : findByLabel dirs req.1 with
    | none =>
      rw [hp] at h1
      cases hp' : findByLabel dirs' req.1 with
      | none => exact ih acc h2
      | some p' => rw [hp'] at h1; cases h1
    | some p =>
      rw [hp] at h1
      cases hp' : findByLabel dirs' req.1 with
      | none => rw [hp'] at h1; cases h1
      | some p' =>
        rw [hp'] at h1
        simp only [Option.map_some', Option.some.injEq] at h1
        simp only [h1]
        exact ih _ h2

theorem reqDepth_ge_acc (dirs : List Dir) (reqs : List (String × String)) (acc : Nat) :
    acc ≤ reqDepth dirs reqs acc := by
  induction reqs generalizing acc with
  | nil => exact Nat.le_refl _
  | cons req reqs ih =>
    unfold reqDepth
    split
    · exact ih acc
    · exact Nat.le_trans (Nat.le_max_left _ _) (ih _)

theorem reqDepth_ge (dirs : List Dir) (reqs : List (String × String)) (acc : Nat)
    (r : String × String) (hr : r ∈ reqs) (p : Dir) (hp : findByLabel dirs r.1 = some p) :
    p.ReqDepth + 1 ≤ reqDepth dirs reqs acc := by
  induction reqs generalizing acc with
  | nil => cases hr
  | cons req reqs ih =>
    unfold reqDepth
    rcases List.mem_cons.1 hr with rfl | hmem
    · rw [hp]
      exact Nat.le_trans (Nat.le_max_right _ _) (reqDepth_ge_acc _ _ _)
    · split
      · exact ih acc hmem
      · exact ih _ hmem

theorem reqDepth_attained (dirs : List Dir) (reqs : List (String × String)) (acc : Nat) :
    reqDepth dirs reqs acc = acc ∨
      ∃ r ∈ reqs, ∃ p, findByLabel dirs r.1 = some p ∧ reqDepth dirs reqs acc = p.ReqDepth + 1 := by
  induction reqs generalizing acc with
  | nil => exact Or.inl rfl
  | cons req reqs ih =>
    unfold reqDepth
    cases hp : findByLabel dirs req.1 with
    | none =>
      rcases ih acc with h | ⟨r, hr, p, hp', h⟩
      · exact Or.inl h
      · exact Or.inr ⟨r, List.mem_cons_of_mem _ hr, p, hp', h⟩
    | some q =>
      simp only
      rcases ih (max acc (q.ReqDepth + 1)) with h | ⟨r, hr, p, hp', h⟩
      · rcases Nat.le_total acc (q.ReqDepth + 1) with hle | hle
        · right
          exact ⟨req, List.mem_cons_self _ _, q, hp, by rw [h, Nat.max_eq_right hle]⟩
        · left
          rw [h, Nat.max_eq_left hle]
      · exact Or.inr ⟨r, List.mem_cons_of_mem _ hr, p, hp', h⟩

theorem reqDepth_pos (dirs : List Dir) (reqs : List (String × String)) (hne : reqs ≠ [])
    (h : ∀ r ∈ reqs, ∃ p, findByLabel dirs r.1 = some p) : 0 < reqDepth dirs reqs 0 := by
  cases reqs with
  | nil => exact absurd rfl hne
  | cons req reqs =>
    obtain ⟨p, hp⟩ := h req (List.mem_cons_self _ _)
    exact Nat.lt_of_lt_of_le (Nat.succ_pos _) (reqDepth_ge dirs _ 0 req (List.mem_cons_self _ _) p hp)

/-! ## Preservation of the invariant -/

theorem GoodIn.of_eq {dirs : List Dir} {x y : Dir} (h : GoodIn dirs y)
    (hr : x.Requires = y.Requires) (hdep : x.m_depth = y.m_depth) : GoodIn dirs x := by
  unfold GoodIn at h ⊢
  rw [hr, hdep]
  exact h

/-- The invariant moves from `dirs` to `dirs'` when lookups of descriptors
with a final depth keep their depth and stay final, and every descriptor of
`dirs'` with a final depth is consistent with `dirs`. -/
theorem Inv.transfer (dirs : List Dir) {dirs' : List Dir}
    (hnodup : (dirs'.map Dir.LabelKey).Nodup)
    (K : ∀ M p, findByLabel dirs M = some p → Stable p →
      ∃ p', findByLabel dirs' M = some p' ∧ p'.m_depth = p.m_depth ∧ Stable p')
    (hmem : ∀ x ∈ dirs', Stable x → GoodIn dirs x) : Inv dirs' := by
  refine ⟨hnodup, ?_⟩
  intro x hx hst
  obtain ⟨hdep, hreqs⟩ := hmem x hx hst
  refine ⟨?_, ?_⟩
  · rw [hdep]
    symm
    apply reqDepth_congr
    intro r hr
    obtain ⟨p, hp, hps⟩ := hreqs r hr
    obtain ⟨p', hp', hd, _⟩ := K r.1 p hp hps
    rw [hp, hp']
    simp [Dir.ReqDepth, hd]
  · intro r hr
    obtain ⟨p, hp, hps⟩ := hreqs r hr
    obtain ⟨p', hp', _, hst'⟩ := K r.1 p hp hps
    exact ⟨p', hp', hst'⟩

theorem Weaker.mem {a b : List Dir} (h : Weaker a b) (x : Dir) (hx : x ∈ a) :
    ∃ y ∈ b, DirWeaker x y := by
  induction h with
  | nil => cases hx
  | @cons x' y' xs ys hxy _ ih =>
    rcases List.mem_cons.1 hx with rfl | hmem
    · exact ⟨y', List.mem_cons_self _ _, hxy⟩
    · obtain ⟨y, hy, hw⟩ := ih hmem
      exact ⟨y, List.mem_cons_of_mem _ hy, hw⟩

theorem DirWeaker.stable {x y : Dir} (h : DirWeaker x y) (hs : Stable x) : Stable y := by
  rcases h with rfl | rfl
  · exact hs
  · rcases hs with h1 | h2 | h3
    · exact Or.inl h1
    · cases h2
    · exact Or.inr (Or.inr h3)

/-- Clearing enabled flags preserves the invariant. -/
theorem Inv.weaker {dirs dirs' : List Dir} (hinv : Inv dirs) (hw : Weaker dirs' dirs) :
    Inv dirs' := by
  apply Inv.transfer dirs
  · rw [hw.labels]; exact hinv.nodup
  · intro M p hp hps
    obtain ⟨p', hp', hpw⟩ := (hw.findByLabel M).2 p hp
    refine ⟨p', hp', hpw.depth, ?_⟩
    rcases hpw with rfl | rfl
    · exact hps
    · by_cases hreq : p.Requires = []
      · exact Or.inl hreq
      · right; right
        show p.m_depth ≠ 0
        obtain ⟨hdep, hreqs⟩ := hinv.good p (findByLabel_mem hp) hps
        have hpos := reqDepth_pos dirs p.Requires hreq
          (fun r hr => let ⟨q, hq, _⟩ := hreqs r hr; ⟨q, hq⟩)
        rw [hdep]
        exact Nat.ne_of_gt hpos
  · intro x hx hst
    obtain ⟨y, hy, hxy⟩ := hw.mem x hx
    exact (hinv.good y hy (hxy.stable hst)).of_eq hxy.requires hxy.depth

theorem findByLabel_append (pre post : List Dir) (label : String) :
    findByLabel (pre ++ post) label =
      match findByLabel pre label with
      | some x => some x
      | none => findByLabel post label := by
  induction pre with
  | nil => rfl
  | cons x xs ih =>
    simp only [List.cons_append, findByLabel]
    split
    · rfl
    · exact ih

theorem findByLabel_insert (pre post : List Dir) (d : Dir) (label : String) (p : Dir)
    (hfresh : findByLabel (pre ++ post) d.m_label_key = none)
    (hp : findByLabel (pre ++ post) label = some p) :
    findByLabel (pre ++ d :: post) label = some p := by
  have hne : d.m_label_key ≠ label := by
    intro h; rw [h, hp] at hfresh; cases hfresh
  rw [findByLabel_append] at hp ⊢
  cases hpre : findByLabel pre label with
  | some x => rw [hpre] at hp; exact hp
  | none =>
    rw [hpre] at hp
    simp only at hp ⊢
    unfold findByLabel
    rw [if_neg hne]
    exact hp

theorem findByLabel_none_iff (dirs : List Dir) (label : String) :
    findByLabel dirs label = none ↔ label ∉ dirs.map Dir.LabelKey := by
  induction dirs with
  | nil => simp [findByLabel]
  | cons x xs ih =>
    unfold findByLabel
    by_cases h : x.m_label_key = label
    · simp [h, Dir.LabelKey]
    · simp only [h, if_false, ih, List.map_cons, List.mem_cons, not_or, Dir.LabelKey]
      constructor
      · intro h2; exact ⟨fun h3 => h h3.symm, h2⟩
      · intro h2; exact h2.2

/-- Registering a fresh descriptor preserves the invariant. -/
theorem Inv.insert {pre post : List Dir} (hinv : Inv (pre ++ post)) (d : Dir)
    (hdis : d.m_enabled = false) (hdep : d.m_depth = 0)
    (hfresh : findByLabel (pre ++ post) d.m_label_key = none) : Inv (pre ++ d :: post) := by
  apply Inv.transfer (pre ++ post)
  · have hn := hinv.nodup
    have hf := (findByLabel_none_iff _ _).1 hfresh
    rw [List.map_append] at hn hf
    rw [List.map_append, List.map_cons]
    have hperm : List.Perm (List.map Dir.LabelKey pre ++ d.LabelKey :: List.map Dir.LabelKey post)
        (d.LabelKey :: (List.map Dir.LabelKey pre ++ List.map Dir.LabelKey post)) :=
      List.perm_middle
    rw [hperm.nodup_iff, List.nodup_cons]
    exact ⟨hf, hn⟩
  · intro M p hp hps
    exact ⟨p, findByLabel_insert pre post d M p hfresh hp, rfl, hps⟩
  · intro x hx hst
    have hx' : x = d ∨ x ∈ pre ++ post := by
      simp only [List.mem_append, List.mem_cons] at hx ⊢
      tauto
    rcases hx' with rfl | hx'
    · have hreq : x.Requires = [] := by
        rcases hst with h | h | h
        · exact h
        · rw [Dir.Enabled, hdis] at h; cases h
        · exact absurd hdep h
      refine ⟨?_, ?_⟩
      · rw [hreq, hdep]; rfl
      · rw [hreq]; intro r hr; cases hr
    · exact hinv.good x hx' hst

theorem mem_updateByLabel (f : Dir → Dir) (label : String) (dirs : List Dir) (x : Dir)
    (hx : x ∈ updateByLabel f label dirs) :
    x ∈ dirs ∨ ∃ y, findByLabel dirs label = some y ∧ x = f y := by
  induction dirs with
  | nil => cases hx
  | cons z zs ih =>
    unfold updateByLabel at hx
    unfold findByLabel
    by_cases hz : z.m_label_key = label
    · simp only [hz, if_true] at hx ⊢
      rcases List.mem_cons.1 hx with rfl | hmem
      · exact Or.inr ⟨z, rfl, rfl⟩
      · exact Or.inl (List.mem_cons_of_mem _ hmem)
    · simp only [hz, if_false] at hx ⊢
      rcases List.mem_cons.1 hx with rfl | hmem
      · exact Or.inl (List.mem_cons_self _ _)
      · rcases ih hmem with h | h
        · exact Or.inl (List.mem_cons_of_mem _ h)
        · exact Or.inr h

theorem updateByLabel_labels (f : Dir → Dir) (hf : ∀ d, (f d).m_label_key = d.m_label_key)
    (label : String) (dirs : List Dir) :
    (updateByLabel f label dirs).map Dir.LabelKey = dirs.map Dir.LabelKey := by
  induction dirs with
  | nil => rfl
  | cons z zs ih =>
    unfold updateByLabel
    split
    · simp [Dir.LabelKey, hf]
    · simp [ih]

theorem updateByLabel_comp (f g : Dir → Dir) (hg : ∀ d, (g d).m_label_key = d.m_label_key)
    (label : String) (dirs : List Dir) :
    updateByLabel f label (updateByLabel g label dirs) =
      updateByLabel (fun x => f (g x)) label dirs := by
  induction dirs with
  | nil => rfl
  | cons z zs ih =>
    by_cases hz : z.m_label_key = label
    · simp [updateByLabel, hz, hg]
    · simp [updateByLabel, hz, ih]

/-- An in-place update that gives the descriptor under `label` the depth
`ValidateDir` computes and leaves it enabled preserves the invariant, when all
requirements of that descriptor are registered and enabled. -/
theorem Inv.enable {dirs : List Dir} (hinv : Inv dirs) (label : String) (d : Dir)
    (hd : findByLabel dirs label = some d) (hmet : RequirementsMet dirs d) (f : Dir → Dir)
    (hfl : ∀ x, (f x).m_label_key = x.m_label_key)
    (hfr : ∀ x, (f x).Requires = x.Requires)
    (hfd : ∀ x, (f x).m_depth = reqDepth dirs d.Requires 0)
    (hfe : (f d).Enabled = true) : Inv (updateByLabel f label dirs) := by
  apply Inv.transfer dirs
  · rw [updateByLabel_labels f hfl]; exact hinv.nodup
  · intro M p hp hps
    by_cases hM : M = label
    · subst hM
      rw [hd] at hp
      cases hp
      refine ⟨f d, ?_, ?_, Or.inr (Or.inl hfe)⟩
      · rw [findByLabel_update_self hfl, hd]; rfl
      · rw [hfd]
        exact (hinv.good d (findByLabel_mem hd) hps).1.symm
    · exact ⟨p, by rw [findByLabel_update_ne hfl hM, hp], rfl, hps⟩
  · intro x hx hst
    rcases mem_updateByLabel f label dirs x hx with hmem | ⟨y, hy, rfl⟩
    · exact hinv.good x hmem hst
    · rw [hd] at hy
      cases hy
      refine ⟨?_, ?_⟩
      · rw [hfd, hfr]
      · rw [hfr]
        intro r hr
        have hen := hmet r hr
        unfold reqEnabled at hen
        split at hen
        · rename_i p hp
          exact ⟨p, hp, Or.inr (Or.inl hen)⟩
        · cases hen

theorem DirSet.EnableDir_unmet_dirs (s : DirSet) (label : String) (d : Dir)
    (hd : findByLabel s.m_dirs label = some d) (hmet : ¬ RequirementsMet s.m_dirs d) :
    (s.EnableDir label).m_dirs = s.m_dirs ∨
    (s.EnableDir label).m_dirs =
      updateByLabel (fun x => (x.SetEnabled false).2) label s.m_dirs := by
  have hl : d.LabelKey = label := findByLabel_label hd
  have hfail := DirSet.ValidateDir.loop_fail s.m_dirs label d.Requires 0 hmet
  have hv : DirSet.ValidateDir s.m_dirs label =
      DirSet.ValidateDir.loop s.m_dirs label d.Requires 0 := by
    unfold DirSet.ValidateDir; simp only [hd]
  have he : (s.EnableDir label).m_dirs =
      (DirSet.ValidateDir.loop s.m_dirs label d.Requires 0).2 := by
    unfold DirSet.EnableDir
    simp only [hd, hl, hv, hfail.1, Bool.not_false, if_true]
  rw [he]
  exact hfail.2

/-- Every reachable registry satisfies the invariant. -/
theorem Reachable.inv {fs : FileSystem} {s : DirSet} (h : Reachable fs s) : Inv s.m_dirs := by
  induction h with
  | empty => exact ⟨List.nodup_nil, fun x hx => by cases hx⟩
  | add s dir pre post _ hdis hdep hfresh hsplit ih =>
    rw [hsplit] at ih hfresh
    exact ih.insert dir hdis hdep hfresh
  | enable s label _ ih =>
    cases hd : findByLabel s.m_dirs label with
    | none =>
      have : s.EnableDir label = s := by unfold DirSet.EnableDir; simp only [hd]
      rw [this]; exact ih
    | some d =>
      by_cases hmet : RequirementsMet s.m_dirs d
      · rw [DirSet.EnableDir_met s label d hd hmet]
        by_cases hen : d.m_enabled = true
        · rw [if_pos hen]
          exact ih.enable label d hd hmet _ (fun _ => rfl) (fun _ => rfl) (fun _ => rfl) hen
        · rw [if_neg hen]
          show Inv (updateByLabel _ label (updateByLabel _ label s.m_dirs))
          rw [updateByLabel_comp (fun x => (x.SetEnabled true).2)
            (fun x => x.SetDepth (reqDepth s.m_dirs d.Requires 0)) (fun _ => rfl)]
          exact ih.enable label d hd hmet _
            (fun x => Dir.SetEnabled_label _ true)
            (fun x => Dir.SetEnabled_requires _ true)
            (fun x => Dir.SetEnabled_depth _ true)
            (Dir.SetEnabled_enabled _ true)
      · rcases DirSet.EnableDir_unmet_dirs s label d hd hmet with h | h
        · rw [h]; exact ih
        · rw [h]; exact ih.weaker (updateByLabel_weaker _ _)
  | disable s label _ ih =>
    rw [DirSet.DisableDir_dirs]
    exact ih.weaker (updateByLabel_weaker _ _)
  | getDirs s enabled _ ih =>
    exact ih.weaker (DirSet.ValidateDirs_weaker _)
  | getPath s k _ ih =>
    unfold DirSet.GetPath
    split
    · exact ih
    · unfold DirSet.RefreshCache
      split
      · exact ih
      · exact ih.weaker (DirSet.ValidateDirs_weaker _)

/-- Step `AddDir` keeps a registry reachable when the descriptor is as its
constructor leaves it. -/
theorem Reachable.addDir {fs : FileSystem} {s : DirSet} (h : Reachable fs s) (dir : Dir)
    (hdis : dir.m_enabled = false) (hdep : dir.m_depth = 0) : Reachable fs (s.AddDir dir) := by
  unfold DirSet.AddDir
  cases hf : findByLabel s.m_dirs dir.m_label_key with
  | some _ => exact h
  | none =>
    have hsplit : ∀ dirs : List Dir, ∃ pre post, dirs = pre ++ post ∧
        insertByDepth dir dirs = pre ++ dir :: post := by
      intro dirs
      induction dirs with
      | nil => exact ⟨[], [], rfl, rfl⟩
      | cons x xs ih =>
        unfold insertByDepth
        split
        · exact ⟨[], x :: xs, rfl, rfl⟩
        · obtain ⟨pre, post, h1, h2⟩ := ih
          exact ⟨x :: pre, post, by rw [h1]; rfl, by rw [h2]; rfl⟩
    obtain ⟨pre, post, h1, h2⟩ := hsplit s.m_dirs
    simp only [h2]
    exact Reachable.add s dir pre post h hdis hdep hf h1

/-- The registry `base`, `mod`, `top` (all enabled) is reachable. -/
theorem fixtureChain_reachable : Reachable fixtureFS fixtureChain := by
  unfold fixtureChain
  apply Reachable.enable
  apply Reachable.enable
  apply Reachable.enable
  apply Reachable.addDir _ _ rfl rfl
  apply Reachable.addDir _ _ rfl rfl
  apply Reachable.addDir _ _ rfl rfl
  exact Reachable.empty

/-- C10: in a registry reachable from the empty one, after `ValidateDirs`
every enabled descriptor has depth 0 when its requires map is empty and
otherwise a depth that is 1 + the depth of one of the directories named in
its requires map and at least 1 + the depth of each of them (1 + their
maximum), all of them being registered. -/
theorem C10_depth_of_enabled_dir (fs : FileSystem) (s : DirSet) (h : Reachable fs s)
    (d : Dir) (hd : d ∈ DirSet.ValidateDirs s.m_dirs) (hen : d.Enabled = true) :
    (d.Requires = [] → d.ReqDepth = 0) ∧
    (d.Requires ≠ [] →
      (∀ r ∈ d.Requires, ∃ p, findByLabel (DirSet.ValidateDirs s.m_dirs) r.1 = some p ∧
        p.ReqDepth + 1 ≤ d.ReqDepth) ∧
      (∃ r ∈ d.Requires, ∃ p, findByLabel (DirSet.ValidateDirs s.m_dirs) r.1 = some p ∧
        d.ReqDepth = 1 + p.ReqDepth)) := by
  have hinv : Inv (DirSet.ValidateDirs s.m_dirs) := (Reachable.getDirs s true h).inv
  obtain ⟨hdep, hreqs⟩ := hinv.good d hd (Or.inr (Or.inl hen))
  have hdep' : d.ReqDepth = reqDepth (DirSet.ValidateDirs s.m_dirs) d.Requires 0 := hdep
  refine ⟨?_, ?_⟩
  · intro hnil
    rw [hdep', hnil]
    rfl
  · intro hne
    refine ⟨?_, ?_⟩
    · intro r hr
      obtain ⟨p, hp, _⟩ := hreqs r hr
      exact ⟨p, hp, by rw [hdep']; exact reqDepth_ge _ _ 0 r hr p hp⟩
    · have hpos := reqDepth_pos (DirSet.ValidateDirs s.m_dirs) d.Requires hne
        (fun r hr => let ⟨q, hq, _⟩ := hreqs r hr; ⟨q, hq⟩)
      rcases reqDepth_attained (DirSet.ValidateDirs s.m_dirs) d.Requires 0 with h0 | ⟨r, hr, p, hp, hq⟩
      · rw [h0] at hpos
        exact absurd hpos (Nat.lt_irrefl 0)
      · exact ⟨r, hr, p, hp, by rw [hdep', hq, Nat.add_comm]⟩

/-- C10 at the registry `base`, `mod`, `top` (all enabled): `top`, at depth
2, has a depth that is 1 + the depth of `mod`. -/
theorem C10_depth_of_enabled_dir_witness :
    (∀ r ∈ [("mod", "")], ∃ p, findByLabel (DirSet.ValidateDirs fixtureChain.m_dirs) r.1 = some p ∧
        p.ReqDepth + 1 ≤ 2) ∧
    (∃ r ∈ [("mod", "")], ∃ p, findByLabel (DirSet.ValidateDirs fixtureChain.m_dirs) r.1 = some p ∧
        2 = 1 + p.ReqDepth) :=
  (C10_depth_of_enabled_dir fixtureFS fixtureChain fixtureChain_reachable
    { fixtureTop with m_enabled := true, m_depth := 2 } (by decide) (by decide)).2 (by decide)

/-! ## Origin of the cache entries after a rebuild -/

theorem DirSet.RefreshCache.pathLoop_find (fs : FileSystem) (d : Dir) (k v : path_type)
    (paths : List path_type) (c : DirPathCache)
    (h : DirPathCache.find (RefreshCache.pathLoop fs d paths c) k = some v) :
    DirPathCache.find c k = some v ∨
      (∃ abs ∈ paths, fs.PathPortionFrom abs d.Path = k ∧ v = abs ∧
        (d.IsExplicit k = true ∨ DirPathCache.find c k = none)) := by
  induction paths generalizing c with
  | nil => exact Or.inl h
  | cons p rest ih =>
    unfold RefreshCache.pathLoop at h
    simp only at h
    by_cases hex : d.IsExplicit (fs.PathPortionFrom p d.Path) = true
    · rw [if_pos hex] at h
      rcases ih _ h with h1 | ⟨abs, ha, hk, hv, h2⟩
      · rw [DirPathCache.find_InsertOrAssignPath] at h1
        by_cases hpk : fs.PathPortionFrom p d.Path = k
        · rw [if_pos hpk] at h1
          right
          exact ⟨p, List.mem_cons_self _ _, hpk, (Option.some.inj h1).symm, Or.inl (hpk ▸ hex)⟩
        · rw [if_neg hpk] at h1
          exact Or.inl h1
      · right
        refine ⟨abs, List.mem_cons_of_mem _ ha, hk, hv, ?_⟩
        rcases h2 with h2 | h2
        · exact Or.inl h2
        · rw [DirPathCache.find_InsertOrAssignPath] at h2
          by_cases hpk : fs.PathPortionFrom p d.Path = k
          · rw [if_pos hpk] at h2; cases h2
          · rw [if_neg hpk] at h2; exact Or.inr h2
    · rw [if_neg hex] at h
      rcases ih _ h with h1 | ⟨abs, ha, hk, hv, h2⟩
      · rw [DirPathCache.find_InsertPath] at h1
        cases hc : DirPathCache.find c k with
        | some x => rw [hc] at h1; exact Or.inl h1
        | none =>
          rw [hc] at h1
          simp only at h1
          by_cases hpk : fs.PathPortionFrom p d.Path = k
          · rw [if_pos hpk] at h1
            right
            exact ⟨p, List.mem_cons_self _ _, hpk, (Option.some.inj h1).symm, Or.inr rfl⟩
          · rw [if_neg hpk] at h1; cases h1
      · right
        refine ⟨abs, List.mem_cons_of_mem _ ha, hk, hv, ?_⟩
        rcases h2 with h2 | h2
        · exact Or.inl h2
        · rw [DirPathCache.find_InsertPath] at h2
          cases hc : DirPathCache.find c k with
          | some x => rw [hc] at h2; cases h2
          | none => exact Or.inr rfl

theorem DirSet.RefreshCache.pathLoop_isSome (fs : FileSystem) (d : Dir) (k : path_type)
    (paths : List path_type) (c : DirPathCache)
    (h : (DirPathCache.find c k).isSome = true ∨
      ∃ abs ∈ paths, fs.PathPortionFrom abs d.Path = k) :
    (DirPathCache.find (RefreshCache.pathLoop fs d paths c) k).isSome = true := by
  induction paths generalizing c with
  | nil =>
    rcases h with h | ⟨abs, ha, _⟩
    · exact h
    · cases ha
  | cons p rest ih =>
    unfold RefreshCache.pathLoop
    simp only
    have hstep : ∀ c', ((DirPathCache.find c k).isSome = true →
          (DirPathCache.find c' k).isSome = true) →
        (fs.PathPortionFrom p d.Path = k → (DirPathCache.find c' k).isSome = true) →
        (DirPathCache.find (RefreshCache.pathLoop fs d rest c') k).isSome = true := by
      intro c' h1 h2
      apply ih
      rcases h with h | ⟨abs, ha, hk⟩
      · exact Or.inl (h1 h)
      · rcases List.mem_cons.1 ha with rfl | ha
        · exact Or.inl (h2 hk)
        · exact Or.inr ⟨abs, ha, hk⟩
    split
    · apply hstep
      · intro hs
        rw [DirPathCache.find_InsertOrAssignPath]
        split
        · rfl
        · exact hs
      · intro hk
        rw [DirPathCache.find_InsertOrAssignPath, if_pos hk]
        rfl
    · apply hstep
      · intro hs
        rw [DirPathCache.find_InsertPath]
        cases hc : DirPathCache.find c k with
        | some x => rfl
        | none => rw [hc] at hs; cases hs
      · intro hk
        rw [DirPathCache.find_InsertPath]
        cases hc : DirPathCache.find c k with
        | some x => rfl
        | none => simp [hk]

/-- Invariant of the walk of `RefreshCache`: with the positions `n` and
above visited, every entry has its origin among them, and every path held by
an enabled directory among them has an entry. -/
theorem DirSet.RefreshCache.walk_origin (fs : FileSystem) (dirs : List Dir) (n : Nat)
    (c : DirPathCache)
    (h1 : ∀ k v, DirPathCache.find c k = some v →
      ∃ i d, n ≤ i ∧ dirs.get? i = some d ∧ d.Enabled = true ∧ HoldsAs fs d k v ∧
        (d.IsExplicit k = true ∨
          ∀ j e, i < j → dirs.get? j = some e → e.Enabled = true → ¬ Holds fs e k))
    (h2 : ∀ j e k, n ≤ j → dirs.get? j = some e → e.Enabled = true → Holds fs e k →
      (DirPathCache.find c k).isSome = true)
    (k v : path_type) (hf : DirPathCache.find (RefreshCache.walk fs dirs n c) k = some v) :
    EntryOrigin fs dirs k v := by
  induction n generalizing c with
  | zero =>
    obtain ⟨i, d, _, hd, hen, hh, ho⟩ := h1 k v hf
    exact ⟨i, d, hd, hen, hh, ho⟩
  | succ n ih =>
    unfold RefreshCache.walk at hf
    have hskip : (∀ e, dirs.get? n = some e → e.Enabled = false) →
        DirPathCache.find (RefreshCache.walk fs dirs n c) k = some v →
        EntryOrigin fs dirs k v := by
      intro hdis hf'
      apply ih c _ _ hf'
      · intro k' v' hk'
        obtain ⟨i, d, hi, hd, hen, hh, ho⟩ := h1 k' v' hk'
        exact ⟨i, d, Nat.le_of_succ_le hi, hd, hen, hh, ho⟩
      · intro j e k' hj he hen hh
        rcases Nat.eq_or_lt_of_le hj with rfl | hlt
        · rw [hdis e he] at hen; cases hen
        · exact h2 j e k' hlt he hen hh
    cases hd : dirs.get? n with
    | none =>
      rw [hd] at hf
      exact hskip (fun e he => by rw [hd] at he; cases he) hf
    | some d =>
      rw [hd] at hf
      simp only at hf
      by_cases hen : d.Enabled = true
      · simp only [hen, Bool.not_true, Bool.false_eq_true, if_false] at hf
        apply ih _ _ _ hf
        · intro k' v' hk'
          rcases RefreshCache.pathLoop_find fs d k' v' _ c hk' with hc | ⟨abs, ha, hk, hv, ho⟩
          · obtain ⟨i, d', hi, hd', hen', hh, ho⟩ := h1 k' v' hc
            exact ⟨i, d', Nat.le_of_succ_le hi, hd', hen', hh, ho⟩
          · subst hv
            refine ⟨n, d, Nat.le_refl _, hd, hen, ⟨ha, hk⟩, ?_⟩
            rcases ho with ho | ho
            · exact Or.inl ho
            · right
              intro j e hj he hene hh
              have := h2 j e k' hj he hene hh
              rw [ho] at this
              cases this
        · intro j e k' hj he hene hh
          apply RefreshCache.pathLoop_isSome
          rcases Nat.eq_or_lt_of_le hj with rfl | hlt
          · rw [hd] at he
            cases he
            obtain ⟨abs, ha, hk⟩ := hh
            exact Or.inr ⟨abs, ha, hk⟩
          · exact Or.inl (h2 j e k' hlt he hene hh)
      · have hen' : d.Enabled = false := by simpa using hen
        simp only [hen', Bool.not_false, if_true] at hf
        exact hskip (fun e he => by rw [hd] at he; cases he; exact hen') hf

/-- What a rebuild guarantees for every entry `k -> v` of the cache: `v` is a
path enumerated under an enabled directory `d` with `k` as its portion from
`d.Path`, and `d` lists `k` as explicit or is the first enabled directory
holding `k` in the reverse iteration of the depth index. -/
theorem DirSet.RefreshCache_entry_origin (fs : FileSystem) (s : DirSet)
    (hdirty : s.m_requires_refresh = true) (k v : path_type)
    (hf : DirPathCache.find (RefreshCache fs s).m_cache k = some v) :
    EntryOrigin fs (RefreshCache fs s).m_dirs k v := by
  unfold RefreshCache at hf ⊢
  simp only [hdirty, Bool.not_true, Bool.false_eq_true, if_false] at hf ⊢
  apply RefreshCache.walk_origin fs _ _ _ _ _ k v hf
  · intro k' v' hk'
    simp [DirPathCache.Clear, DirPathCache.find] at hk'
  · intro j e k' hj he _ _
    rw [List.get?_eq_getElem?, List.getElem?_eq_none hj] at he
    cases he

/-- With `base` registered before `mod` the depth index happens to be sorted
by depth, and `get_path("a/b.txt")` returns the copy of `mod`: the registries
`fixtureBaseFirst` and `fixtureModFirst` hold the same descriptors with the
same flags and depths and differ in the registration order only. -/
theorem get_path_depends_on_registration_order :
    (DirSet.GetPath fixtureFS fixtureBaseFirst ["a", "b.txt"]).1
      = ["/", "content", "mod", "a", "b.txt"] ∧
    (DirSet.GetPath fixtureFS fixtureModFirst ["a", "b.txt"]).1
      = ["/", "content", "base", "a", "b.txt"] ∧
    fixtureBaseFirst.m_dirs = fixtureModFirst.m_dirs.reverse := by
  decide

/-! ## Labels of the registry -/

/-- C11, failing input: after `add(mod)`, `add(base)`, `enable(base)`,
`enable(mod)` the lists of `AllDirs` and of `GetDirs(true)` are `mod`, `base`,
with depths 1 and 0 along the list: the depths decrease. -/
theorem C11_labels_not_in_depth_order :
    fixtureModFirst.AllDirs = ["mod", "base"] ∧
    (fixtureModFirst.GetDirs true).1 = ["mod", "base"] ∧
    (fixtureModFirst.GetDirs true).2.m_dirs.map Dir.ReqDepth = [1, 0] ∧
    fixtureModFirst.m_dirs.map Dir.ReqDepth = [1, 0] := by
  decide

theorem insertByDepth_perm (d : Dir) (dirs : List Dir) :
    List.Perm (insertByDepth d dirs) (d :: dirs) := by
  induction dirs with
  | nil => exact List.Perm.refl _
  | cons x xs ih =>
    unfold insertByDepth
    split
    · exact List.Perm.refl _
    · exact (List.Perm.cons x ih).trans (List.Perm.swap d x xs)

theorem DirSet.AddDir_nodup (s : DirSet) (dir : Dir)
    (h : (s.m_dirs.map Dir.LabelKey).Nodup) : ((s.AddDir dir).m_dirs.map Dir.LabelKey).Nodup := by
  unfold DirSet.AddDir
  cases hf : findByLabel s.m_dirs dir.m_label_key with
  | some _ => exact h
  | none =>
    have hp := (insertByDepth_perm dir s.m_dirs).map Dir.LabelKey
    show ((insertByDepth dir s.m_dirs).map Dir.LabelKey).Nodup
    rw [hp.nodup_iff, List.map_cons, List.nodup_cons]
    exact ⟨(findByLabel_none_iff _ _).1 hf, h⟩

theorem DirSet.EnableDir_labels (s : DirSet) (label : String) :
    (s.EnableDir label).m_dirs.map Dir.LabelKey = s.m_dirs.map Dir.LabelKey := by
  cases hd : findByLabel s.m_dirs label with
  | none =>
    have : s.EnableDir label = s := by unfold DirSet.EnableDir; simp only [hd]
    rw [this]
  | some d =>
    by_cases hmet : RequirementsMet s.m_dirs d
    · rw [DirSet.EnableDir_met s label d hd hmet]
      split
      · exact updateByLabel_labels (fun x => x.SetDepth (reqDepth s.m_dirs d.Requires 0))
          (fun _ => rfl) _ _
      · show (updateByLabel _ label (updateByLabel _ label s.m_dirs)).map Dir.LabelKey = _
        rw [updateByLabel_labels _ (fun x => Dir.SetEnabled_label x true),
          updateByLabel_labels (fun x => x.SetDepth (reqDepth s.m_dirs d.Requires 0))
            (fun _ => rfl)]
    · rcases DirSet.EnableDir_unmet_dirs s label d hd hmet with h | h
      · rw [h]
      · rw [h, updateByLabel_labels _ (fun x => Dir.SetEnabled_label x false)]

theorem DirSet.DisableDir_labels (s : DirSet) (label : String) :
    (s.DisableDir label).m_dirs.map Dir.LabelKey = s.m_dirs.map Dir.LabelKey := by
  rw [DirSet.DisableDir_dirs, updateByLabel_labels _ (fun x => Dir.SetEnabled_label x false)]

theorem DirSet.run_nodup (ops : List RegistryOp) (s : DirSet)
    (h : (s.m_dirs.map Dir.LabelKey).Nodup) : ((s.run ops).m_dirs.map Dir.LabelKey).Nodup := by
  induction ops generalizing s with
  | nil => exact h
  | cons op ops ih =>
    show (((s.apply op).run ops).m_dirs.map Dir.LabelKey).Nodup
    apply ih
    cases op with
    | add dir => exact DirSet.AddDir_nodup s dir h
    | enable label => show ((s.EnableDir label).m_dirs.map Dir.LabelKey).Nodup
                      rw [DirSet.EnableDir_labels]; exact h
    | disable label => show ((s.DisableDir label).m_dirs.map Dir.LabelKey).Nodup
                       rw [DirSet.DisableDir_labels]; exact h

theorem findByLabel_insertByDepth_self (d : Dir) (dirs : List Dir)
    (h : findByLabel dirs d.m_label_key = none) :
    findByLabel (insertByDepth d dirs) d.m_label_key = some d := by
  induction dirs with
  | nil => simp [insertByDepth, findByLabel]
  | cons x xs ih =>
    unfold findByLabel at h
    by_cases hx : x.m_label_key = d.m_label_key
    · rw [if_pos hx] at h; cases h
    · rw [if_neg hx] at h
      unfold insertByDepth
      split
      · simp [findByLabel]
      · unfold findByLabel
        rw [if_neg hx]
        exact ih h

/-- C12: after any sequence of `AddDir` / `EnableDir` / `DisableDir` calls on
the empty registry (whatever descriptors are passed) no two registered
descriptors share a label; `AddDir` with a registered label leaves the whole
registry unchanged; a descriptor built by the constructor is disabled at
depth 0 and is registered as such under a label that was free. -/
theorem C12_labels_unique (ops : List RegistryOp) :
    (((DirSet.empty.run ops).m_dirs.map Dir.LabelKey).Nodup) ∧
    (∀ (s : DirSet) (dir x : Dir), findByLabel s.m_dirs dir.LabelKey = some x →
      s.AddDir dir = s) ∧
    (∀ (path : path_type) (label description version : String)
        (required_dirs : List (String × String)) (explicit_paths : List path_type) (d : Dir),
      Dir.ctor path label description version required_dirs explicit_paths = some d →
      d.Enabled = false ∧ d.ReqDepth = 0 ∧ d.LabelKey = label ∧
      ∀ s : DirSet, findByLabel s.m_dirs label = none →
        findByLabel (s.AddDir d).m_dirs label = some d) := by
  refine ⟨DirSet.run_nodup ops DirSet.empty List.nodup_nil, ?_, ?_⟩
  · intro s dir x hx
    unfold DirSet.AddDir
    have hx' : findByLabel s.m_dirs dir.m_label_key = some x := hx
    simp only [hx']
  · intro path label description version required_dirs explicit_paths d hd
    unfold Dir.ctor at hd
    cases hv : SemVerFromString version with
    | none => rw [hv] at hd; cases hd
    | some v =>
      rw [hv] at hd
      simp only [Option.some.injEq] at hd
      subst hd
      refine ⟨rfl, rfl, rfl, ?_⟩
      intro s hs
      unfold DirSet.AddDir
      simp only [hs]
      exact findByLabel_insertByDepth_self _ _ hs

/-- C12 on the calls `add(base)`, `add(mod)`, `enable(base)`, `add(base)`:
two labels, the second `add(base)` changes nothing, and `base` as the
constructor builds it is disabled at depth 0. -/
theorem C12_labels_unique_witness :
    ((DirSet.empty.run [RegistryOp.add fixtureBase, RegistryOp.add fixtureMod,
        RegistryOp.enable "base", RegistryOp.add fixtureBase]).m_dirs.map Dir.LabelKey).Nodup ∧
    fixtureBaseOnly.AddDir fixtureBase = fixtureBaseOnly ∧
    (fixtureBase.Enabled = false ∧ fixtureBase.ReqDepth = 0 ∧ fixtureBase.LabelKey = "base" ∧
      ∀ s : DirSet, findByLabel s.m_dirs "base" = none →
        findByLabel (s.AddDir fixtureBase).m_dirs "base" = some fixtureBase) :=
  ⟨(C12_labels_unique _).1,
   (C12_labels_unique []).2.1 fixtureBaseOnly fixtureBase { fixtureBase with m_enabled := true }
     (by decide),
   (C12_labels_unique []).2.2 ["/", "content", "base"] "base" "" "1.0.0" [] [] fixtureBase
     (by decide)⟩

/-- C13, failing input: in the registry reached by `add` and `enable` of
`base`, `mod`, `top`, then `disable(base)` and `get_path("c.txt")`, the
directory `base` is disabled and `get_path("c.txt")` returns
`/content/top/c.txt`;
after `enable(base)` and `disable(base)` it returns the empty path. -/
theorem C13_enable_disable_changes_get_path :
    (∃ b, findByLabel fixtureAfterFirstGetPath.m_dirs "base" = some b ∧ b.Enabled = false) ∧
    (DirSet.GetPath fixtureFS fixtureAfterFirstGetPath ["c.txt"]).1
      = ["/", "content", "top", "c.txt"] ∧
    (DirSet.GetPath fixtureFS
      ((fixtureAfterFirstGetPath.EnableDir "base").DisableDir "base") ["c.txt"]).1
      = EMPTY_PATH := by
  refine ⟨⟨fixtureBase, ?_, ?_⟩, ?_, ?_⟩ <;> decide

/-- The registry of the failing input of C13 is reachable. -/
theorem fixtureAfterFirstGetPath_reachable : Reachable fixtureFS fixtureAfterFirstGetPath :=
  Reachable.getPath _ _ (Reachable.disable _ _ fixtureChain_reachable)

/-- The registry after the following `get_labels(true)` is reachable. -/
theorem fixtureAfterGetDirs_reachable : Reachable fixtureFS fixtureAfterGetDirs :=
  Reachable.getDirs _ _ (Reachable.getPath _ _ (Reachable.disable _ _ fixtureChain_reachable))

/-! ## Version strings -/

/-- C21, failing input: the version string `1.2.3-rc1` is parsed as major 1,
minor 0, patch 1 with empty errata, also through the constructor of `Dir`.
The first `NextToken` call searches the character with code `prev_pos = 0`
from position 46 (the code of the dot), finds nothing and returns the whole
string with the position at `npos`; the second call then returns the empty
token, which is no number. -/
theorem C21_version_string_misparsed :
    NextToken "1.2.3-rc1" (Char.ofNat 46) (some 0) = ("1.2.3-rc1", none) ∧
    StrToInt "1.2.3-rc1" = some 1 ∧
    NextToken "1.2.3-rc1" (Char.ofNat 46) none = ("", none) ∧
    StrToInt "" = none ∧
    SemVerFromString "1.2.3-rc1" = some { major := 1, minor := 0, patch := 1, errata := "" } ∧
    (Dir.ctor EMPTY_PATH "mod" "" "1.2.3-rc1" [] []).map Dir.Version
      = some { major := 1, minor := 0, patch := 1, errata := "" } := by
  decide

/-! ## Comparison of versions -/

/-- With equal major, minor and patch numbers `operator<` is false whatever
the errata are: its last comparison is of the left errata with itself. -/
theorem SemVer.lt_same_numbers (a rhs : SemVer) (h1 : a.major = rhs.major)
    (h2 : a.minor = rhs.minor) (h3 : a.patch = rhs.patch) : SemVer.lt a rhs = false := by
  unfold SemVer.lt
  rw [h1, h2, h3]
  simp [lt_irrefl]

/-- C29, failing input: for `1.0.0a` and `1.0.0b`, which differ in the errata
only, none of `a < b`, `a == b`, `a > b` holds, although `a != b`, `a <= b`
and `a >= b` all hold: `operator<` compares the errata of the left operand
with itself. -/
theorem C29_errata_not_compared :
    SemVer.lt ⟨1, 0, 0, "a"⟩ ⟨1, 0, 0, "b"⟩ = false ∧
    SemVer.eq ⟨1, 0, 0, "a"⟩ ⟨1, 0, 0, "b"⟩ = false ∧
    SemVer.gt ⟨1, 0, 0, "a"⟩ ⟨1, 0, 0, "b"⟩ = false ∧
    SemVer.ne ⟨1, 0, 0, "a"⟩ ⟨1, 0, 0, "b"⟩ = true ∧
    SemVer.le ⟨1, 0, 0, "a"⟩ ⟨1, 0, 0, "b"⟩ = true ∧
    SemVer.ge ⟨1, 0, 0, "a"⟩ ⟨1, 0, 0, "b"⟩ = true := by
  have h1 : SemVer.lt ⟨1, 0, 0, "a"⟩ ⟨1, 0, 0, "b"⟩ = false :=
    SemVer.lt_same_numbers _ _ rfl rfl rfl
  have h2 : SemVer.lt ⟨1, 0, 0, "b"⟩ ⟨1, 0, 0, "a"⟩ = false :=
    SemVer.lt_same_numbers _ _ rfl rfl rfl
  have h3 : SemVer.eq ⟨1, 0, 0, "a"⟩ ⟨1, 0, 0, "b"⟩ = false := by decide
  refine ⟨h1, h3, h2, ?_, ?_, ?_⟩
  · simp [SemVer.ne, h3]
  · simp [SemVer.le, SemVer.gt, h2]
  · simp [SemVer.ge, h1]

/-! ## Definition files -/

/-- C22, failing input: for the definition file
`/srv/content/mod/Content.inf` found under the search directory
`/srv/content`, `parse::content_dir` returns a descriptor whose path is the
file itself, not the directory `/srv/content/mod`, and `AddSearchDir` hands
that descriptor to `AddDir`; on the manager as its constructor starts (null
`m_dir_set`) the call of `AddDir` has no object. -/
theorem C22_descriptor_path_is_definition_file :
    PathsInDirPred fixtureSearchEnv ["/", "srv", "content"]
      (fun file => fixtureSearchEnv.IsRegularFile file &&
        fixtureSearchEnv.filename file == Dir.DEFINITION_FILENAME)
      = [["/", "srv", "content", "mod", "Content.inf"]] ∧
    (content_dir fixtureSearchEnv ["/", "srv", "content", "mod", "Content.inf"]).map Dir.Path
      = some ["/", "srv", "content", "mod", "Content.inf"] ∧
    (Manager.Impl.AddSearchDir fixtureSearchEnv
        { m_dir_set := some DirSet.empty, m_search_paths := [] } ["/", "srv", "content"]).map
      (fun m => m.m_dir_set.map (fun s => s.m_dirs.map (fun d => (d.LabelKey, d.Path))))
      = some (some [("mod", ["/", "srv", "content", "mod", "Content.inf"])]) ∧
    Manager.Impl.ctor fixtureSearchEnv ["/", "srv", "content"] = none := by
  decide

/-! ## Cycles -/

/-- In a registry with the depth invariant, a requirement of a directory with
a final depth is registered, has a final depth, and that depth is smaller. -/
theorem Inv.requires_step {dirs : List Dir} (hinv : Inv dirs) {a b : Dir}
    (ha : a ∈ dirs) (hs : Stable a) (hab : RequiresDir dirs a b) :
    b ∈ dirs ∧ Stable b ∧ b.m_depth < a.m_depth := by
  obtain ⟨r, hr, hb⟩ := hab
  obtain ⟨hdepth, hreqs⟩ := hinv.good a ha hs
  obtain ⟨p, hp, hsp⟩ := hreqs r hr
  rw [hb] at hp
  cases hp
  refine ⟨findByLabel_mem hb, hsp, ?_⟩
  rw [hdepth]
  exact reqDepth_ge dirs a.Requires 0 r hr b hb

/-- Along a chain of requirements from a directory with a final depth the
depth decreases. -/
theorem Inv.requires_chain {dirs : List Dir} (hinv : Inv dirs) {a b : Dir}
    (ha : a ∈ dirs) (hs : Stable a) (hab : Relation.TransGen (RequiresDir dirs) a b) :
    b ∈ dirs ∧ Stable b ∧ b.m_depth < a.m_depth := by
  induction hab with
  | single h => exact hinv.requires_step ha hs h
  | tail _ h ih =>
    obtain ⟨hm, hst, hlt⟩ := ih
    obtain ⟨hm2, hst2, hlt2⟩ := hinv.requires_step hm hst h
    exact ⟨hm2, hst2, Nat.lt_trans hlt2 hlt⟩

/-- C28: in every registry reachable from the empty one by `add`, `enable`,
`disable` and the validating calls `get_labels` and `get_path`, a registered
directory that lies on a cycle of the prerequisite relation (a directory that
requires itself included) is disabled. -/
theorem C28_cycle_never_enabled (fs : FileSystem) (s : DirSet) (h : Reachable fs s)
    (d : Dir) (hd : d ∈ s.m_dirs) (hc : OnCycle s.m_dirs d) : d.Enabled = false := by
  cases he : d.Enabled with
  | false => rfl
  | true =>
    exfalso
    have hs : Stable d := Or.inr (Or.inl he)
    exact Nat.lt_irrefl _ (h.inv.requires_chain hd hs hc).2.2

/-- C28 on the directory `self`, which requires itself: after `add(self)` and
`enable(self)` it is registered and disabled. -/
theorem C28_cycle_never_enabled_witness :
    fixtureSelfEnabled.m_dirs = [fixtureSelf] ∧ fixtureSelf.Enabled = false :=
  ⟨by decide,
   C28_cycle_never_enabled fixtureFS fixtureSelfEnabled
    (Reachable.enable _ _ (Reachable.addDir Reachable.empty _ rfl rfl))
    fixtureSelf (by decide)
    (Relation.TransGen.single ⟨("self", ""), by decide, by decide⟩)⟩

end Content

namespace Node

/-! # Properties of the path nodes -/

/-! ## Normalisation -/

theorem pathIs_token (node tok : String) : ([node] == [tok]) = decide (node = tok) := by
  by_cases h : node = tok
  · subst h; simp
  · simp [h]

/-- One turn of the loop of `NormalizePathFrom`, in terms of the element. -/
theorem NormalizePathFrom.loop_cons (node : String) (rest : List String) (n : Nat)
    (result : boost_path) :
    NormalizePathFrom.loop (node :: rest) n result =
      if node = ".." then NormalizePathFrom.loop rest (n + 1) result
      else if node = "*?" then NormalizePathFrom.loop rest n result
      else if n > 0 then NormalizePathFrom.loop rest (n - 1) result
      else if node ≠ "." ∧ node ≠ "" then NormalizePathFrom.loop rest n (node :: result)
      else NormalizePathFrom.loop rest n result := by
  rw [NormalizePathFrom.loop]
  have hf : filename [node] = [node] := rfl
  have hne : (([node] : boost_path) != [""]) = decide (node ≠ "") := by
    by_cases h : node = ""
    · subst h; rfl
    · simp [h]
  simp only [hf, pathIs, pathIs_token, hne, decide_eq_true_eq]
  by_cases h1 : node = ".."
  · simp [h1]
  · by_cases h2 : node = "*?"
    · simp [h2]
    · by_cases h3 : n > 0
      · simp [h1, h2, h3]
      · by_cases h4 : node = "."
        · simp [h1, h2, h3, h4]
        · by_cases h5 : node = ""
          · simp [h1, h2, h3, h5]
          · simp [h1, h2, h3, h4, h5]

/-- Ordinary elements met with no pending `..` are all kept, in order. -/
theorem NormalizePathFrom.loop_ordinary (xs ys : List String) (result : boost_path)
    (h : ∀ e ∈ xs, Ordinary e) :
    NormalizePathFrom.loop (xs ++ ys) 0 result =
      NormalizePathFrom.loop ys 0 (xs.reverse ++ result) := by
  induction xs generalizing result with
  | nil => rfl
  | cons x xs ih =>
    obtain ⟨h1, h2, h3, h4⟩ := h x (List.mem_cons_self _ _)
    rw [List.cons_append, NormalizePathFrom.loop_cons, if_neg h2, if_neg h3,
      if_neg (Nat.lt_irrefl 0), if_pos ⟨h1, h4⟩,
      ih _ (fun e he => h e (List.mem_cons_of_mem _ he))]
    simp

/-- Elements `.` met with no pending `..` are dropped. -/
theorem NormalizePathFrom.loop_dots (dots ys : List String) (result : boost_path)
    (h : ∀ e ∈ dots, e = ".") :
    NormalizePathFrom.loop (dots ++ ys) 0 result = NormalizePathFrom.loop ys 0 result := by
  induction dots with
  | nil => rfl
  | cons x xs ih =>
    have hx : x = "." := h x (List.mem_cons_self _ _)
    subst hx
    rw [List.cons_append, NormalizePathFrom.loop_cons, if_neg (by decide), if_neg (by decide),
      if_neg (Nat.lt_irrefl 0), if_neg (by simp),
      ih (fun e he => h e (List.mem_cons_of_mem _ he))]

/-- Every element of a result of the loop is ordinary when the elements of
the initial result are. -/
theorem NormalizePathFrom.loop_result (xs : List String) (n : Nat) (result : boost_path)
    (h : ∀ e ∈ result, Ordinary e) : ∀ e ∈ NormalizePathFrom.loop xs n result, Ordinary e := by
  induction xs generalizing n result with
  | nil => exact h
  | cons x xs ih =>
    rw [NormalizePathFrom.loop_cons]
    split
    · exact ih _ _ h
    · split
      · exact ih _ _ h
      · split
        · exact ih _ _ h
        · split
          · rename_i h1 h2 _ h4
            apply ih
            intro e he
            rcases List.mem_cons.1 he with rfl | he
            · exact ⟨h4.1, h1, h2, h4.2⟩
            · exact h e he
          · exact ih _ _ h

/-- C14: `NormalizedPath(NormalizedPath(p))` equals `NormalizedPath(p)` for
every path `p`, the empty path and the paths that collapse to it included. -/
theorem C14_normalize_idempotent (p : boost_path) :
    NormalizedPath (NormalizedPath p) = NormalizedPath p := by
  unfold NormalizedPath
  by_cases hp : p = []
  · subst hp; rfl
  · have hr : ∀ e ∈ NormalizePathFrom p, Ordinary e := by
      unfold NormalizePathFrom
      rw [if_neg hp]
      exact NormalizePathFrom.loop_result _ _ _ (fun e he => by cases he)
    generalize NormalizePathFrom p = r at hr
    unfold NormalizePathFrom
    split
    · rfl
    · have := NormalizePathFrom.loop_ordinary r.reverse [] []
        (fun e he => hr e (List.mem_reverse.1 he))
      rw [List.append_nil] at this
      rw [this]
      simp [NormalizePathFrom.loop]

/-- C15: for ordinary segments `p`, `q` and an ordinary segment `s`, with any
number of `.` segments before `s`, `normalize(p/./s/../q)` is `p/q`. -/
theorem C15_dot_dot_consumes_segment (p q dots : List String) (s : String)
    (hp : ∀ e ∈ p, Ordinary e) (hq : ∀ e ∈ q, Ordinary e) (hs : Ordinary s)
    (hdots : ∀ e ∈ dots, e = ".") :
    NormalizedPath (p ++ dots ++ [s, ".."] ++ q) = p ++ q := by
  unfold NormalizedPath NormalizePathFrom
  rw [if_neg (by simp)]
  have hrev : (p ++ dots ++ [s, ".."] ++ q).reverse =
      q.reverse ++ (".." :: s :: (dots.reverse ++ (p.reverse ++ []))) := by simp
  rw [hrev, NormalizePathFrom.loop_ordinary _ _ _ (fun e he => hq e (List.mem_reverse.1 he)),
    NormalizePathFrom.loop_cons, if_pos rfl, NormalizePathFrom.loop_cons, if_neg hs.2.1,
    if_neg hs.2.2.1, if_pos (Nat.succ_pos 0),
    NormalizePathFrom.loop_dots _ _ _ (fun e he => hdots e (List.mem_reverse.1 he)),
    NormalizePathFrom.loop_ordinary _ _ _ (fun e he => hp e (List.mem_reverse.1 he))]
  simp [NormalizePathFrom.loop]

/-- C15 on `a/./b/../c`: the normal form is `a/c`. -/
theorem C15_dot_dot_consumes_segment_witness :
    NormalizedPath ["a", ".", "b", "..", "c"] = ["a", "c"] :=
  C15_dot_dot_consumes_segment ["a"] ["c"] ["."] "b" (by decide) (by decide) (by decide)
    (by decide)

/-! ## `PathPortionFrom` -/

/-- C17, counterexample. First node: `foo` under a parentless node whose
element is the relative marker; the base `x` is neither its path nor the path
of its parent, yet the result is `../foo`, not the sentinel. Second node:
`r/...../x` with the base `r`, the path of an ancestor; the result is the
sentinel and `r / .....` is not the path of the node. -/
theorem C17_portion_from_relative_and_sentinel :
    ((PathNode.child ["foo"] (PathNode.root ["*?"] false) false).Path ≠ ["x"] ∧
      (PathNode.root ["*?"] false).Path ≠ ["x"] ∧
      (PathNode.child ["foo"] (PathNode.root ["*?"] false) false).PathPortionFrom ["x"]
        = ["..", "foo"] ∧
      (PathNode.child ["foo"] (PathNode.root ["*?"] false) false).PathPortionFrom ["x"]
        ≠ PathFrom ElementType.INVALID) ∧
    ((PathNode.root ["r"] false).Path = ["r"] ∧
      (PathNode.child ["x"] (PathNode.child ["....."] (PathNode.root ["r"] false) false)
        false).Path = ["r", ".....", "x"] ∧
      (PathNode.child ["x"] (PathNode.child ["....."] (PathNode.root ["r"] false) false)
        false).PathPortionFrom ["r"] = ["....."] ∧
      ["r"] ++ (PathNode.child ["x"] (PathNode.child ["....."] (PathNode.root ["r"] false)
        false) false).PathPortionFrom ["r"] ≠ ["r", ".....", "x"]) := by
  decide

theorem pathIs_relative_iff (e : boost_path) :
    pathIs e ElementType.RELATIVE = true ↔ e = ["*?"] := by
  simp [pathIs]

theorem pathIs_invalid_iff (e : boost_path) :
    pathIs e ElementType.INVALID = true ↔ e = ["....."] := by
  simp [pathIs]

/-- The path of a node whose element is not the relative marker. -/
theorem PathNode.Path_child (e : boost_path) (p : PathNode) (a : Bool) (he : e ≠ ["*?"]) :
    (PathNode.child e p a).Path = p.Path ++ e := by
  have h : pathIs e ElementType.RELATIVE = false := by
    cases hh : pathIs e ElementType.RELATIVE with
    | false => rfl
    | true => exact absurd ((pathIs_relative_iff e).1 hh) he
  rw [PathNode.Path]
  by_cases hnil : e = []
  · subst hnil; simp
  · simp [h, hnil]

theorem append_eq_singleton {r e : boost_path} {x : String} (h : r ++ e = [x]) :
    (r = [] ∧ e = [x]) ∨ (r = [x] ∧ e = []) := by
  cases r with
  | nil => exact Or.inl ⟨rfl, h⟩
  | cons y r' =>
    rw [List.cons_append] at h
    injection h with h1 h2
    have h3 := List.append_eq_nil.1 h2
    exact Or.inr ⟨by rw [h1, h3.1], h3.2⟩

/-- With the base on the chain, and no element of the chain equal to the
relative marker or to the sentinel, the result completes the base to the path
of the node and is not the sentinel. -/
theorem PathNode.PathPortionFrom_on_chain (n : PathNode) (b : boost_path)
    (hclean : ∀ m ∈ n.chain, m.m_path_element ≠ ["*?"] ∧ m.m_path_element ≠ ["....."])
    (hb : ∃ m ∈ n.chain, m.Path = b) :
    b ++ n.PathPortionFrom b = n.Path ∧ n.PathPortionFrom b ≠ ["....."] := by
  induction n with
  | root e a =>
    obtain ⟨m, hm, hmb⟩ := hb
    have : m = PathNode.root e a := by simpa [PathNode.chain, PathNode.ancestors] using hm
    subst this
    unfold PathNode.PathPortionFrom
    rw [if_pos hmb]
    exact ⟨by rw [List.append_nil, hmb], by decide⟩
  | child e p a ih =>
    have hrel : ¬ pathIs e ElementType.RELATIVE = true := fun h =>
      (hclean _ (List.mem_cons_self _ _)).1 ((pathIs_relative_iff e).1 h)
    have he : e ≠ ["*?"] := (hclean _ (List.mem_cons_self _ _)).1
    have hinv : e ≠ ["....."] := (hclean _ (List.mem_cons_self _ _)).2
    unfold PathNode.PathPortionFrom
    by_cases hself : (PathNode.child e p a).Path = b
    · rw [if_pos hself]
      exact ⟨by rw [List.append_nil, hself], by decide⟩
    · rw [if_neg hself, if_neg hrel]
      have hb' : ∃ m ∈ p.chain, m.Path = b := by
        obtain ⟨m, hm, hmb⟩ := hb
        rcases List.mem_cons.1 hm with rfl | hm
        · exact absurd hmb hself
        · exact ⟨m, hm, hmb⟩
      obtain ⟨ih1, ih2⟩ := ih (fun m hm => hclean m (List.mem_cons_of_mem _ hm)) hb'
      have hni : pathIs (p.PathPortionFrom b) ElementType.INVALID = false := by
        cases h : pathIs (p.PathPortionFrom b) ElementType.INVALID with
        | false => rfl
        | true => exact absurd ((pathIs_invalid_iff _).1 h) ih2
      simp only [hni, Bool.false_eq_true, if_false]
      refine ⟨?_, ?_⟩
      · rw [PathNode.Path_child e p a he, ← ih1, List.append_assoc]
      · intro hcat
        rcases append_eq_singleton hcat with ⟨h1, h2⟩ | ⟨h1, h2⟩
        · exact hinv h2
        · exact ih2 h1

/-- With the base off the chain, and no element of the chain equal to the
relative marker, the result is the sentinel. -/
theorem PathNode.PathPortionFrom_off_chain (n : PathNode) (b : boost_path)
    (hclean : ∀ m ∈ n.chain, m.m_path_element ≠ ["*?"])
    (hb : ∀ m ∈ n.chain, m.Path ≠ b) :
    n.PathPortionFrom b = ["....."] := by
  induction n with
  | root e a =>
    have hrel : ¬ pathIs e ElementType.RELATIVE = true := fun h =>
      hclean _ (List.mem_cons_self _ _) ((pathIs_relative_iff e).1 h)
    unfold PathNode.PathPortionFrom
    rw [if_neg (hb _ (List.mem_cons_self _ _)), if_neg hrel]
    rfl
  | child e p a ih =>
    have hrel : ¬ pathIs e ElementType.RELATIVE = true := fun h =>
      hclean _ (List.mem_cons_self _ _) ((pathIs_relative_iff e).1 h)
    have hp := ih (fun m hm => hclean m (List.mem_cons_of_mem _ hm))
      (fun m hm => hb m (List.mem_cons_of_mem _ hm))
    unfold PathNode.PathPortionFrom
    rw [if_neg (hb _ (List.mem_cons_self _ _)), if_neg hrel]
    simp only [hp]
    rfl

/-- C17, amended: for a node none of whose chain elements (its own and those
of its ancestors) is the relative marker `*?` or the token `.....`: with the
base `b` equal to the path of the node or of an ancestor, `PathPortionFrom(b)`
returns `r` with `b / r` equal to the path of the node (`r` empty when `b` is
that path); with `b` the path of none of them, it returns the sentinel. -/
theorem C17_portion_from (n : PathNode) (b : boost_path)
    (hclean : ∀ m ∈ n.chain, m.m_path_element ≠ ["*?"] ∧ m.m_path_element ≠ ["....."]) :
    ((∃ m ∈ n.chain, m.Path = b) → b ++ n.PathPortionFrom b = n.Path) ∧
    (n.Path = b → n.PathPortionFrom b = []) ∧
    ((∀ m ∈ n.chain, m.Path ≠ b) → n.PathPortionFrom b = PathFrom ElementType.INVALID) := by
  refine ⟨fun hb => (PathNode.PathPortionFrom_on_chain n b hclean hb).1, ?_, ?_⟩
  · intro hself
    cases n with
    | root e a => unfold PathNode.PathPortionFrom; rw [if_pos hself]
    | child e p a => unfold PathNode.PathPortionFrom; rw [if_pos hself]
  · intro hb
    exact PathNode.PathPortionFrom_off_chain n b (fun m hm => (hclean m hm).1) hb

/-- C17 amended, on the node `/srv/data/a.txt` under the root `/srv`: the
portion from `/srv` is `data/a.txt`, and from `/opt` it is the sentinel. -/
theorem C17_portion_from_witness :
    ["/", "srv"] ++ (PathNode.child ["a.txt"] (PathNode.child ["data"]
        (PathNode.root ["/", "srv"] false) false) false).PathPortionFrom ["/", "srv"]
      = ["/", "srv", "data", "a.txt"] ∧
    (PathNode.child ["a.txt"] (PathNode.child ["data"]
        (PathNode.root ["/", "srv"] false) false) false).PathPortionFrom ["/", "opt"]
      = ["....."] :=
  ⟨(C17_portion_from (PathNode.child ["a.txt"] (PathNode.child ["data"]
        (PathNode.root ["/", "srv"] false) false) false) ["/", "srv"] (by decide)).1
      ⟨PathNode.root ["/", "srv"] false, by decide, by decide⟩,
   (C17_portion_from (PathNode.child ["a.txt"] (PathNode.child ["data"]
        (PathNode.root ["/", "srv"] false) false) false) ["/", "opt"] (by decide)).2.2
      (by decide)⟩

/-! ## Write permission -/

theorem PathNode.chain_any_child (e : boost_path) (q : PathNode) (f : Bool) :
    (PathNode.child e q f).chain.any PathNode.m_allow_writes =
      (f || q.chain.any PathNode.m_allow_writes) := by
  simp [PathNode.chain, PathNode.ancestors, PathNode.m_allow_writes]

/-- The value `Writeable` returns is the disjunction of the flags along the
chain; the flag of the node afterwards is that value; the disjunction along
the chain is unchanged; a false result leaves the chain as it was. -/
theorem PathNode.Writeable_spec (n : PathNode) :
    n.Writeable.1 = n.chain.any PathNode.m_allow_writes ∧
    n.Writeable.2.m_allow_writes = n.Writeable.1 ∧
    n.Writeable.2.chain.any PathNode.m_allow_writes = n.chain.any PathNode.m_allow_writes ∧
    (n.Writeable.1 = false → n.Writeable.2 = n) := by
  induction n with
  | root e a =>
    simp [PathNode.Writeable, PathNode.chain, PathNode.ancestors, PathNode.m_allow_writes]
  | child e p a ih =>
    obtain ⟨ih1, ih2, ih3, ih4⟩ := ih
    cases a with
    | true =>
      have hW : (PathNode.child e p true).Writeable = (true, PathNode.child e p true) := by
        simp [PathNode.Writeable]
      rw [hW]
      exact ⟨by rw [PathNode.chain_any_child]; rfl, rfl, rfl, fun h => by cases h⟩
    | false =>
      cases hw : p.Writeable.1 with
      | true =>
        have hany : p.chain.any PathNode.m_allow_writes = true := by rw [← ih1, hw]
        have hW : (PathNode.child e p false).Writeable =
            (true, PathNode.child e p.Writeable.2 true) := by
          simp [PathNode.Writeable, hw]
        rw [hW]
        refine ⟨?_, rfl, ?_, fun h => by cases h⟩
        · rw [PathNode.chain_any_child, hany]; rfl
        · show (PathNode.child e p.Writeable.2 true).chain.any PathNode.m_allow_writes = _
          rw [PathNode.chain_any_child, PathNode.chain_any_child, hany]; rfl
      | false =>
        have hany : p.chain.any PathNode.m_allow_writes = false := by rw [← ih1, hw]
        have hsame : p.Writeable.2 = p := ih4 hw
        have hW : (PathNode.child e p false).Writeable = (false, PathNode.child e p false) := by
          simp [PathNode.Writeable, hw, hsame]
        rw [hW]
        refine ⟨?_, rfl, rfl, fun _ => rfl⟩
        rw [PathNode.chain_any_child, hany]; rfl

/-- After `SetWriteable(b)`, `Writeable()` returns the disjunction of `b` and
of the flags the ancestors had. -/
theorem PathNode.SetWriteable_writeable (n : PathNode) (b : Bool) :
    (n.SetWriteable b).Writeable.1 = (b || n.ancestors.any PathNode.m_allow_writes) := by
  rw [(PathNode.Writeable_spec _).1]
  cases n with
  | root e a =>
    simp [PathNode.SetWriteable, PathNode.chain, PathNode.ancestors, PathNode.m_allow_writes]
  | child e p a =>
    obtain ⟨h1, _, h3, _⟩ := PathNode.Writeable_spec p
    have hp : (PathNode.child e p a).ancestors.any PathNode.m_allow_writes =
        p.chain.any PathNode.m_allow_writes := rfl
    cases b with
    | true =>
      have hS : (PathNode.child e p a).SetWriteable true = PathNode.child e p true := by
        simp [PathNode.SetWriteable]
      rw [hS, PathNode.chain_any_child]
      rfl
    | false =>
      have hS : (PathNode.child e p a).SetWriteable false =
          PathNode.child e p.Writeable.2 p.Writeable.1 := by
        simp [PathNode.SetWriteable]
      rw [hS, PathNode.chain_any_child, h3, h1, Bool.or_self, hp, Bool.false_or]

/-- C18: `Writeable()` returns true exactly when the flag `allow_writes` of the
node or of one of its ancestors is true at the time of the call; afterwards
the flag of the node equals the returned value; a false result changes
nothing. -/
theorem C18_writeable (n : PathNode) :
    (n.Writeable.1 = true ↔ ∃ m ∈ n.chain, m.m_allow_writes = true) ∧
    n.Writeable.2.m_allow_writes = n.Writeable.1 ∧
    (n.Writeable.1 = false → n.Writeable.2 = n) := by
  obtain ⟨h1, h2, _, h4⟩ := PathNode.Writeable_spec n
  refine ⟨?_, h2, h4⟩
  rw [h1, List.any_eq_true]

/-- C18 on the node `a.txt` under `data` under the write-permitting root
`/srv`: `Writeable()` returns true and sets the flag of the node. -/
theorem C18_writeable_witness :
    (PathNode.child ["a.txt"] (PathNode.child ["data"] (PathNode.root ["/", "srv"] true) false)
      false).Writeable.1 = true ∧
    (PathNode.child ["a.txt"] (PathNode.child ["data"] (PathNode.root ["/", "srv"] true) false)
      false).Writeable.2.m_allow_writes = true :=
  ⟨(C18_writeable _).1.2 ⟨PathNode.root ["/", "srv"] true, by decide, rfl⟩,
   ((C18_writeable _).2.1).trans ((C18_writeable _).1.2
     ⟨PathNode.root ["/", "srv"] true, by decide, rfl⟩)⟩

/-- C19: after `SetWriteable(b)`, `Writeable()` returns true exactly when `b`
is true or the flag `allow_writes` of some ancestor was true; in particular
`SetWriteable(false)` under a write-permitting ancestor leaves the node
writable. -/
theorem C19_set_writeable (n : PathNode) (b : Bool) :
    ((n.SetWriteable b).Writeable.1 = true ↔
      (b = true ∨ ∃ m ∈ n.ancestors, m.m_allow_writes = true)) ∧
    ((∃ m ∈ n.ancestors, m.m_allow_writes = true) →
      (n.SetWriteable false).Writeable.1 = true) := by
  refine ⟨?_, ?_⟩
  · rw [PathNode.SetWriteable_writeable, Bool.or_eq_true, List.any_eq_true]
  · intro h
    rw [PathNode.SetWriteable_writeable, Bool.false_or, List.any_eq_true]
    exact h

/-- C19 on the node `data` under the write-permitting root `/srv`:
`SetWriteable(false)` leaves it writable. -/
theorem C19_set_writeable_witness :
    ((PathNode.child ["data"] (PathNode.root ["/", "srv"] true) true).SetWriteable
      false).Writeable.1 = true :=
  (C19_set_writeable (PathNode.child ["data"] (PathNode.root ["/", "srv"] true) true) false).2
    ⟨PathNode.root ["/", "srv"] true, by decide, rfl⟩

/-- Updating the status cache of an object leaves every node and chain as it
was. -/
theorem nodeAt_set_status (store : List NodeObject) (i : Nat) (obj : NodeObject)
    (st : file_type) (hobj : store.get? i = some obj) (fuel q : Nat) :
    nodeAt (store.set i { obj with m_status_cache := st }) fuel q = nodeAt store fuel q := by
  induction fuel generalizing q with
  | zero => rfl
  | succ fuel ih =>
    unfold nodeAt
    by_cases hq : i = q
    · subst hq
      have hlt : i < store.length := by
        rcases Nat.lt_or_ge i store.length with h | h
        · exact h
        · rw [List.get?_eq_none.mpr h] at hobj; cases hobj
      have hset : (store.set i { obj with m_status_cache := st }).get? i
          = some { obj with m_status_cache := st } := by
        simp [List.getElem?_set, hlt]
      rw [hset, hobj]
      simp only [ih]
    · have hset : (store.set i { obj with m_status_cache := st }).get? q = store.get? q := by
        simp [List.getElem?_set, hq]
      rw [hset]
      simp only [ih]

/-- Member `Status` leaves every node and chain as it was. -/
theorem Manager.Impl.StatusOf_node (env : Env) (m : Manager.Impl) (ptr q : Nat) :
    (m.StatusOf env ptr).2.node q = m.node q := by
  unfold Manager.Impl.StatusOf
  cases hobj : m.store.get? ptr with
  | none => rfl
  | some obj =>
    simp only
    split
    · rfl
    · cases env.status (m.PathOf ptr) with
      | none => rfl
      | some st =>
        show nodeAt _ _ q = nodeAt _ _ q
        simp only [List.length_set]
        exact nodeAt_set_status m.store ptr obj st hobj _ q

/-- Member `Exists` leaves every node and chain as it was. -/
theorem Manager.Impl.ExistsOf_node (env : Env) (m : Manager.Impl) (ptr q : Nat) :
    (m.ExistsOf env ptr).2.node q = m.node q := by
  unfold Manager.Impl.ExistsOf
  split
  · rfl
  · exact Manager.Impl.StatusOf_node env m ptr q

/-- Helper `IsRegularFile` leaves every node and chain as it was. -/
theorem IsRegularFileNode_node (env : Env) (m : Manager.Impl) (node_ptr : Option Nat) (q : Nat) :
    (IsRegularFileNode env m node_ptr).2.node q = m.node q := by
  unfold IsRegularFileNode
  cases node_ptr with
  | none => rfl
  | some ptr =>
    simp only
    split
    · show ((m.ExistsOf env ptr).2.StatusOf env ptr).2.node q = _
      rw [Manager.Impl.StatusOf_node, Manager.Impl.ExistsOf_node]
    · exact Manager.Impl.ExistsOf_node env m ptr q

/-- On a chain without `allow_writes`, `Writeable()` returns false and
changes no object. -/
theorem storeWriteable_false (store : List NodeObject) (fuel ptr : Nat) (n : PathNode)
    (hnode : nodeAt store fuel ptr = some n)
    (hchain : ∀ x ∈ n.chain, x.m_allow_writes = false) :
    storeWriteable store fuel ptr = (false, store) := by
  induction fuel generalizing ptr n with
  | zero => rfl
  | succ fuel ih =>
    unfold nodeAt at hnode
    unfold storeWriteable
    cases hobj : store.get? ptr with
    | none => rfl
    | some obj =>
      rw [hobj] at hnode
      simp only at hnode ⊢
      cases hpar : obj.m_parent_node with
      | none =>
        rw [hpar] at hnode
        simp only [Option.some.injEq] at hnode
        subst hnode
        have ha : obj.m_allow_writes = false :=
          hchain _ (List.mem_cons_self _ _)
        simp [ha]
      | some parent =>
        rw [hpar] at hnode
        simp only at hnode
        cases hp : nodeAt store fuel parent with
        | none => rw [hp] at hnode; cases hnode
        | some p =>
          rw [hp] at hnode
          simp only [Option.some.injEq] at hnode
          subst hnode
          have ha : obj.m_allow_writes = false :=
            hchain _ (List.mem_cons_self _ _)
          have hrest : ∀ x ∈ p.chain, x.m_allow_writes = false := by
            intro x hx
            exact hchain x (List.mem_cons_of_mem _ hx)
          simp only [ha, ih parent p hp hrest, Bool.not_false, if_true, Bool.false_eq_true,
            if_false]

/-- On a chain without `allow_writes`, `Writeable()` returns false and leaves
the manager as it is. -/
theorem Manager.Impl.WriteableOf_false (m : Manager.Impl) (ptr : Nat) (n : PathNode)
    (hnode : m.node ptr = some n)
    (hchain : ∀ x ∈ n.chain, x.m_allow_writes = false) :
    m.WriteableOf ptr = (false, m) := by
  unfold Manager.Impl.WriteableOf
  rw [storeWriteable_false m.store m.store.length ptr n hnode hchain]

/-- C20: when the node of a path has no `allow_writes` anywhere on its chain,
`WriteTextFile`, `WriteFile`, `EraseFile` and `CreateDirectories` return false
and leave the file system in the state it was in. -/
theorem C20_writes_refused {σ : Type} (h : Host σ) (s : σ) (m m1 : Manager.Impl)
    (path : boost_path) (ptr : Nat) (n : PathNode)
    (contents : String) (ofs_func : σ → Bool × σ) (mode : Nat)
    (hget : GetPathNode (h.env s) m path = (some ptr, m1))
    (hnode : m1.node ptr = some n)
    (hchain : ∀ x ∈ n.chain, x.m_allow_writes = false) :
    ((WriteTextFile h s m path contents mode).1 = false ∧
      (WriteTextFile h s m path contents mode).2.2 = s) ∧
    ((WriteFile h s m path ofs_func mode).1 = false ∧
      (WriteFile h s m path ofs_func mode).2.2 = s) ∧
    ((EraseFile h s m path).1 = false ∧ (EraseFile h s m path).2.2 = s) ∧
    (∃ m2, CreateDirectories h s m path = some (false, m2, s)) := by
  have hw := Manager.Impl.WriteableOf_false m1 ptr n hnode hchain
  refine ⟨?_, ?_, ?_, ?_⟩
  · unfold WriteTextFile
    simp only [hget, hw]
    exact ⟨rfl, rfl⟩
  · unfold WriteFile
    simp only [hget, hw]
    exact ⟨rfl, rfl⟩
  · unfold EraseFile
    simp only [hget]
    split
    · exact ⟨rfl, rfl⟩
    · have hnode2 : (IsRegularFileNode (h.env s) m1 (some ptr)).2.node ptr = some n := by
        rw [IsRegularFileNode_node]; exact hnode
      rw [Manager.Impl.WriteableOf_false _ ptr n hnode2 hchain]
      exact ⟨rfl, rfl⟩
  · unfold CreateDirectories
    simp only [hget, hw]
    exact ⟨m1, rfl⟩

/-- C20 on the file `/srv/a.txt`, present on disk and reached through nodes
none of which allows writes: the four calls return false and the disk still
holds the file with its contents. -/
theorem C20_writes_refused_witness :
    ((WriteTextFile fixtureHost fixtureDisk Manager.Impl.empty ["/", "srv", "a.txt"] "new" 0).1
        = false ∧
      (WriteTextFile fixtureHost fixtureDisk Manager.Impl.empty ["/", "srv", "a.txt"] "new" 0).2.2
        = fixtureDisk) ∧
    ((WriteFile fixtureHost fixtureDisk Manager.Impl.empty ["/", "srv", "a.txt"]
        (fun d => (true, d)) 0).1 = false ∧
      (WriteFile fixtureHost fixtureDisk Manager.Impl.empty ["/", "srv", "a.txt"]
        (fun d => (true, d)) 0).2.2 = fixtureDisk) ∧
    ((EraseFile fixtureHost fixtureDisk Manager.Impl.empty ["/", "srv", "a.txt"]).1 = false ∧
      (EraseFile fixtureHost fixtureDisk Manager.Impl.empty ["/", "srv", "a.txt"]).2.2
        = fixtureDisk) ∧
    (∃ m2, CreateDirectories fixtureHost fixtureDisk Manager.Impl.empty ["/", "srv", "a.txt"]
        = some (false, m2, fixtureDisk)) :=
  C20_writes_refused fixtureHost fixtureDisk Manager.Impl.empty
    (GetPathNode (fixtureHost.env fixtureDisk) Manager.Impl.empty ["/", "srv", "a.txt"]).2
    ["/", "srv", "a.txt"] 1
    (PathNode.child ["a.txt"] (PathNode.root ["/", "srv"] false) false)
    "new" (fun d => (true, d)) 0 (by decide) (by decide) (by decide)

/-! ## Relative nodes -/

/-- Member `IsRelative` returns false for every node: `Path()` leaves the
relative marker out, so the path of a parentless node is never the marker. -/
theorem PathNode.IsRelative_false (n : PathNode) : n.IsRelative = false := by
  induction n with
  | root e a =>
    unfold PathNode.IsRelative PathNode.Path
    by_cases h : e = ["*?"]
    · subst h; decide
    · have h1 : pathIs e ElementType.RELATIVE = false := by simp [pathIs, h]
      rw [h1]
      by_cases he : e = []
      · subst he; decide
      · simp [he, pathIs, h]
  | child e p a ih => exact ih

/-- C23, failing input: the parentless node whose element is the relative
marker `*?` (as `InitRootDir("rel", "*?", false)` registers it) and its child
`foo` are not flagged relative; the node that `GetPathNode("*?/foo")` yields
has the path `foo`, no parent, and is not flagged relative either. -/
theorem C23_relative_marker_not_flagged :
    (PathNode.root ["*?"] false).IsRelative = false ∧
    (PathNode.child ["foo"] (PathNode.root ["*?"] false) false).Path = ["foo"] ∧
    (PathNode.child ["foo"] (PathNode.root ["*?"] false) false).IsRelative = false ∧
    (Manager.Impl.InitRootDir Manager.Impl.empty "rel" ["*?"] false).node 0
      = some (PathNode.root ["*?"] false) ∧
    (Manager.Impl.InitRootDir Manager.Impl.empty "rel" ["*?"] false).IsRelativeOf 0 = false ∧
    (GetPathNode fixtureEnv Manager.Impl.empty ["*?", "foo"]).1 = some 0 ∧
    (GetPathNode fixtureEnv Manager.Impl.empty ["*?", "foo"]).2.node 0
      = some (PathNode.root ["foo"] false) ∧
    (GetPathNode fixtureEnv Manager.Impl.empty ["*?", "foo"]).2.PathOf 0 = ["foo"] ∧
    (GetPathNode fixtureEnv Manager.Impl.empty ["*?", "foo"]).2.IsRelativeOf 0 = false := by
  decide

/-! ## Dots and pending dot-dots -/

/-- C24, failing input: `normalize("a/./..")` is `a` while `normalize("a/..")`
is the empty path: in the reverse traversal the `.` is met with the counter
at 1 and is consumed in the place of `a`. -/
theorem C24_dot_consumes_pending_dot_dot :
    NormalizedPath ["a", ".", ".."] = ["a"] ∧
    NormalizedPath ["a", ".."] = [] ∧
    NormalizePathFrom.loop [".", "a"] 1 [] = ["a"] ∧
    NormalizePathFrom.loop ["a"] 1 [] = [] := by
  decide

/-! ## More dot-dots than segments -/

/-- C25, counterexample: `../../a` has two `..` fragments and one ordinary
segment, and its normal form is `a`, not the empty path. -/
theorem C25_leading_dot_dots_dropped :
    countDotDot ["..", "..", "a"] = 2 ∧ countOrdinary ["..", "..", "a"] = 1 ∧
    NormalizedPath ["..", "..", "a"] = ["a"] := by
  decide

/-- The result passed to the loop stays at the end of what it returns. -/
theorem NormalizePathFrom.loop_append (xs : List String) (n : Nat) (result : boost_path) :
    NormalizePathFrom.loop xs n result = NormalizePathFrom.loop xs n [] ++ result := by
  induction xs generalizing n result with
  | nil => rfl
  | cons x xs ih =>
    rw [NormalizePathFrom.loop_cons, NormalizePathFrom.loop_cons]
    split
    · exact ih _ _
    · split
      · exact ih _ _
      · split
        · exact ih _ _
        · split
          · rw [ih _ (x :: result), ih _ [x]]
            simp
          · exact ih _ _

theorem countDotDot_cons_dd (q : List String) : countDotDot (".." :: q) = countDotDot q + 1 := by
  simp [countDotDot]

theorem countOrdinary_cons_dd (q : List String) : countOrdinary (".." :: q) = countOrdinary q := by
  have h : ¬ Ordinary ".." := fun h => h.2.1 rfl
  simp [countOrdinary, h]

theorem countDotDot_cons_ordinary (x : String) (q : List String) (hx : Ordinary x) :
    countDotDot (x :: q) = countDotDot q := by
  have h : ¬ (x = "..") := hx.2.1
  simp [countDotDot, List.count_cons, h]

theorem countOrdinary_cons_ordinary (x : String) (q : List String) (hx : Ordinary x) :
    countOrdinary (x :: q) = countOrdinary q + 1 := by
  simp [countOrdinary, hx]

/-- The loop of `NormalizePathFrom` over ordinary and `..` fragments returns
the empty path exactly when, in every prefix of the fragments visited, the
ordinary segments are no more than the counter plus the `..` fragments. -/
theorem NormalizePathFrom.loop_empty_iff (r : List String) (c : Nat)
    (hfrag : ∀ e ∈ r, e = ".." ∨ Ordinary e) :
    NormalizePathFrom.loop r c [] = [] ↔
      ∀ q, q <+: r → countOrdinary q ≤ c + countDotDot q := by
  induction r generalizing c with
  | nil =>
    constructor
    · intro _ q hq
      have : q = [] := List.prefix_nil.mp hq
      subst this
      exact Nat.zero_le _
    · intro _; rfl
  | cons x r ih =>
    have hr : ∀ e ∈ r, e = ".." ∨ Ordinary e := fun e he => hfrag e (List.mem_cons_of_mem _ he)
    rw [NormalizePathFrom.loop_cons]
    rcases hfrag x (List.mem_cons_self _ _) with hx | hx
    · subst hx
      rw [if_pos rfl, ih (c + 1) hr]
      constructor
      · intro h q hq
        rcases List.prefix_cons_iff.mp hq with rfl | ⟨t, rfl, ht⟩
        · exact Nat.zero_le _
        · have := h t ht
          rw [countOrdinary_cons_dd, countDotDot_cons_dd]
          omega
      · intro h q hq
        have := h (".." :: q) (List.cons_prefix_cons.mpr ⟨rfl, hq⟩)
        rw [countOrdinary_cons_dd, countDotDot_cons_dd] at this
        omega
    · rw [if_neg hx.2.1, if_neg hx.2.2.1]
      cases c with
      | zero =>
        rw [if_neg (Nat.lt_irrefl 0), if_pos ⟨hx.1, hx.2.2.2⟩, NormalizePathFrom.loop_append]
        constructor
        · intro h
          simp at h
        · intro h
          have := h [x] (List.cons_prefix_cons.mpr ⟨rfl, List.nil_prefix⟩)
          rw [countOrdinary_cons_ordinary x [] hx, countDotDot_cons_ordinary x [] hx] at this
          simp [countOrdinary, countDotDot] at this
      | succ c =>
        rw [if_pos (Nat.succ_pos c), Nat.add_sub_cancel, ih c hr]
        constructor
        · intro h q hq
          rcases List.prefix_cons_iff.mp hq with rfl | ⟨t, rfl, ht⟩
          · exact Nat.zero_le _
          · have := h t ht
            rw [countOrdinary_cons_ordinary x t hx, countDotDot_cons_ordinary x t hx]
            omega
        · intro h q hq
          have := h (x :: q) (List.cons_prefix_cons.mpr ⟨rfl, hq⟩)
          rw [countOrdinary_cons_ordinary x q hx, countDotDot_cons_ordinary x q hx] at this
          omega

theorem countDotDot_reverse (q : List String) : countDotDot q.reverse = countDotDot q := by
  simp [countDotDot]

theorem countOrdinary_reverse (q : List String) : countOrdinary q.reverse = countOrdinary q := by
  simp [countOrdinary]

/-- C25, amended: for a path whose fragments are ordinary segments or `..`,
the normal form is the empty path exactly when every suffix of the path has
at least as many `..` fragments as ordinary segments; and the normal form of
the empty path is the empty path. -/
theorem C25_normal_form_empty (p : boost_path) (hfrag : ∀ e ∈ p, e = ".." ∨ Ordinary e) :
    (NormalizedPath p = [] ↔ ∀ q, q <:+ p → countOrdinary q ≤ countDotDot q) ∧
    NormalizedPath [] = [] := by
  refine ⟨?_, rfl⟩
  unfold NormalizedPath NormalizePathFrom
  by_cases hp : p = []
  · subst hp
    simp only [if_true, true_iff]
    intro q hq
    have : q = [] := List.suffix_nil.mp hq
    subst this
    exact Nat.le_refl _
  · rw [if_neg hp, NormalizePathFrom.loop_empty_iff p.reverse 0
      (fun e he => hfrag e (List.mem_reverse.mp he))]
    constructor
    · intro h q hq
      have := h q.reverse (List.reverse_prefix.mpr hq)
      rw [countOrdinary_reverse, countDotDot_reverse] at this
      omega
    · intro h q hq
      have hq2 : q.reverse <:+ p := by
        have := List.reverse_suffix.mpr hq
        rwa [List.reverse_reverse] at this
      have := h q.reverse hq2
      rw [countOrdinary_reverse, countDotDot_reverse] at this
      omega

/-- C25 amended, on `a/b/../..`: every suffix has at least as many `..` as
ordinary segments, and the normal form is the empty path. -/
theorem C25_normal_form_empty_witness :
    NormalizedPath ["a", "b", "..", ".."] = [] :=
  (C25_normal_form_empty ["a", "b", "..", ".."] (by decide)).1.2
    (fun q hq =>
      (by decide : ∀ t ∈ ["a", "b", "..", ".."].tails, countOrdinary t ≤ countDotDot t) q
        ((List.mem_tails _ _).mpr hq))

/-! ## The element tests of `operator==` -/

/-- C26, counterexample: the fragment `.` passes the test for `DOT` and the
test for `SINGLE` (it has no parent path). -/
theorem C26_dot_is_also_single :
    pathIs ["."] ElementType.DOT = true ∧ pathIs ["."] ElementType.SINGLE = true := by
  decide

/-- A path with a parent path is longer than one element. -/
theorem has_parent_path_length (p : boost_path) (h : has_parent_path p = true) :
    2 ≤ p.length := by
  match p, h with
  | [], h => simp [has_parent_path] at h
  | [_], h => simp [has_parent_path] at h
  | _ :: _ :: _, _ => simp

/-- The parent path of a path that is not empty differs from the path. -/
theorem parent_path_ne (p : boost_path) (h : p ≠ []) : parent_path p ≠ p := by
  intro heq
  have hl := congrArg List.length heq
  unfold parent_path at hl
  rw [List.length_dropLast] at hl
  have : 0 < p.length := List.length_pos.mpr h
  omega

/-- C26, amended: of the five token tests (`*?`, `.....`, `.`, `..`, `/`) a
path passes at most one, and a path that passes one also passes the test for
`SINGLE`; every path passes the test for `SINGLE` or the one for `MULTIPLE`;
a path with a parent path passes the test for `MULTIPLE` and no other, and the
empty path passes the test for `SINGLE` and no other. -/
theorem C26_element_tests (p : boost_path) :
    (∀ s t : ElementType, s ≠ ElementType.SINGLE → s ≠ ElementType.MULTIPLE →
      t ≠ ElementType.SINGLE → t ≠ ElementType.MULTIPLE →
      pathIs p s = true → pathIs p t = true → s = t) ∧
    (∀ s : ElementType, s ≠ ElementType.SINGLE → s ≠ ElementType.MULTIPLE →
      pathIs p s = true → pathIs p ElementType.SINGLE = true) ∧
    (pathIs p ElementType.SINGLE = true ∨ pathIs p ElementType.MULTIPLE = true) ∧
    (has_parent_path p = true → ∀ t, pathIs p t = true ↔ t = ElementType.MULTIPLE) ∧
    (∀ t, pathIs ([] : boost_path) t = true ↔ t = ElementType.SINGLE) := by
  refine ⟨?_, ?_, ?_, ?_, ?_⟩
  · intro s t hs1 hs2 ht1 ht2 hs ht
    cases s <;> cases t <;> first
      | rfl
      | exact absurd rfl hs1
      | exact absurd rfl hs2
      | exact absurd rfl ht1
      | exact absurd rfl ht2
      | (simp only [pathIs, beq_iff_eq] at hs ht
         rw [hs] at ht
         exact absurd ht (by decide))
  · intro s hs1 hs2 hs
    have hone : ∃ tok, p = [tok] := by
      cases s <;> first
        | exact absurd rfl hs1
        | exact absurd rfl hs2
        | (simp only [pathIs, beq_iff_eq] at hs
           exact ⟨_, hs⟩)
    obtain ⟨tok, rfl⟩ := hone
    rfl
  · by_cases hp : p = []
    · subst hp; exact Or.inl (by decide)
    · right
      have := parent_path_ne p hp
      simp [pathIs, this]
  · intro hpp t
    have hlen := has_parent_path_length p hpp
    have hne : p ≠ [] := by
      intro h; subst h; simp at hlen
    have hpar := parent_path_ne p hne
    have htok : ∀ tok : String, (p == [tok]) = false := by
      intro tok
      cases h : p == [tok]
      · rfl
      · have := beq_iff_eq.mp h
        subst this
        simp at hlen
    cases t <;> simp [pathIs, htok, hpp, hpar]
  · intro t
    cases t <;> decide

/-- C26 amended, on `a/b`: the only test it passes is the one for
`MULTIPLE`. -/
theorem C26_element_tests_witness :
    ∀ t, pathIs ["a", "b"] t = true ↔ t = ElementType.MULTIPLE :=
  (C26_element_tests ["a", "b"]).2.2.2.1 (by decide)

/-! ## Root nodes as parents -/

/-- C27, failing input: with the root `/srv/data` registered under the label
`data`, `EmplacePath("/srv/data/a.txt")` returns the node 2 (`a.txt`, whose
parent is the root node 0) and has also created the parentless directory node
1 for `/srv`, an element of the root path itself: the search among the root
nodes under the string `/srv/data` finds nothing. With the same root
registered under the label `/srv/data` the only node created is `a.txt`. -/
theorem C27_root_found_by_path_string_only :
    fixtureRootData.m_path_nodes = [0] ∧
    fixtureRootData.findRoot "data" = some 0 ∧
    fixtureRootData.PathOf 0 = ["/", "srv", "data"] ∧
    fixtureRootData.findRoot (fixtureEnv.PathToString ["/", "srv", "data"]) = none ∧
    (Manager.Impl.EmplacePath fixtureEnv fixtureRootData ["/", "srv", "data", "a.txt"]).1
      = some 2 ∧
    (Manager.Impl.EmplacePath fixtureEnv fixtureRootData
      ["/", "srv", "data", "a.txt"]).2.m_path_nodes = [0, 1, 2] ∧
    (Manager.Impl.EmplacePath fixtureEnv fixtureRootData
      ["/", "srv", "data", "a.txt"]).2.node 1 = some (PathNode.root ["/", "srv"] false) ∧
    (Manager.Impl.EmplacePath fixtureEnv fixtureRootData
      ["/", "srv", "data", "a.txt"]).2.node 2
      = some (PathNode.child ["a.txt"] (PathNode.root ["/", "srv", "data"] false) false) ∧
    (Manager.Impl.EmplacePath fixtureEnv fixtureRootPathLabel
      ["/", "srv", "data", "a.txt"]).1 = some 1 ∧
    (Manager.Impl.EmplacePath fixtureEnv fixtureRootPathLabel
      ["/", "srv", "data", "a.txt"]).2.m_path_nodes = [0, 1] := by
  decide

/-! ## Helpers without a node -/

/-- Whenever `GetPathNode` yields no node, `CreateDirectories` goes on to call
`Writeable()` through the null pointer, while `WriteTextFile`, `WriteFile` and
`EraseFile` return false. -/
theorem CreateDirectories_without_node {σ : Type} (h : Host σ) (s : σ) (m m1 : Manager.Impl)
    (path : boost_path) (contents : String) (ofs_func : σ → Bool × σ) (mode : Nat)
    (hget : GetPathNode (h.env s) m path = (none, m1)) :
    CreateDirectories h s m path = none ∧
    WriteTextFile h s m path contents mode = (false, m1, s) ∧
    WriteFile h s m path ofs_func mode = (false, m1, s) ∧
    EraseFile h s m path = (false, m1, s) := by
  refine ⟨?_, ?_, ?_, ?_⟩
  · unfold CreateDirectories
    simp only [hget]
  · unfold WriteTextFile
    simp only [hget]
  · unfold WriteFile
    simp only [hget]
  · unfold EraseFile
    simp only [hget]

/-- C30, failing input: for the empty path `GetPathNode` yields no node;
`WriteTextFile`, `WriteFile` and `EraseFile` return false, and
`CreateDirectories` does not return: after logging it calls `Writeable()`
through the null pointer. -/
theorem C30_create_directories_null_node :
    GetPathNode (fixtureHost.env fixtureDisk) Manager.Impl.empty []
      = (none, Manager.Impl.empty) ∧
    CreateDirectories fixtureHost fixtureDisk Manager.Impl.empty [] = none ∧
    WriteTextFile fixtureHost fixtureDisk Manager.Impl.empty [] "new" 0
      = (false, Manager.Impl.empty, fixtureDisk) ∧
    WriteFile fixtureHost fixtureDisk Manager.Impl.empty [] (fun d => (true, d)) 0
      = (false, Manager.Impl.empty, fixtureDisk) ∧
    EraseFile fixtureHost fixtureDisk Manager.Impl.empty []
      = (false, Manager.Impl.empty, fixtureDisk) := by
  have hget : GetPathNode (fixtureHost.env fixtureDisk) Manager.Impl.empty []
      = (none, Manager.Impl.empty) := by decide
  have h := CreateDirectories_without_node fixtureHost fixtureDisk Manager.Impl.empty
    Manager.Impl.empty [] "new" (fun d => (true, d)) 0 hget
  exact ⟨hget, h.1, h.2.1, h.2.2.1, h.2.2.2⟩

/-! ## Managers built without a change of keys -/

/-- With parents before children, the node at a pointer does not depend on
the fuel once the fuel exceeds the pointer. -/
theorem nodeAt_fuel (store : List NodeObject) (h : ParentsBefore store) :
    ∀ fuel fuel' i, i < fuel → i < fuel' → nodeAt store fuel i = nodeAt store fuel' i := by
  intro fuel
  induction fuel with
  | zero => intro fuel' i hi; cases hi
  | succ f ih =>
    intro fuel' i hi hi'
    cases fuel' with
    | zero => cases hi'
    | succ f' =>
      unfold nodeAt
      cases hobj : store.get? i with
      | none => rfl
      | some obj =>
        simp only
        cases hpar : obj.m_parent_node with
        | none => rfl
        | some p =>
          have hp : p < i := h i obj p hobj hpar
          simp only
          rw [ih f' p (by omega) (by omega)]

/-- An object appended to the store leaves the nodes at the earlier pointers
as they were. -/
theorem nodeAt_append (store : List NodeObject) (obj : NodeObject) (h : ParentsBefore store) :
    ∀ fuel i, i < store.length → nodeAt (store ++ [obj]) fuel i = nodeAt store fuel i := by
  intro fuel
  induction fuel with
  | zero => intro i _; rfl
  | succ f ih =>
    intro i hi
    unfold nodeAt
    have hget : (store ++ [obj]).get? i = store.get? i := by
      simp [List.getElem?_append_left hi]
    rw [hget]
    cases hobj : store.get? i with
    | none => rfl
    | some o =>
      simp only
      cases hpar : o.m_parent_node with
      | none => rfl
      | some p =>
        have hp : p < i := h i o p hobj hpar
        simp only
        rw [ih p (by omega)]

/-- The path of a node with a parent is a function of the element and of the
path of the parent. -/
theorem PathNode.Path_child_congr (e : boost_path) (p q : PathNode) (a b : Bool)
    (h : p.Path = q.Path) : (PathNode.child e p a).Path = (PathNode.child e q b).Path := by
  rw [PathNode.Path, PathNode.Path, h]

/-- Stores whose objects agree in element and parent give the same paths. -/
theorem nodeAt_path_congr (s s' : List NodeObject)
    (h : ∀ i, (s.get? i).map NodeObject.shape = (s'.get? i).map NodeObject.shape) :
    ∀ fuel i, (nodeAt s fuel i).map PathNode.Path = (nodeAt s' fuel i).map PathNode.Path := by
  intro fuel
  induction fuel with
  | zero => intro i; rfl
  | succ f ih =>
    intro i
    unfold nodeAt
    have hi := h i
    cases hs : s.get? i with
    | none =>
      rw [hs] at hi
      cases hs' : s'.get? i with
      | none => rfl
      | some o' => rw [hs'] at hi; cases hi
    | some o =>
      rw [hs] at hi
      cases hs' : s'.get? i with
      | none => rw [hs'] at hi; cases hi
      | some o' =>
        rw [hs'] at hi
        simp only [Option.map_some', Option.some.injEq, NodeObject.shape, Prod.mk.injEq] at hi
        obtain ⟨he, hp⟩ := hi
        simp only
        rw [← hp, ← he]
        cases hpar : o.m_parent_node with
        | none =>
          simp only [Option.map_some']
          rfl
        | some p =>
          simp only
          have hrec := ih p
          cases h1 : nodeAt s f p with
          | none =>
            rw [h1] at hrec
            cases h2 : nodeAt s' f p with
            | none => rfl
            | some q' => rw [h2] at hrec; cases hrec
          | some q =>
            rw [h1] at hrec
            cases h2 : nodeAt s' f p with
            | none => rw [h2] at hrec; cases hrec
            | some q' =>
              rw [h2] at hrec
              simp only [Option.map_some', Option.some.injEq] at hrec ⊢
              exact PathNode.Path_child_congr _ _ _ _ _ hrec

/-- Member `Writeable` changes flags only: the store keeps its length, and
every object its element and parent. -/
theorem storeWriteable_shape (s : List NodeObject) :
    ∀ fuel ptr, (storeWriteable s fuel ptr).2.length = s.length ∧
      ∀ i, ((storeWriteable s fuel ptr).2.get? i).map NodeObject.shape
        = (s.get? i).map NodeObject.shape := by
  intro fuel
  induction fuel with
  | zero => intro ptr; exact ⟨rfl, fun _ => rfl⟩
  | succ f ih =>
    intro ptr
    unfold storeWriteable
    cases hobj : s.get? ptr with
    | none => exact ⟨rfl, fun _ => rfl⟩
    | some obj =>
      simp only
      split
      · cases hpar : obj.m_parent_node with
        | none => exact ⟨rfl, fun _ => rfl⟩
        | some p =>
          simp only
          obtain ⟨hl, hs⟩ := ih p
          split
          · refine ⟨by rw [List.length_set, hl], ?_⟩
            intro i
            by_cases hi : ptr = i
            · subst hi
              have hlt : ptr < s.length := by
                rcases Nat.lt_or_ge ptr s.length with h | h
                · exact h
                · rw [List.get?_eq_none.mpr h] at hobj; cases hobj
              have hset : ∀ x : NodeObject,
                  ((storeWriteable s f p).2.set ptr x).get? ptr = some x := by
                intro x
                simp [List.getElem?_set, hl, hlt]
              show Option.map NodeObject.shape (((storeWriteable s f p).2.set ptr _).get? ptr) = _
              rw [hset, hobj]
              simp [NodeObject.shape, hpar]
            · have hset : ∀ x : NodeObject,
                  ((storeWriteable s f p).2.set ptr x).get? i
                  = (storeWriteable s f p).2.get? i := by
                intro x
                simp [List.getElem?_set, hi]
              show Option.map NodeObject.shape (((storeWriteable s f p).2.set ptr _).get? i) = _
              rw [hset]
              exact hs i
          · exact ⟨hl, hs⟩
      · exact ⟨rfl, fun _ => rfl⟩

/-- Stores that agree in elements and parents agree on `ParentsBefore`. -/
theorem ParentsBefore.of_shape {s s' : List NodeObject} (h : ParentsBefore s)
    (hs : ∀ i, (s'.get? i).map NodeObject.shape = (s.get? i).map NodeObject.shape) :
    ParentsBefore s' := by
  intro i obj p hobj hpar
  have hi := hs i
  rw [hobj] at hi
  cases hs0 : s.get? i with
  | none => rw [hs0] at hi; cases hi
  | some o =>
    rw [hs0] at hi
    simp only [Option.map_some', Option.some.injEq, NodeObject.shape, Prod.mk.injEq] at hi
    exact h i o p hs0 (by rw [← hi.2, hpar])

/-- An appended object whose parent is in the store keeps `ParentsBefore`. -/
theorem ParentsBefore.append {s : List NodeObject} (h : ParentsBefore s) (obj : NodeObject)
    (hp : ∀ p, obj.m_parent_node = some p → p < s.length) : ParentsBefore (s ++ [obj]) := by
  intro i o p hobj hpar
  rcases Nat.lt_or_ge i s.length with hi | hi
  · have hget : (s ++ [obj]).get? i = s.get? i := by
      simp [List.getElem?_append_left hi]
    rw [hget] at hobj
    exact h i o p hobj hpar
  · have hlen : i < (s ++ [obj]).length := by
      rcases Nat.lt_or_ge i (s ++ [obj]).length with h1 | h1
      · exact h1
      · rw [List.get?_eq_none.mpr h1] at hobj; cases hobj
    have hi2 : i = s.length := by
      rw [List.length_append, List.length_singleton] at hlen
      omega
    subst hi2
    have hget : (s ++ [obj]).get? s.length = some obj := by simp
    rw [hget] at hobj
    cases hobj
    exact hp p hpar

/-- Member `Path()` at a pointer, from the node read off the store. -/
theorem Manager.Impl.PathOf_eq (m : Manager.Impl) (i : Nat) :
    m.PathOf i = ((nodeAt m.store m.store.length i).map PathNode.Path).getD [] := by
  unfold Manager.Impl.PathOf Manager.Impl.node
  cases nodeAt m.store m.store.length i <;> rfl

/-- A change of the store that keeps the paths of its objects keeps `Path()`
at every earlier pointer. -/
theorem Manager.Impl.PathOf_transfer (m m' : Manager.Impl)
    (hwf' : ParentsBefore m'.store) (hlen : m.store.length ≤ m'.store.length)
    (hpath : ∀ fuel i, i < m.store.length →
      (nodeAt m'.store fuel i).map PathNode.Path = (nodeAt m.store fuel i).map PathNode.Path)
    (i : Nat) (hi : i < m.store.length) : m'.PathOf i = m.PathOf i := by
  rw [Manager.Impl.PathOf_eq, Manager.Impl.PathOf_eq,
    nodeAt_fuel m'.store hwf' m'.store.length m.store.length i (by omega) hi,
    hpath m.store.length i hi]

/-- The invariant passes to a manager with the same held and root pointers
whose store keeps the paths of the earlier objects. -/
theorem Manager.Inv.of_store {m m' : Manager.Impl} (h : Manager.Inv m)
    (hheld : m'.m_path_nodes = m.m_path_nodes) (hroots : m'.m_root_nodes = m.m_root_nodes)
    (hwf' : ParentsBefore m'.store) (hlen : m.store.length ≤ m'.store.length)
    (hpath : ∀ i, i < m.store.length → m'.PathOf i = m.PathOf i) : Manager.Inv m' := by
  refine ⟨hwf', ?_, ?_, ?_⟩
  · intro i hi
    rw [hheld] at hi
    exact Nat.lt_of_lt_of_le (h.held i hi) hlen
  · intro e he
    rw [hroots] at he
    exact Nat.lt_of_lt_of_le (h.roots e he) hlen
  · intro i hi j hj hij
    rw [hheld] at hi hj
    rw [hpath i (h.held i hi), hpath j (h.held j hj)] at hij
    exact h.unique i hi j hj hij

/-- Call `m_path_nodes.emplace(ptr)` keeps the invariant and the store, and
the pointer it returns refers to an object of the store. -/
theorem Manager.Inv.containerEmplace {m : Manager.Impl} (h : Manager.Inv m) (ptr : Nat)
    (hptr : ptr < m.store.length) :
    Manager.Inv (m.containerEmplace ptr).2 ∧
    (m.containerEmplace ptr).1 < m.store.length ∧
    (m.containerEmplace ptr).2.store = m.store ∧
    (m.containerEmplace ptr).2.m_root_nodes = m.m_root_nodes := by
  unfold Manager.Impl.containerEmplace
  split
  · exact ⟨h, hptr, rfl, rfl⟩
  · cases hf : m.findKey (m.PathOf ptr) with
    | some existing =>
      simp only
      have hmem : existing ∈ m.m_path_nodes := by
        unfold Manager.Impl.findKey at hf
        exact List.mem_of_find?_eq_some hf
      exact ⟨h, h.held existing hmem, by first | rfl | trivial, by first | rfl | trivial⟩
    | none =>
      simp only
      refine ⟨⟨h.parents, ?_, h.roots, ?_⟩, hptr, by first | rfl | trivial,
        by first | rfl | trivial⟩
      · intro i hi
        rcases List.mem_append.1 hi with hi | hi
        · exact h.held i hi
        · rw [List.mem_singleton.1 hi]; exact hptr
      · have hnone : ∀ j ∈ m.m_path_nodes, m.PathOf j ≠ m.PathOf ptr := by
          intro j hj heq
          unfold Manager.Impl.findKey at hf
          have := List.find?_eq_none.mp hf j hj
          simp [heq] at this
        intro i hi j hj hij
        have hij' : m.PathOf i = m.PathOf j := hij
        rcases List.mem_append.1 hi with hi | hi
        · rcases List.mem_append.1 hj with hj | hj
          · exact h.unique i hi j hj hij'
          · rw [List.mem_singleton.1 hj] at hij' ⊢
            exact absurd hij' (hnone i hi)
        · rcases List.mem_append.1 hj with hj | hj
          · rw [List.mem_singleton.1 hi] at hij' ⊢
            exact absurd hij'.symm (hnone j hj)
          · rw [List.mem_singleton.1 hi, List.mem_singleton.1 hj]

/-- The store that `emplaceNew` appends the new object to: the store of the
manager after the `Writeable()` call of the constructor. -/
theorem Manager.Impl.emplaceNew_spec (m : Manager.Impl) (element : boost_path)
    (parent : Option Nat) (allow_writes : Bool) (cls : NodeClass) :
    ∃ (w : List NodeObject) (obj : NodeObject),
      w.length = m.store.length ∧
      (∀ i, (w.get? i).map NodeObject.shape = (m.store.get? i).map NodeObject.shape) ∧
      obj.m_parent_node = parent ∧
      m.emplaceNew element parent allow_writes cls =
        if (Manager.Impl.containerEmplace { m with store := w ++ [obj] } w.length).1 = w.length
        then Manager.Impl.containerEmplace { m with store := w ++ [obj] } w.length
        else ((Manager.Impl.containerEmplace { m with store := w ++ [obj] } w.length).1,
          { m with store := w }) := by
  unfold Manager.Impl.emplaceNew
  by_cases ha : allow_writes = true
  · subst ha
    exact ⟨m.store, _, rfl, fun _ => rfl, rfl, rfl⟩
  · have ha' : allow_writes = false := by simpa using ha
    subst ha'
    cases parent with
    | none => exact ⟨m.store, _, rfl, fun _ => rfl, rfl, rfl⟩
    | some p =>
      obtain ⟨hl, hs⟩ := storeWriteable_shape m.store m.store.length p
      exact ⟨(storeWriteable m.store m.store.length p).2, _, hl, hs, rfl, rfl⟩

/-- Creating a node under a parent of the store keeps the invariant, and the
pointer returned refers to an object of the store. -/
theorem Manager.Inv.emplaceNew {m : Manager.Impl} (h : Manager.Inv m) (element : boost_path)
    (parent : Option Nat) (allow_writes : Bool) (cls : NodeClass)
    (hparent : ∀ p, parent = some p → p < m.store.length) :
    Manager.Inv (m.emplaceNew element parent allow_writes cls).2 ∧
    (m.emplaceNew element parent allow_writes cls).1
      < (m.emplaceNew element parent allow_writes cls).2.store.length := by
  obtain ⟨w, obj, hl, hs, hobj, heq⟩ := m.emplaceNew_spec element parent allow_writes cls
  rw [heq]
  have hwf : ParentsBefore w := h.parents.of_shape hs
  have hwf1 : ParentsBefore (w ++ [obj]) :=
    hwf.append obj (fun p hp => by rw [hl]; exact hparent p (by rw [← hobj, hp]))
  have h2 : Manager.Inv { m with store := w } :=
    h.of_store rfl rfl hwf (by show m.store.length ≤ w.length; omega)
      (Manager.Impl.PathOf_transfer m { m with store := w } hwf
        (by show m.store.length ≤ w.length; omega)
        (fun fuel i _ => nodeAt_path_congr w m.store hs fuel i))
  have h1 : Manager.Inv { m with store := w ++ [obj] } :=
    h.of_store rfl rfl hwf1
      (by show m.store.length ≤ (w ++ [obj]).length; rw [List.length_append]; omega)
      (Manager.Impl.PathOf_transfer m { m with store := w ++ [obj] } hwf1
        (by show m.store.length ≤ (w ++ [obj]).length; rw [List.length_append]; omega)
        (fun fuel i hi => by
          show (nodeAt (w ++ [obj]) fuel i).map PathNode.Path = _
          rw [nodeAt_append w obj hwf fuel i (by omega)]
          exact nodeAt_path_congr w m.store hs fuel i))
  have hptr : w.length < (w ++ [obj]).length := by
    rw [List.length_append, List.length_singleton]; omega
  obtain ⟨hc1, hc2, hc3, _⟩ := h1.containerEmplace w.length hptr
  split
  · refine ⟨hc1, ?_⟩
    rw [hc3]
    exact hc2
  · rename_i hne
    refine ⟨h2, ?_⟩
    have hlt : (Manager.Impl.containerEmplace { m with store := w ++ [obj] } w.length).1
        < (w ++ [obj]).length := hc2
    rw [List.length_append, List.length_singleton] at hlt
    show _ < w.length
    omega

/-- A root found under a label refers to an object of the store. -/
theorem Manager.Inv.findRoot {m : Manager.Impl} (h : Manager.Inv m) (label : String) (root : Nat)
    (hf : m.findRoot label = some root) : root < m.store.length := by
  unfold Manager.Impl.findRoot at hf
  cases he : m.m_root_nodes.find? (fun e => e.1 == label) with
  | none => rw [he] at hf; cases hf
  | some e =>
    rw [he] at hf
    cases hf
    exact h.roots e (List.mem_of_find?_eq_some he)

/-- A node found under a key refers to an object of the store. -/
theorem Manager.Inv.findKey {m : Manager.Impl} (h : Manager.Inv m) (key : boost_path) (ptr : Nat)
    (hf : m.findKey key = some ptr) : ptr < m.store.length := by
  unfold Manager.Impl.findKey at hf
  exact h.held ptr (List.mem_of_find?_eq_some hf)

/-- The parent the first loop of `EmplaceParentDir` returns refers to an
object of the store. -/
theorem Manager.Inv.intercept {m : Manager.Impl} (h : Manager.Inv m) (env : Env) :
    ∀ (elements : List boost_path) (current_path : boost_path) (parent_node : Option Nat)
      (pending_elements : List boost_path),
      (∀ p, parent_node = some p → p < m.store.length) →
      ∀ p, (Manager.Impl.EmplaceParentDir.intercept env m elements current_path parent_node
        pending_elements).1 = some p → p < m.store.length := by
  intro elements
  induction elements with
  | nil => intro _ parent_node _ hp p hr; exact hp p hr
  | cons element rest ih =>
    intro current_path parent_node pending_elements hp p hr
    unfold Manager.Impl.EmplaceParentDir.intercept at hr
    split at hr
    · exact ih _ _ _ hp p hr
    · split at hr
      · exact ih _ _ _ hp p hr
      · rename_i root hroot
        exact ih _ _ _ (fun q hq => by cases hq; exact h.findRoot _ _ hroot) p hr

/-- The second loop of `EmplaceParentDir` keeps the invariant, and the
parent it returns refers to an object of the store. -/
theorem Manager.Inv.create :
    ∀ (elements : List boost_path) (m : Manager.Impl) (current_path : boost_path)
      (parent_node : Option Nat), Manager.Inv m →
      (∀ p, parent_node = some p → p < m.store.length) →
      Manager.Inv (Manager.Impl.EmplaceParentDir.create m elements current_path parent_node).2 ∧
      ∀ p, (Manager.Impl.EmplaceParentDir.create m elements current_path parent_node).1 = some p →
        p < (Manager.Impl.EmplaceParentDir.create m elements current_path
          parent_node).2.store.length := by
  intro elements
  induction elements with
  | nil => intro m _ parent_node h hp; exact ⟨h, hp⟩
  | cons element rest ih =>
    intro m current_path parent_node h hp
    unfold Manager.Impl.EmplaceParentDir.create
    cases hf : m.findKey (current_path ++ element) with
    | none =>
      simp only
      obtain ⟨h1, h2⟩ := h.emplaceNew element parent_node false NodeClass.DirNode hp
      exact ih _ _ _ h1 (fun q hq => by cases hq; exact h2)
    | some found =>
      simp only
      exact ih _ _ _ h (fun q hq => by cases hq; exact h.findKey _ _ hf)

/-- Member `EmplaceParentDir` keeps the invariant, and the parent it returns
refers to an object of the store. -/
theorem Manager.Inv.EmplaceParentDir {m : Manager.Impl} (h : Manager.Inv m) (env : Env)
    (path : boost_path) :
    Manager.Inv (m.EmplaceParentDir env path).2 ∧
    ∀ p, (m.EmplaceParentDir env path).1 = some p →
      p < (m.EmplaceParentDir env path).2.store.length := by
  unfold Manager.Impl.EmplaceParentDir
  split
  · exact ⟨h, fun p hp => by cases hp⟩
  · split
    · exact ⟨h, fun p hp => by cases hp⟩
    · have hi := h.intercept env (ElementsFromPath path) [] none []
        (fun p hp => by cases hp)
      simp only
      split
      · exact Manager.Inv.create _ m [] _ h hi
      · exact ⟨h, hi⟩

/-- Member `InsertPath` keeps the invariant. -/
theorem Manager.Inv.InsertPath {m : Manager.Impl} (h : Manager.Inv m) (env : Env)
    (path : boost_path) (allow_writes : Bool) :
    Manager.Inv (m.InsertPath env path allow_writes).2 := by
  unfold Manager.Impl.InsertPath
  split
  · exact h
  · obtain ⟨h1, h2⟩ := h.EmplaceParentDir env (NormalizePathFrom path)
    simp only
    cases env.status (NormalizePathFrom path) with
    | none => exact h1
    | some status => exact (h1.emplaceNew _ _ _ _ h2).1

/-- Member `EmplacePath` keeps the invariant. -/
theorem Manager.Inv.EmplacePath {m : Manager.Impl} (h : Manager.Inv m) (env : Env)
    (path : boost_path) : Manager.Inv (m.EmplacePath env path).2 := by
  unfold Manager.Impl.EmplacePath
  split
  · exact h
  · cases m.FindByPath path with
    | some node => exact h
    | none => exact h.InsertPath env path false

/-- Function `GetPathNode` keeps the invariant. -/
theorem Manager.Inv.GetPathNode {m : Manager.Impl} (h : Manager.Inv m) (env : Env)
    (path : boost_path) : Manager.Inv (GetPathNode env m path).2 := by
  unfold Node.GetPathNode
  simp only
  cases m.FindByPath (NormalizePathFrom path) with
  | some node => exact h
  | none => exact h.EmplacePath env _

/-- A parentless object appended to the store and registered as a root keeps
the invariant. -/
theorem Manager.Inv.append_root {m : Manager.Impl} (h : Manager.Inv m) (obj : NodeObject)
    (hobj : obj.m_parent_node = none) (label : String) :
    Manager.Inv { m with store := m.store ++ [obj],
                         m_root_nodes := m.m_root_nodes ++ [(label, m.store.length)] } := by
  have hwf1 : ParentsBefore (m.store ++ [obj]) :=
    h.parents.append obj (fun p hp => by rw [hobj] at hp; cases hp)
  refine ⟨hwf1, ?_, ?_, ?_⟩
  · intro i hi
    have := h.held i hi
    show i < (m.store ++ [obj]).length
    rw [List.length_append]; omega
  · intro e he
    show e.2 < (m.store ++ [obj]).length
    rw [List.length_append, List.length_singleton]
    rcases List.mem_append.1 he with he | he
    · have := h.roots e he; omega
    · rw [List.mem_singleton.1 he]; show m.store.length < _; omega
  · intro i hi j hj hij
    have hpath : ∀ k, k < m.store.length →
        Manager.Impl.PathOf
          { m with
            store := m.store ++ [obj],
            m_root_nodes := m.m_root_nodes ++ [(label, m.store.length)] } k = m.PathOf k :=
      Manager.Impl.PathOf_transfer m _ hwf1
        (by show m.store.length ≤ (m.store ++ [obj]).length; rw [List.length_append]; omega)
        (fun fuel k hk => by
          show (nodeAt (m.store ++ [obj]) fuel k).map PathNode.Path = _
          rw [nodeAt_append m.store obj h.parents fuel k hk])
    rw [hpath i (h.held i hi), hpath j (h.held j hj)] at hij
    exact h.unique i hi j hj hij

/-- Member `InitRootDir` keeps the invariant. -/
theorem Manager.Inv.InitRootDir {m : Manager.Impl} (h : Manager.Inv m) (label : String)
    (path : boost_path) (allow_writes : Bool) :
    Manager.Inv (m.InitRootDir label path allow_writes) := by
  unfold Manager.Impl.InitRootDir
  cases hf : m.findRoot label with
  | some root_ptr =>
    simp only
    exact (h.containerEmplace root_ptr (h.findRoot label root_ptr hf)).1
  | none =>
    simp only
    exact ((h.append_root _ rfl label).containerEmplace m.store.length (by
      show m.store.length < (m.store ++ [_]).length
      rw [List.length_append, List.length_singleton]; omega)).1

end Node
end VFS
